import Mathlib

/-!
Verification of the `spacecurve` crate (space-filling curve engine).

Shallow embedding of the curve algorithms in
`src/crates/spacecurve/src/{ops.rs, point.rs, curves/*.rs}` over `Nat`.
All Rust arithmetic in the embedded code paths operates on `u32`/`u64`
values that stay below `2^32` / `2^64` under the constructor-enforced
constraints (`order * dimension < 32`, `dimension < 32`), which the source
comments state explicitly ("Assumes d < 32, enforced by HCurve
constructor"); the embedding uses plain `Nat` with explicit wrap-around
(`% 2^64`) at the one place where the source relies on wrapping arithmetic
(`wrapping_sub` in `h_index_alphas`).
-/

namespace Spacecurve

/-! ### ops.rs: Gray code -/

/-- `ops::graycode`: convert a binary index to its binary reflected Gray code,
`x ^ (x >> 1)`. -/
def graycode (x : Nat) : Nat := x ^^^ (x >>> 1)

/-- Loop of `ops::igraycode`: starting from `g = b = x`, repeatedly shift `g`
right by one and XOR it into `b` until `g` reaches zero. -/
def igraycodeAux (g b : Nat) : Nat :=
  if h : g = 0 then b else igraycodeAux (g >>> 1) (b ^^^ (g >>> 1))
termination_by g
decreasing_by
  have hg : 0 < g := Nat.pos_of_ne_zero h
  calc g >>> 1 = g / 2 := by simp [Nat.shiftRight_one]
    _ < g := Nat.div_lt_self hg Nat.one_lt_two

/-- `ops::igraycode`: inverse Gray code, recovering binary from a BRGC value. -/
def igraycode (x : Nat) : Nat := igraycodeAux x x

theorem igraycodeAux_zero (b : Nat) : igraycodeAux 0 b = b := by
  rw [igraycodeAux]
  simp

theorem igraycodeAux_ne_zero {g : Nat} (h : g ≠ 0) (b : Nat) :
    igraycodeAux g b = igraycodeAux (g >>> 1) (b ^^^ (g >>> 1)) := by
  rw [igraycodeAux]
  simp [h]

theorem igraycodeAux_xor : ∀ g b, igraycodeAux g b = b ^^^ igraycodeAux g 0 := by
  intro g
  induction g using Nat.strong_induction_on with
  | _ g ih =>
    intro b
    by_cases hg : g = 0
    · subst hg
      simp [igraycodeAux_zero]
    · have hlt : g >>> 1 < g := by
        calc g >>> 1 = g / 2 := by simp [Nat.shiftRight_one]
          _ < g := Nat.div_lt_self (Nat.pos_of_ne_zero hg) Nat.one_lt_two
      rw [igraycodeAux_ne_zero hg, igraycodeAux_ne_zero hg 0,
        ih (g >>> 1) hlt (b ^^^ (g >>> 1)), ih (g >>> 1) hlt (0 ^^^ (g >>> 1))]
      simp [Nat.xor_assoc]

/-- Recursive characterisation of the `igraycode` loop: it XOR-accumulates
ever-smaller right shifts of the input. -/
theorem igraycode_eq (x : Nat) : igraycode x = x ^^^ igraycode (x >>> 1) := by
  by_cases hx : x = 0
  · subst hx
    simp [igraycode, igraycodeAux_zero]
  · unfold igraycode
    rw [igraycodeAux_ne_zero hx, igraycodeAux_xor,
      igraycodeAux_xor (x >>> 1) (x >>> 1), Nat.xor_assoc]

theorem shiftRight_one_lt {x : Nat} (hx : x ≠ 0) : x >>> 1 < x := by
  calc x >>> 1 = x / 2 := by simp [Nat.shiftRight_one]
    _ < x := Nat.div_lt_self (Nat.pos_of_ne_zero hx) Nat.one_lt_two

theorem xor_shiftRight_distrib (a b i : Nat) :
    (a ^^^ b) >>> i = (a >>> i) ^^^ (b >>> i) := by
  apply Nat.eq_of_testBit_eq
  intro j
  simp [Nat.testBit_shiftRight, Nat.testBit_xor]

theorem igraycode_shiftRight (x : Nat) : igraycode x >>> 1 = igraycode (x >>> 1) := by
  induction x using Nat.strong_induction_on with
  | _ x ih =>
    by_cases hx : x = 0
    · subst hx
      simp [igraycode, igraycodeAux_zero]
    · rw [igraycode_eq x, xor_shiftRight_distrib, ih (x >>> 1) (shiftRight_one_lt hx),
        igraycode_eq (x >>> 1)]

theorem graycode_shiftRight (x : Nat) : graycode x >>> 1 = graycode (x >>> 1) := by
  unfold graycode
  rw [xor_shiftRight_distrib]

theorem igraycode_graycode (x : Nat) : igraycode (graycode x) = x := by
  induction x using Nat.strong_induction_on with
  | _ x ih =>
    by_cases hx : x = 0
    · subst hx
      simp [igraycode, graycode, igraycodeAux_zero]
    · rw [igraycode_eq, graycode_shiftRight, ih (x >>> 1) (shiftRight_one_lt hx)]
      unfold graycode
      exact Nat.xor_cancel_right (x >>> 1) x

theorem graycode_igraycode (x : Nat) : graycode (igraycode x) = x := by
  unfold graycode
  rw [igraycode_shiftRight, igraycode_eq x]
  exact Nat.xor_cancel_right (igraycode (x >>> 1)) x

theorem shiftRight_lt_two_pow {x n i : Nat} (hx : x < 2 ^ n) : x >>> i < 2 ^ n := by
  have : x >>> i ≤ x := by
    rw [Nat.shiftRight_eq_div_pow]
    exact Nat.div_le_self x (2 ^ i)
  omega

theorem graycode_lt_two_pow {x n : Nat} (hx : x < 2 ^ n) : graycode x < 2 ^ n :=
  Nat.xor_lt_two_pow hx (shiftRight_lt_two_pow hx)

theorem igraycode_lt_two_pow {x : Nat} : ∀ {n : Nat}, x < 2 ^ n → igraycode x < 2 ^ n := by
  induction x using Nat.strong_induction_on with
  | _ x ih =>
    intro n hx
    by_cases hx0 : x = 0
    · subst hx0
      simpa [igraycode, igraycodeAux_zero] using hx
    · rw [igraycode_eq]
      exact Nat.xor_lt_two_pow hx
        (ih (x >>> 1) (shiftRight_one_lt hx0) (shiftRight_lt_two_pow hx))

/-! ### point.rs: squared Euclidean distance

`Point::distance` accumulates the exact integer sum `tot` of squared
coordinate deltas (in widened `i128`/`u128` arithmetic, so no overflow is
possible for `u32` coordinates) and returns `(tot as f64).sqrt()`. The
distance equals exactly `1.0` if and only if `tot = 1`, since `sqrt` and the
`u128 → f64` conversion are exact on `0` and `1`; the embedding states
continuity as `distSq p q = 1`. -/

/-- Integer sum of squared coordinate differences computed inside
`Point::distance` (the value `tot` before the final `sqrt`). -/
def distSq (p q : List Nat) : Nat :=
  (List.zip p q).foldl (fun tot ab => tot + ((ab.1 : Int) - (ab.2 : Int)).natAbs ^ 2) 0

/-! ### curves/hilbert_common.rs -/

/-- `hilbert_common::bitmask`: mask with `width` least-significant bits set.
`1u32.checked_shl(w).unwrap_or(0).wrapping_sub(1)` yields `2^w - 1` for
`w < 32` and `u32::MAX` for `w ≥ 32`. -/
def bitmask (width : Nat) : Nat :=
  match width with
  | 0 => 0
  | w => if w < 32 then 2 ^ w - 1 else 2 ^ 32 - 1

/-- `hilbert_common::lrot`: left rotation of `word` over `width` bits. -/
def lrot (word shift width : Nat) : Nat :=
  let width := width % 32
  if width = 0 then 0
  else
    let mask := bitmask width
    let shift := shift % width
    let w := word &&& mask
    ((w <<< shift) ||| (w >>> (width - shift))) &&& mask

/-- `hilbert_common::rrot`: right rotation of `word` over `width` bits. -/
def rrot (word shift width : Nat) : Nat :=
  let width := width % 32
  if width = 0 then 0
  else
    let mask := bitmask width
    let shift := shift % width
    let w := word &&& mask
    ((w >>> shift) ||| (w <<< (width - shift))) &&& mask

/-- `hilbert_common::bitrange`: extract bit range `[start, stop)` from `word`
limited to `width` bits, counting from the most significant end. -/
def bitrange (word width start stop : Nat) : Nat :=
  if start ≥ stop ∨ width = 0 then 0
  else
    let clampedEnd := min stop width
    let clampedStart := min start clampedEnd
    let len := clampedEnd - clampedStart
    if len = 0 then 0
    else (word >>> (width - clampedEnd)) &&& bitmask len

/-- `hilbert_common::setbit`: set bit at MSB-relative position `pos` (mask
`1 << (width - pos - 1)`, zero when the shift would overflow `u32`) to
`bit & 1`; clearing uses the `u32` complement `word & !mask`. -/
def setbit (word width pos bit : Nat) : Nat :=
  if width = 0 ∨ pos ≥ width then word
  else
    let mask := if width - pos - 1 < 32 then 1 <<< (width - pos - 1) else 0
    if bit &&& 1 = 1 then word ||| mask else word &&& ((2 ^ 32 - 1) ^^^ mask)

/-- One step of counting trailing one bits, iterated over the 32 bit
positions of a `u32`. -/
def trailingOnesAux : Nat → Nat → Nat
  | 0, _ => 0
  | fuel + 1, n => if n % 2 = 1 then trailingOnesAux fuel (n / 2) + 1 else 0

/-- `u32::trailing_ones`: count of trailing one bits of a 32-bit value. -/
def trailingOnes (n : Nat) : Nat := trailingOnesAux 32 n

/-- `hilbert_common::tsb`: count trailing set bits of `word` within `width`
bits. -/
def tsb (word width : Nat) : Nat :=
  trailingOnes (word &&& bitmask width)

/-- `hilbert_common::rot2`: swap the two bits of a 2-bit label. -/
def rot2 (label : Nat) : Nat :=
  match label &&& 3 with
  | 0 => 0
  | 1 => 2
  | 2 => 1
  | _ => 3

/-- `hilbert_common::gray2`: Gray code limited to the low two bits. -/
def gray2 (word : Nat) : Nat := graycode word &&& 3

/-! ### curves/hilbert2.rs

The source loops run `step = 0, 1, ..., order - 1`, reading the most
significant bits first. The embedding peels one iteration per recursion
layer: the layer at argument `o + 1` is source iteration
`step = order - 1 - o`, whose `bit_offset = order - step - 1` equals `o` and
whose accumulated word carries weight `4^o` (the running accumulator
`index_acc = (index_acc << 2) | word` distributes to `word <<< 2 * o`).
Constructor validation (`order * dimension < 32`) keeps every `u32` shift in
range, so no wrap-around is modelled. -/

namespace Hilbert2

/-- Loop of `hilbert2::hilbert_index`, one source iteration per layer. -/
def indexAux : Nat → Nat → Nat → Nat → Nat → Nat
  | 0, _, _, _, _ => 0
  | o + 1, entryState, directionState, px, py =>
    let aBit := (py >>> o) &&& 1
    let bBit := (px >>> o) &&& 1
    let label := (aBit ||| (bBit <<< 1)) ^^^ entryState
    let word := if directionState = 0 then gray2 (rot2 label) else gray2 label
    let entry2 := if word = 3 then 3 - entryState else entryState
    let direction2 :=
      if word = 0 ∨ word = 3 then directionState ^^^ 1 else directionState
    (word <<< (2 * o)) ||| indexAux o entry2 direction2 px py

/-- `hilbert2::hilbert_index`: 2D Hilbert index of `point` at `order`. -/
def hilbert_index (order : Nat) (point : List Nat) : Nat :=
  indexAux order 0 0 (point.getD 0 0) (point.getD 1 0)

/-- Loop of `hilbert2::hilbert_point`: the layer at `o + 1` is source
iteration `step = order - 1 - o`, reading index bits
`(index >> (hwidth - step * 2 - 2)) & 3 = (index >>> 2 * o) & 3` and writing
coordinate bit `bit_mask = 1 << (order - step - 1) = 2^o`. -/
def pointAux : Nat → Nat → Nat → Nat → Nat × Nat
  | 0, _, _, _ => (0, 0)
  | o + 1, entryState, directionState, index =>
    let word := (index >>> (2 * o)) &&& 3
    let label :=
      (if directionState = 0 then rot2 (gray2 word) else gray2 word) ^^^ entryState
    let entry2 := if word = 3 then 3 - entryState else entryState
    let direction2 :=
      if word = 0 ∨ word = 3 then directionState ^^^ 1 else directionState
    let rest := pointAux o entry2 direction2 index
    ((if label &&& 2 ≠ 0 then rest.1 ||| (1 <<< o) else rest.1),
     (if label &&& 1 ≠ 0 then rest.2 ||| (1 <<< o) else rest.2))

/-- `hilbert2::hilbert_point`: 2D Hilbert point `[x, y]` of `index`. -/
def hilbert_point (order index : Nat) : List Nat :=
  let xy := pointAux order 0 0 index
  [xy.1, xy.2]

end Hilbert2

/-! ### curves/hilbertn.rs

Same peeling convention: the layer at `o + 1` is source iteration
`order_idx = order - 1 - o`. The digit read there is
`bitrange(index, order * dimension, order_idx * dimension, order_idx *
dimension + dimension) = bitrange index ((o + 1) * d) 0 d` (both equal
`(index >>> o * d) &&& bitmask d`), the coordinate bit written is
`setbit(point[c], order, order_idx, bit) = setbit coordinate (o + 1) 0 bit`
(both use the mask `2^o`), and the index accumulator
`(index_acc << dimension) | word` distributes to `word <<< o * d`. -/

namespace Hilbertn

/-- `hilbertn::transform`: forward transform of the N-D Hilbert mapping. -/
def transform (entry direction width x : Nat) : Nat :=
  rrot ((x ^^^ entry) &&& bitmask width) (direction + 1) width

/-- `hilbertn::itransform`: inverse of `transform`. -/
def itransform (entry direction width x : Nat) : Nat :=
  lrot (x &&& bitmask width) (direction + 1) width ^^^ entry

/-- `hilbertn::direction`: direction function of the N-D Hilbert mapping
(trailing-bit parity of the masked digit). -/
def direction (x n : Nat) : Nat :=
  let masked := x &&& bitmask n
  if masked = 0 then 0
  else if masked % 2 = 0 then tsb (masked - 1) n % n
  else tsb masked n % n

/-- `hilbertn::entry`: entry function, the Gray code of `2 * ((x - 1) / 2)`. -/
def entry (x : Nat) : Nat :=
  match x with
  | 0 => 0
  | _ => graycode (2 * ((x - 1) / 2))

/-- State update `entry_state ^= lrot(entry(word), direction_state + 1,
dimension)` shared verbatim by both source loops. -/
def nextEntry (entryState directionState d word : Nat) : Nat :=
  entryState ^^^ lrot (entry word) (directionState + 1) d

/-- State update `direction_state = (direction_state + direction(word,
dimension) + 1) % dimension` shared verbatim by both source loops. -/
def nextDirection (directionState d word : Nat) : Nat :=
  (directionState + direction word d + 1) % d

/-- Loop of `hilbertn::hilbert_point`, one source iteration per layer. -/
def pointAux (d : Nat) : Nat → Nat → Nat → Nat → List Nat
  | 0, _, _, _ => List.replicate d 0
  | o + 1, entryState, directionState, index =>
    let word := bitrange index ((o + 1) * d) 0 d
    let label := itransform entryState directionState d (graycode word)
    let rest := pointAux d o (nextEntry entryState directionState d word)
      (nextDirection directionState d word) index
    (List.range d).map fun c => setbit (rest.getD c 0) (o + 1) 0 (bitrange label d c (c + 1))

/-- `hilbertn::hilbert_point`: N-D Hilbert point of `index`. -/
def hilbert_point (dimension order index : Nat) : List Nat :=
  pointAux dimension order 0 0 index

/-- Inner loop of `hilbertn::hilbert_index` gathering
`label |= bitrange(point[dimension - coord - 1], order, order_idx,
order_idx + 1) << coord` (the bit read is coordinate bit `o` in the peeled
indexing). -/
def labelBits (d o : Nat) (p : List Nat) : Nat :=
  (List.range d).foldl
    (fun acc c => acc ||| (bitrange (p.getD (d - c - 1) 0) (o + 1) 0 1) <<< c) 0

/-- Loop of `hilbertn::hilbert_index`, one source iteration per layer. -/
def indexAux (d : Nat) : Nat → Nat → Nat → List Nat → Nat
  | 0, _, _, _ => 0
  | o + 1, entryState, directionState, p =>
    let label := transform entryState directionState d (labelBits d o p)
    let word := igraycode label
    (word <<< (o * d)) |||
      indexAux d o (nextEntry entryState directionState d word)
        (nextDirection directionState d word) p

/-- `hilbertn::hilbert_index`: N-D Hilbert index of `point`. -/
def hilbert_index (dimension order : Nat) (point : List Nat) : Nat :=
  indexAux dimension order 0 0 point

end Hilbertn

/-! ### Bit-level facts about the helpers -/

theorem bitmask_eq {w : Nat} (h1 : 1 ≤ w) (h2 : w < 32) : bitmask w = 2 ^ w - 1 := by
  unfold bitmask
  match w, h1 with
  | w + 1, _ => simp [h2]

theorem and_bitmask {w : Nat} (h1 : 1 ≤ w) (h2 : w < 32) (x : Nat) :
    x &&& bitmask w = x % 2 ^ w := by
  rw [bitmask_eq h1 h2, Nat.and_pow_two_sub_one_eq_mod]

theorem mod_cycle_core {w : Nat} (h1 : 1 ≤ w) {j : Nat} (hj : j < w) (t : Nat) :
    (j + t + (w - t % w)) % w = j := by
  have hdm : w * (t / w) + t % w = t := Nat.div_add_mod t w
  have hle : t % w ≤ t := Nat.mod_le t w
  have hlt : t % w < w := Nat.mod_lt t h1
  have he : j + t + (w - t % w) = j + w + w * (t / w) := by omega
  rw [he, Nat.add_mul_mod_self_left, Nat.add_mod_right, Nat.mod_eq_of_lt hj]

theorem mod_cycle_right {w : Nat} (h1 : 1 ≤ w) {j : Nat} (hj : j < w) (t : Nat) :
    ((j + t) % w + (w - t % w)) % w = j := by
  rw [Nat.mod_add_mod]
  exact mod_cycle_core h1 hj t

theorem mod_cycle_left {w : Nat} (h1 : 1 ≤ w) {j : Nat} (hj : j < w) (t : Nat) :
    ((j + (w - t % w)) % w + t) % w = j := by
  rw [Nat.mod_add_mod]
  have he : j + (w - t % w) + t = j + t + (w - t % w) := by omega
  rw [he]
  exact mod_cycle_core h1 hj t

theorem testBit_lrot {w : Nat} (h1 : 1 ≤ w) (h2 : w < 32) (x s j : Nat) :
    (lrot x s w).testBit j = (decide (j < w) && x.testBit ((j + (w - s % w)) % w)) := by
  have hw32 : w % 32 = w := Nat.mod_eq_of_lt h2
  have hw0 : ¬ (w = 0) := by omega
  have hsw : s % w < w := Nat.mod_lt s h1
  unfold lrot
  simp only [hw32, hw0, if_false, bitmask_eq h1 h2,
    Nat.and_pow_two_sub_one_eq_mod]
  simp only [Nat.testBit_mod_two_pow, Nat.testBit_or, Nat.testBit_shiftLeft,
    Nat.testBit_shiftRight]
  by_cases hjw : j < w
  · by_cases hjs : s % w ≤ j
    · have e1 : (j + (w - s % w)) % w = j - s % w := by
        have : j + (w - s % w) = (j - s % w) + w := by omega
        rw [this, Nat.add_mod_right, Nat.mod_eq_of_lt (by omega)]
      have e2 : ¬ (w - s % w + j < w) := by omega
      simp [hjs, hjw, e1, e2, Nat.lt_of_le_of_lt (Nat.sub_le j (s % w)) hjw]
    · have e1 : (j + (w - s % w)) % w = j + (w - s % w) := Nat.mod_eq_of_lt (by omega)
      have e2 : w - s % w + j < w := by omega
      have e2b : j + (w - s % w) < w := by omega
      have e3 : w - s % w + j = j + (w - s % w) := by omega
      simp [hjs, hjw, e1, e2, e2b, e3]
  · simp [hjw]

theorem testBit_rrot {w : Nat} (h1 : 1 ≤ w) (h2 : w < 32) (x s j : Nat) :
    (rrot x s w).testBit j = (decide (j < w) && x.testBit ((j + s % w) % w)) := by
  have hw32 : w % 32 = w := Nat.mod_eq_of_lt h2
  have hw0 : ¬ (w = 0) := by omega
  have hsw : s % w < w := Nat.mod_lt s h1
  unfold rrot
  simp only [hw32, hw0, if_false, bitmask_eq h1 h2,
    Nat.and_pow_two_sub_one_eq_mod]
  simp only [Nat.testBit_mod_two_pow, Nat.testBit_or, Nat.testBit_shiftLeft,
    Nat.testBit_shiftRight]
  by_cases hjw : j < w
  · by_cases hjs : j + s % w < w
    · have e1 : (j + s % w) % w = j + s % w := Nat.mod_eq_of_lt hjs
      have e2 : ¬ (w - s % w ≤ j) := by omega
      have e3 : s % w + j < w := by omega
      have e4 : s % w + j = j + s % w := by omega
      simp [hjs, hjw, e1, e2, e3, e4]
    · have hlt : j + s % w - w < w := by omega
      have e1 : (j + s % w) % w = j + s % w - w := by
        conv_lhs => rw [show j + s % w = j + s % w - w + w by omega]
        rw [Nat.add_mod_right, Nat.mod_eq_of_lt hlt]
      have e2 : w - s % w ≤ j := by omega
      have e3 : j - (w - s % w) = j + s % w - w := by omega
      have e4 : ¬ (s % w + j < w) := by omega
      simp [hjs, hjw, e1, e2, e3, e4, hlt]
  · simp [hjw]

theorem rrot_lrot {w : Nat} (h1 : 1 ≤ w) (h2 : w < 32) (x s : Nat) :
    rrot (lrot x s w) s w = x % 2 ^ w := by
  apply Nat.eq_of_testBit_eq
  intro j
  rw [testBit_rrot h1 h2, testBit_lrot h1 h2]
  simp only [Nat.testBit_mod_two_pow]
  by_cases hjw : j < w
  · have hm : (j + s) % w < w := Nat.mod_lt _ h1
    have hkey : (j + s + (w - s % w)) % w = j := mod_cycle_core h1 hjw s
    simp [hjw, hm, hkey]
  · simp [hjw]

theorem lrot_lt {w : Nat} (h1 : 1 ≤ w) (h2 : w < 32) (x s : Nat) :
    lrot x s w < 2 ^ w := by
  apply Nat.lt_pow_two_of_testBit
  intro j hj
  rw [testBit_lrot h1 h2]
  simp [Nat.not_lt.mpr hj]

theorem rrot_lt {w : Nat} (h1 : 1 ≤ w) (h2 : w < 32) (x s : Nat) :
    rrot x s w < 2 ^ w := by
  apply Nat.lt_pow_two_of_testBit
  intro j hj
  rw [testBit_rrot h1 h2]
  simp [Nat.not_lt.mpr hj]

theorem lrot_xor {w : Nat} (h1 : 1 ≤ w) (h2 : w < 32) (x y s : Nat) :
    lrot (x ^^^ y) s w = lrot x s w ^^^ lrot y s w := by
  apply Nat.eq_of_testBit_eq
  intro j
  rw [Nat.testBit_xor, testBit_lrot h1 h2, testBit_lrot h1 h2, testBit_lrot h1 h2,
    Nat.testBit_xor]
  cases decide (j < w) <;> simp

theorem lrot_rrot {w : Nat} (h1 : 1 ≤ w) (h2 : w < 32) (x s : Nat) :
    lrot (rrot x s w) s w = x % 2 ^ w := by
  apply Nat.eq_of_testBit_eq
  intro j
  rw [testBit_lrot h1 h2, testBit_rrot h1 h2]
  simp only [Nat.testBit_mod_two_pow]
  by_cases hjw : j < w
  · have hm : (j + (w - s % w)) % w < w := Nat.mod_lt _ h1
    have hkey : ((j + (w - s % w)) % w + s) % w = j := mod_cycle_left h1 hjw s
    have hkey2 : (j + (w - s % w) + s) % w = j := by
      rw [← Nat.mod_add_mod]
      exact hkey
    simp [hjw, hm, hkey2]
  · simp [hjw]

theorem lrot_two_pow {w a : Nat} (h1 : 1 ≤ w) (h2 : w < 32) (ha : a < w) (s : Nat) :
    lrot (2 ^ a) s w = 2 ^ ((a + s) % w) := by
  apply Nat.eq_of_testBit_eq
  intro j
  rw [testBit_lrot h1 h2, Nat.testBit_two_pow, Nat.testBit_two_pow]
  by_cases hjw : j < w
  · simp only [hjw, decide_True, Bool.true_and]
    by_cases hja : (a + s) % w = j
    · subst hja
      have hkey : ((a + s) % w + (w - s % w)) % w = a := mod_cycle_right h1 ha s
      simp [hkey]
    · have hinner : ¬ (a = (j + (w - s % w)) % w) := by
        intro hcon
        apply hja
        rw [hcon]
        exact mod_cycle_left h1 hjw s
      simp [hja, hinner]
  · have hne : ¬ ((a + s) % w = j) := by
      have : (a + s) % w < w := Nat.mod_lt _ h1
      omega
    simp [hjw, hne]

/-! ### Specification lemmas for `bitrange` and `setbit` at the index
patterns used by the Hilbert loops -/

theorem bitrange_digit {d : Nat} (h1 : 1 ≤ d) (o i : Nat) :
    bitrange i ((o + 1) * d) 0 d = (i >>> (o * d)) &&& bitmask d := by
  have hw : (o + 1) * d ≠ 0 := Nat.mul_ne_zero (by omega) (by omega)
  have hdle : d ≤ (o + 1) * d := Nat.le_mul_of_pos_left d (by omega)
  have c1 : ¬ (0 ≥ d ∨ (o + 1) * d = 0) := by
    push_neg
    exact ⟨by omega, hw⟩
  have hshift : (o + 1) * d - d = o * d := by
    rw [Nat.succ_mul, Nat.add_sub_cancel]
  simp only [bitrange, c1, if_false, Nat.min_eq_left hdle, Nat.zero_min, Nat.sub_zero,
    hshift]
  rw [if_neg (by omega)]

theorem bitrange_coord_bit (o c : Nat) :
    bitrange c (o + 1) 0 1 = (c.testBit o).toNat := by
  have c1 : ¬ (0 ≥ 1 ∨ o + 1 = 0) := by omega
  have hle : (1 : Nat) ≤ o + 1 := by omega
  simp only [bitrange, c1, if_false, Nat.min_eq_left hle, Nat.zero_min, Nat.sub_zero,
    Nat.add_sub_cancel]
  rw [if_neg (by omega)]
  show c >>> o &&& bitmask 1 = (c.testBit o).toNat
  have h1 : bitmask 1 = 1 := rfl
  rw [h1, Nat.and_one_is_mod, Nat.shiftRight_eq_div_pow, ← Nat.toNat_testBit]

theorem bitrange_label_bit {d c : Nat} (hc : c < d) (label : Nat) :
    bitrange label d c (c + 1) = (label.testBit (d - c - 1)).toNat := by
  have c1 : ¬ (c ≥ c + 1 ∨ d = 0) := by omega
  have hle : c + 1 ≤ d := by omega
  have hle2 : c ≤ c + 1 := by omega
  simp only [bitrange, c1, if_false, Nat.min_eq_left hle, Nat.min_eq_left hle2,
    Nat.add_sub_cancel_left]
  rw [if_neg (by omega)]
  show label >>> (d - (c + 1)) &&& bitmask 1 = (label.testBit (d - c - 1)).toNat
  have h1 : bitmask 1 = 1 := rfl
  have h2 : d - (c + 1) = d - c - 1 := by omega
  rw [h1, h2, Nat.and_one_is_mod, Nat.shiftRight_eq_div_pow, ← Nat.toNat_testBit]

theorem setbit_top {o x b : Nat} (ho : o < 32) (hx : x < 2 ^ o) (hb : b ≤ 1) :
    setbit x (o + 1) 0 b = x + b * 2 ^ o := by
  have hcond : ¬ (o + 1 = 0 ∨ 0 ≥ o + 1) := by omega
  have hsub : o + 1 - 0 - 1 = o := by omega
  have hshl : (1 : Nat) <<< o = 2 ^ o := by
    rw [Nat.shiftLeft_eq, one_mul]
  simp only [setbit, hcond, if_false, hsub, ho, if_true, hshl]
  match b, hb with
  | 0, _ =>
    have h0 : ¬ ((0 : Nat) &&& 1 = 1) := by decide
    simp only [h0, if_false, Nat.zero_mul, Nat.add_zero]
    apply Nat.eq_of_testBit_eq
    intro j
    rw [Nat.testBit_and, Nat.testBit_xor]
    by_cases hj : j < o
    · have hj32 : j < 32 := by omega
      have t1 : Nat.testBit 4294967295 j = true := by
        rw [show (4294967295 : Nat) = 2 ^ 32 - 1 from rfl, Nat.testBit_two_pow_sub_one]
        exact decide_eq_true hj32
      have t2 : (2 ^ o : Nat).testBit j = false := by
        rw [Nat.testBit_two_pow]
        exact decide_eq_false (by omega)
      simp [t1, t2]
    · have t3 : x.testBit j = false :=
        Nat.testBit_eq_false_of_lt
          (lt_of_lt_of_le hx (Nat.pow_le_pow_right (by omega) (by omega)))
      simp [t3]
  | 1, _ =>
    have h1 : (1 : Nat) &&& 1 = 1 := by decide
    simp only [h1, if_true, Nat.one_mul]
    have hor := Nat.mul_add_lt_is_or hx 1
    rw [Nat.mul_one] at hor
    rw [Nat.or_comm, ← hor, Nat.add_comm]

theorem getD_map_range {d c : Nat} (f : Nat → Nat) (hc : c < d) :
    (((List.range d).map f).getD c 0) = f c := by
  rw [List.getD_eq_getElem?_getD, List.getElem?_map, List.getElem?_range hc]
  rfl

theorem getD_map_range_ge {d c : Nat} (f : Nat → Nat) (hc : d ≤ c) :
    (((List.range d).map f).getD c 0) = 0 := by
  rw [List.getD_eq_getElem?_getD, List.getElem?_map]
  have hnone : (List.range d)[c]? = none := by
    rw [List.getElem?_eq_none_iff]
    simpa using hc
  rw [hnone]
  rfl

theorem mod_two_pow_succ_decomp (x o : Nat) :
    x % 2 ^ (o + 1) = x % 2 ^ o + (x.testBit o).toNat * 2 ^ o := by
  have h1 : x % 2 ^ (o + 1) % 2 ^ o = x % 2 ^ o := by
    rw [Nat.mod_mod_of_dvd x (by rw [Nat.pow_succ]; exact Dvd.intro 2 rfl)]
  have h2 : x % 2 ^ (o + 1) / 2 ^ o = x / 2 ^ o % 2 := by
    rw [Nat.pow_succ, Nat.mod_mul_right_div_self]
  have h3 := Nat.div_add_mod (x % 2 ^ (o + 1)) (2 ^ o)
  rw [h1, h2] at h3
  rw [Nat.toNat_testBit, ← h3, Nat.mul_comm, Nat.add_comm]

theorem shiftRight_mod_mod {N k dd i : Nat} (h : k + dd ≤ N) :
    (i % 2 ^ N) >>> k % 2 ^ dd = i >>> k % 2 ^ dd := by
  apply Nat.eq_of_testBit_eq
  intro j
  simp only [Nat.testBit_mod_two_pow, Nat.testBit_shiftRight]
  by_cases hj : j < dd
  · have : k + j < N := by omega
    simp [hj, this]
  · simp [hj]

/-! ### N-D Hilbert: inversion of `transform`/`itransform` and bounds -/

namespace Hilbertn

theorem digit_eq {d : Nat} (h1 : 1 ≤ d) (h2 : d < 32) (o i : Nat) :
    bitrange i ((o + 1) * d) 0 d = (i >>> (o * d)) % 2 ^ d := by
  rw [bitrange_digit h1, and_bitmask h1 h2]

theorem digit_lt {d : Nat} (h1 : 1 ≤ d) (h2 : d < 32) (o i : Nat) :
    bitrange i ((o + 1) * d) 0 d < 2 ^ d := by
  rw [digit_eq h1 h2]
  exact Nat.mod_lt _ (Nat.two_pow_pos d)

theorem transform_lt {d : Nat} (h1 : 1 ≤ d) (h2 : d < 32) (e dir x : Nat) :
    transform e dir d x < 2 ^ d := by
  unfold transform
  exact rrot_lt h1 h2 _ _

theorem itransform_lt {d : Nat} (h1 : 1 ≤ d) (h2 : d < 32) {e : Nat} (he : e < 2 ^ d)
    (dir x : Nat) : itransform e dir d x < 2 ^ d := by
  unfold itransform
  exact Nat.xor_lt_two_pow (lrot_lt h1 h2 _ _) he

theorem transform_itransform {d : Nat} (h1 : 1 ≤ d) (h2 : d < 32) {x : Nat}
    (hx : x < 2 ^ d) (e dir : Nat) :
    transform e dir d (itransform e dir d x) = x := by
  unfold transform itransform
  rw [and_bitmask h1 h2 x, Nat.mod_eq_of_lt hx, Nat.xor_cancel_right,
    and_bitmask h1 h2, Nat.mod_eq_of_lt (lrot_lt h1 h2 _ _), rrot_lrot h1 h2,
    Nat.mod_eq_of_lt hx]

theorem itransform_transform {d : Nat} (h1 : 1 ≤ d) (h2 : d < 32) {e x : Nat}
    (he : e < 2 ^ d) (hx : x < 2 ^ d) (dir : Nat) :
    itransform e dir d (transform e dir d x) = x := by
  unfold itransform transform
  rw [and_bitmask h1 h2 (x ^^^ e), Nat.mod_eq_of_lt (Nat.xor_lt_two_pow hx he),
    and_bitmask h1 h2, Nat.mod_eq_of_lt (rrot_lt h1 h2 _ _), lrot_rrot h1 h2,
    Nat.mod_eq_of_lt (Nat.xor_lt_two_pow hx he), Nat.xor_cancel_right]

theorem nextEntry_lt {d : Nat} (h1 : 1 ≤ d) (h2 : d < 32) {e : Nat} (he : e < 2 ^ d)
    (dir w : Nat) : nextEntry e dir d w < 2 ^ d := by
  unfold nextEntry
  exact Nat.xor_lt_two_pow he (lrot_lt h1 h2 _ _)

theorem foldl_orbits (g : Nat → Nat) (hg : ∀ c, g c ≤ 1) :
    ∀ (n j : Nat),
      ((List.range n).foldl (fun acc c => acc ||| (g c) <<< c) 0).testBit j =
        (decide (j < n) && decide (g j = 1)) := by
  intro n
  induction n with
  | zero => simp
  | succ n ih =>
    intro j
    rw [List.range_succ, List.foldl_append]
    simp only [List.foldl_cons, List.foldl_nil]
    rw [Nat.testBit_or, ih j, Nat.testBit_shiftLeft]
    by_cases hj : j < n
    · have hj2 : j < n + 1 := by omega
      have hj3 : ¬ (j ≥ n) := by omega
      simp [hj, hj2, hj3]
    · by_cases hje : j = n
      · subst hje
        have h1 : (g j).testBit 0 = decide (g j = 1) := by
          rcases Nat.le_one_iff_eq_zero_or_eq_one.mp (hg j) with h | h <;> simp [h]
        simp [hj, h1]
      · have h2 : ¬ (j < n + 1) := by omega
        have h3 : (g n).testBit (j - n) = false := by
          apply Nat.testBit_eq_false_of_lt
          have : j - n ≥ 1 := by omega
          calc g n ≤ 1 := hg n
            _ < 2 ^ (j - n) := by
              have := Nat.one_lt_two_pow_iff.mpr (by omega : j - n ≠ 0)
              omega
        simp [hj, h2, h3]

theorem bitrange_coord_le_one (o c : Nat) : bitrange c (o + 1) 0 1 ≤ 1 := by
  rw [bitrange_coord_bit]
  cases c.testBit o <;> simp

theorem labelBits_testBit (d o : Nat) (p : List Nat) (j : Nat) :
    (labelBits d o p).testBit j =
      (decide (j < d) && (p.getD (d - j - 1) 0).testBit o) := by
  unfold labelBits
  rw [foldl_orbits (fun c => bitrange (p.getD (d - c - 1) 0) (o + 1) 0 1)
    (fun c => bitrange_coord_le_one o _) d j]
  congr 1
  rw [bitrange_coord_bit]
  cases h : (p.getD (d - j - 1) 0).testBit o <;> simp [h]

theorem labelBits_lt (d o : Nat) (p : List Nat) : labelBits d o p < 2 ^ d := by
  apply Nat.lt_pow_two_of_testBit
  intro j hj
  rw [labelBits_testBit]
  simp [Nat.not_lt.mpr hj]

theorem testBit_add_top {x b o : Nat} (hx : x < 2 ^ o) (hb : b ≤ 1) :
    (x + b * 2 ^ o).testBit o = decide (b = 1) := by
  rw [Nat.testBit_to_div_mod, Nat.mul_comm b (2 ^ o),
    Nat.add_mul_div_left x b (Nat.two_pow_pos o), Nat.div_eq_of_lt hx, Nat.zero_add]
  rcases Nat.le_one_iff_eq_zero_or_eq_one.mp hb with h | h <;> simp [h]

theorem replicate_getD (d c : Nat) : (List.replicate d (0 : Nat)).getD c 0 = 0 := by
  rw [List.getD_eq_getElem?_getD, List.getElem?_replicate]
  by_cases h : c < d <;> simp [h]

theorem pointAux_zero (d e dir i : Nat) : pointAux d 0 e dir i = List.replicate d 0 := rfl

theorem pointAux_succ (d o e dir i : Nat) :
    pointAux d (o + 1) e dir i =
      (List.range d).map (fun c =>
        setbit ((pointAux d o (nextEntry e dir d (bitrange i ((o + 1) * d) 0 d))
            (nextDirection dir d (bitrange i ((o + 1) * d) 0 d)) i).getD c 0)
          (o + 1) 0
          (bitrange (itransform e dir d (graycode (bitrange i ((o + 1) * d) 0 d)))
            d c (c + 1))) := rfl

theorem indexAux_zero (d e dir : Nat) (p : List Nat) : indexAux d 0 e dir p = 0 := rfl

theorem indexAux_succ (d o e dir : Nat) (p : List Nat) :
    indexAux d (o + 1) e dir p =
      ((igraycode (transform e dir d (labelBits d o p))) <<< (o * d)) |||
        indexAux d o
          (nextEntry e dir d (igraycode (transform e dir d (labelBits d o p))))
          (nextDirection dir d (igraycode (transform e dir d (labelBits d o p)))) p := rfl

theorem pointAux_getD_lt {d : Nat} (h1 : 1 ≤ d) :
    ∀ {o : Nat}, o < 32 → ∀ (e dir i c : Nat), (pointAux d o e dir i).getD c 0 < 2 ^ o := by
  intro o
  induction o with
  | zero =>
    intro _ e dir i c
    rw [pointAux_zero, replicate_getD]
    exact Nat.one_pos
  | succ o ih =>
    intro ho e dir i c
    rw [pointAux_succ]
    by_cases hc : c < d
    · rw [getD_map_range _ hc]
      have hrest := ih (by omega) (nextEntry e dir d (bitrange i ((o + 1) * d) 0 d))
        (nextDirection dir d (bitrange i ((o + 1) * d) 0 d)) i c
      have hb : bitrange (itransform e dir d (graycode (bitrange i ((o + 1) * d) 0 d)))
          d c (c + 1) ≤ 1 := by
        rw [bitrange_label_bit hc]
        cases (itransform e dir d (graycode (bitrange i ((o + 1) * d) 0 d))).testBit
          (d - c - 1) <;> simp
      rw [setbit_top (by omega) hrest hb]
      have : 2 ^ (o + 1) = 2 ^ o + 2 ^ o := by ring
      have hble : bitrange (itransform e dir d (graycode (bitrange i ((o + 1) * d) 0 d)))
          d c (c + 1) * 2 ^ o ≤ 2 ^ o := by
        calc _ ≤ 1 * 2 ^ o := Nat.mul_le_mul_right _ hb
          _ = 2 ^ o := Nat.one_mul _
      omega
    · rw [getD_map_range_ge _ (by omega)]
      exact Nat.two_pow_pos _

theorem pointAux_mod {d : Nat} (h1 : 1 ≤ d) (h2 : d < 32) :
    ∀ (o e dir i : Nat), pointAux d o e dir i = pointAux d o e dir (i % 2 ^ (o * d)) := by
  intro o
  induction o with
  | zero => intro e dir i; rfl
  | succ o ih =>
    intro e dir i
    have hdig : bitrange (i % 2 ^ ((o + 1) * d)) ((o + 1) * d) 0 d =
        bitrange i ((o + 1) * d) 0 d := by
      rw [digit_eq h1 h2, digit_eq h1 h2]
      exact shiftRight_mod_mod (by rw [Nat.succ_mul])
    rw [pointAux_succ, pointAux_succ, hdig]
    have hrest : pointAux d o (nextEntry e dir d (bitrange i ((o + 1) * d) 0 d))
        (nextDirection dir d (bitrange i ((o + 1) * d) 0 d)) i =
        pointAux d o (nextEntry e dir d (bitrange i ((o + 1) * d) 0 d))
          (nextDirection dir d (bitrange i ((o + 1) * d) 0 d)) (i % 2 ^ ((o + 1) * d)) := by
      rw [ih, ih _ _ (i % 2 ^ ((o + 1) * d))]
      congr 1
      rw [Nat.mod_mod_of_dvd]
      exact Nat.pow_dvd_pow 2 (by rw [Nat.succ_mul]; omega)
    rw [hrest]

theorem indexAux_lt {d : Nat} (h1 : 1 ≤ d) (h2 : d < 32) :
    ∀ (o e dir : Nat) (p : List Nat), indexAux d o e dir p < 2 ^ (o * d) := by
  intro o
  induction o with
  | zero => intro e dir p; rw [indexAux_zero]; exact Nat.two_pow_pos _
  | succ o ih =>
    intro e dir p
    rw [indexAux_succ]
    have hword : igraycode (transform e dir d (labelBits d o p)) < 2 ^ d :=
      igraycode_lt_two_pow (transform_lt h1 h2 _ _ _)
    have hrest := ih (nextEntry e dir d (igraycode (transform e dir d (labelBits d o p))))
      (nextDirection dir d (igraycode (transform e dir d (labelBits d o p)))) p
    have := Nat.append_lt hrest hword
    rwa [show o * d + d = (o + 1) * d by rw [Nat.succ_mul]] at this

theorem indexAux_pointAux {d : Nat} (h1 : 1 ≤ d) (h2 : d < 32) :
    ∀ (o : Nat), o < 32 → ∀ (e dir : Nat), e < 2 ^ d →
      ∀ (i : Nat), i < 2 ^ (o * d) →
        ∀ (p : List Nat),
          (∀ c, c < d → (p.getD c 0) % 2 ^ o = (pointAux d o e dir i).getD c 0) →
          indexAux d o e dir p = i := by
  intro o
  induction o with
  | zero =>
    intro _ e dir _ i hi p _
    rw [indexAux_zero]
    rw [Nat.zero_mul, Nat.pow_zero] at hi
    omega
  | succ o ih =>
    intro ho e dir he i hi p hp
    have ho' : o < 32 := by omega
    set w := bitrange i ((o + 1) * d) 0 d with hw
    have hwlt : w < 2 ^ d := digit_lt h1 h2 o i
    set lab := itransform e dir d (graycode w) with hlab
    have hlablt : lab < 2 ^ d := itransform_lt h1 h2 he _ _
    -- the label recomputed by the index loop equals the label used by the
    -- point loop
    have hlabelBits : labelBits d o p = lab := by
      apply Nat.eq_of_testBit_eq
      intro j
      rw [labelBits_testBit]
      by_cases hj : j < d
      · have hc : d - j - 1 < d := by omega
        have hpc := hp (d - j - 1) hc
        rw [pointAux_succ, getD_map_range _ hc] at hpc
        have harith : d - (d - j - 1) - 1 = j := by omega
        have hrestlt := pointAux_getD_lt h1 ho' (nextEntry e dir d w)
          (nextDirection dir d w) i (d - j - 1)
        have hble : bitrange lab d (d - j - 1) (d - j - 1 + 1) ≤ 1 := by
          rw [bitrange_label_bit hc]
          cases lab.testBit (d - (d - j - 1) - 1) <;> simp
        rw [setbit_top (by omega) hrestlt hble] at hpc
        have hbit : (p.getD (d - j - 1) 0).testBit o =
            ((p.getD (d - j - 1) 0) % 2 ^ (o + 1)).testBit o := by
          rw [Nat.testBit_mod_two_pow]
          simp
        rw [hbit, hpc, testBit_add_top hrestlt hble, bitrange_label_bit hc, harith]
        have hd : decide (j < d) = true := decide_eq_true hj
        rw [hd, Bool.true_and]
        cases lab.testBit j <;> simp
      · have hfalse : lab.testBit j = false :=
          Nat.testBit_eq_false_of_lt (lt_of_lt_of_le hlablt
            (Nat.pow_le_pow_right (by omega) (by omega)))
        simp [hj, hfalse]
    rw [indexAux_succ, hlabelBits]
    have htrans : transform e dir d lab = graycode w := by
      rw [hlab]
      exact transform_itransform h1 h2 (graycode_lt_two_pow hwlt) e dir
    rw [htrans, igraycode_graycode]
    -- the recursive call returns the low digits
    have hrec : indexAux d o (nextEntry e dir d w) (nextDirection dir d w) p =
        i % 2 ^ (o * d) := by
      apply ih ho' _ _ (nextEntry_lt h1 h2 he dir w) _
        (Nat.mod_lt _ (Nat.two_pow_pos _))
      intro c hc
      have hpc := hp c hc
      rw [pointAux_succ, getD_map_range _ hc] at hpc
      have hrestlt := pointAux_getD_lt h1 ho' (nextEntry e dir d w)
        (nextDirection dir d w) i c
      have hble : bitrange lab d c (c + 1) ≤ 1 := by
        rw [bitrange_label_bit hc]
        cases lab.testBit (d - c - 1) <;> simp
      rw [setbit_top (by omega) hrestlt hble] at hpc
      have hsplit : p.getD c 0 % 2 ^ o = (p.getD c 0 % 2 ^ (o + 1)) % 2 ^ o := by
        rw [Nat.mod_mod_of_dvd _ (Nat.pow_dvd_pow 2 (by omega))]
      rw [hsplit, hpc, Nat.add_mul_mod_self_right, Nat.mod_eq_of_lt hrestlt,
        ← pointAux_mod h1 h2]
    rw [hrec]
    -- reassemble the top digit and the low digits
    have hwdig : w = i / 2 ^ (o * d) := by
      rw [hw, digit_eq h1 h2, Nat.shiftRight_eq_div_pow]
      apply Nat.mod_eq_of_lt
      apply Nat.div_lt_of_lt_mul
      rw [← Nat.pow_add, ← Nat.succ_mul]
      exact hi
    rw [Nat.shiftLeft_eq, ← Nat.mul_comm (2 ^ (o * d)) w,
      ← Nat.mul_add_lt_is_or (Nat.mod_lt _ (Nat.two_pow_pos _)) w, hwdig,
      Nat.div_add_mod]

theorem pointAux_indexAux {d : Nat} (h1 : 1 ≤ d) (h2 : d < 32) :
    ∀ (o : Nat), o < 32 → ∀ (e dir : Nat), e < 2 ^ d →
      ∀ (p : List Nat) (c : Nat), c < d →
        (pointAux d o e dir (indexAux d o e dir p)).getD c 0 = p.getD c 0 % 2 ^ o := by
  intro o
  induction o with
  | zero =>
    intro _ e dir _ p c _
    rw [pointAux_zero, replicate_getD, Nat.pow_zero, Nat.mod_one]
  | succ o ih =>
    intro ho e dir he p c hc
    have ho' : o < 32 := by omega
    set lab0 := labelBits d o p with hlab0
    have hlab0lt : lab0 < 2 ^ d := labelBits_lt d o p
    set word := igraycode (transform e dir d lab0) with hword
    have hwordlt : word < 2 ^ d := igraycode_lt_two_pow (transform_lt h1 h2 _ _ _)
    set restI := indexAux d o (nextEntry e dir d word) (nextDirection dir d word) p
      with hrestI
    have hrestIlt : restI < 2 ^ (o * d) := indexAux_lt h1 h2 _ _ _ _
    have hIval : indexAux d (o + 1) e dir p = word * 2 ^ (o * d) + restI := by
      rw [indexAux_succ, ← hlab0, ← hword, ← hrestI, Nat.shiftLeft_eq,
        ← Nat.mul_comm (2 ^ (o * d)) word, ← Nat.mul_add_lt_is_or hrestIlt word,
        Nat.mul_comm (2 ^ (o * d)) word]
    have hdig : bitrange (word * 2 ^ (o * d) + restI) ((o + 1) * d) 0 d = word := by
      rw [digit_eq h1 h2, Nat.shiftRight_eq_div_pow, Nat.mul_comm word (2 ^ (o * d)),
        Nat.mul_add_div (Nat.two_pow_pos _), Nat.div_eq_of_lt hrestIlt, Nat.add_zero,
        Nat.mod_eq_of_lt hwordlt]
    rw [hIval, pointAux_succ, getD_map_range _ hc, hdig]
    have hlabp : itransform e dir d (graycode word) = lab0 := by
      rw [hword, graycode_igraycode]
      exact itransform_transform h1 h2 he hlab0lt dir
    rw [hlabp]
    have hrest : pointAux d o (nextEntry e dir d word) (nextDirection dir d word)
        (word * 2 ^ (o * d) + restI) =
        pointAux d o (nextEntry e dir d word) (nextDirection dir d word) restI := by
      rw [pointAux_mod h1 h2 o _ _ (word * 2 ^ (o * d) + restI),
        Nat.mul_comm word (2 ^ (o * d)), Nat.mul_add_mod, Nat.mod_eq_of_lt hrestIlt]
    rw [hrest]
    have hih := ih ho' (nextEntry e dir d word) (nextDirection dir d word)
      (nextEntry_lt h1 h2 he dir word) p c hc
    rw [← hrestI] at hih
    rw [hih]
    have hb : bitrange lab0 d c (c + 1) = ((p.getD c 0).testBit o).toNat := by
      rw [bitrange_label_bit hc, hlab0, labelBits_testBit]
      have harith : d - (d - c - 1) - 1 = c := by omega
      have hcd : d - c - 1 < d := by omega
      rw [harith, decide_eq_true hcd, Bool.true_and]
    rw [hb, setbit_top (by omega) (Nat.mod_lt _ (Nat.two_pow_pos _) : p.getD c 0 % 2 ^ o < 2 ^ o)
      (by cases (p.getD c 0).testBit o <;> simp), ← mod_two_pow_succ_decomp]

theorem pointAux_length (d o e dir i : Nat) : (pointAux d o e dir i).length = d := by
  cases o with
  | zero => simp [pointAux_zero]
  | succ o => rw [pointAux_succ]; simp

end Hilbertn

/-! ### Equivalence of the 2D specialised automaton and the N-D generic path
at dimension 2.

On the reachable states (`entry_state ∈ {0, 3}`, `direction_state ∈ {0, 1}`)
the two automata carry literally equal state and produce equal labels and
words; each per-step fact is a finite check. -/

theorem igraycode_zero_val : igraycode 0 = 0 := by
  simp [igraycode, igraycodeAux]

theorem igraycode_graycode_eq {w l : Nat} (h : graycode w = l) : igraycode l = w := by
  rw [← h, igraycode_graycode]

theorem bisim_label {e dir w : Nat} (he : e = 0 ∨ e = 3) (hdir : dir < 2) (hw : w < 4) :
    (if dir = 0 then rot2 (gray2 w) else gray2 w) ^^^ e =
      Hilbertn.itransform e dir 2 (graycode w) := by
  rcases he with rfl | rfl <;> interval_cases dir <;> interval_cases w <;> decide

theorem bisim_entry {e dir w : Nat} (he : e = 0 ∨ e = 3) (hdir : dir < 2) (hw : w < 4) :
    (if w = 3 then 3 - e else e) = Hilbertn.nextEntry e dir 2 w ∧
      (Hilbertn.nextEntry e dir 2 w = 0 ∨ Hilbertn.nextEntry e dir 2 w = 3) := by
  rcases he with rfl | rfl <;> interval_cases dir <;> interval_cases w <;> decide

theorem bisim_direction {dir w : Nat} (hdir : dir < 2) (hw : w < 4) :
    (if w = 0 ∨ w = 3 then dir ^^^ 1 else dir) = Hilbertn.nextDirection dir 2 w ∧
      Hilbertn.nextDirection dir 2 w < 2 := by
  interval_cases dir <;> interval_cases w <;> decide

theorem bisim_word {e dir l : Nat} (he : e = 0 ∨ e = 3) (hdir : dir < 2) (hl : l < 4) :
    graycode (if dir = 0 then gray2 (rot2 (l ^^^ e)) else gray2 (l ^^^ e)) =
      Hilbertn.transform e dir 2 l := by
  rcases he with rfl | rfl <;> interval_cases dir <;> interval_cases l <;> decide

theorem digit_two_eq {o i : Nat} : bitrange i ((o + 1) * 2) 0 2 = (i >>> (2 * o)) &&& 3 := by
  rw [Hilbertn.digit_eq (by omega) (by omega), Nat.mul_comm o 2,
    show (3 : Nat) = 2 ^ 2 - 1 from rfl, Nat.and_pow_two_sub_one_eq_mod]

theorem word_two_lt (o i : Nat) : (i >>> (2 * o)) &&& 3 < 4 := by
  have h := Nat.and_le_right (n := i >>> (2 * o)) (m := 3)
  omega

theorem cond_or_lt {a o : Nat} (P : Prop) [Decidable P] (ha : a < 2 ^ o) :
    (if P then a ||| 1 <<< o else a) < 2 ^ (o + 1) := by
  have h1 : (1 : Nat) <<< o = 2 ^ o := by rw [Nat.shiftLeft_eq, one_mul]
  have h2 : (2 : Nat) ^ o < 2 ^ (o + 1) := Nat.pow_lt_pow_right (by omega) (by omega)
  split
  · rw [h1]
    exact Nat.or_lt_two_pow (by omega) h2
  · omega

theorem hilbert2_pointAux_lt : ∀ (o e dir i : Nat),
    (Hilbert2.pointAux o e dir i).1 < 2 ^ o ∧ (Hilbert2.pointAux o e dir i).2 < 2 ^ o := by
  intro o
  induction o with
  | zero => intro e dir i; exact ⟨Nat.one_pos, Nat.one_pos⟩
  | succ o ih =>
    intro e dir i
    simp only [Hilbert2.pointAux]
    exact ⟨cond_or_lt _ (ih _ _ i).1, cond_or_lt _ (ih _ _ i).2⟩

theorem or_bit_eq {a o : Nat} (ha : a < 2 ^ o) (L j : Nat) :
    (if L &&& 2 ^ j ≠ 0 then a ||| 1 <<< o else a) = a + (L.testBit j).toNat * 2 ^ o := by
  have h1 : (1 : Nat) <<< o = 2 ^ o := by rw [Nat.shiftLeft_eq, one_mul]
  have h2 : L &&& 2 ^ j = (L.testBit j).toNat * 2 ^ j := Nat.and_two_pow L j
  by_cases hb : L.testBit j
  · have hcond : L &&& 2 ^ j ≠ 0 := by
      rw [h2, hb, Bool.toNat_true, Nat.one_mul]
      exact Nat.pos_iff_ne_zero.mp (Nat.two_pow_pos j)
    rw [if_pos hcond, h1, hb, Bool.toNat_true, Nat.one_mul]
    have hor := Nat.mul_add_lt_is_or ha 1
    rw [Nat.mul_one] at hor
    rw [Nat.or_comm, ← hor, Nat.add_comm]
  · have hcond : ¬ (L &&& 2 ^ j ≠ 0) := by
      rw [h2]
      simp [hb]
    rw [if_neg hcond]
    simp [hb]

theorem pointAux_equiv : ∀ (o : Nat), o < 32 → ∀ (e dir i : Nat),
    (e = 0 ∨ e = 3) → dir < 2 →
    (Hilbertn.pointAux 2 o e dir i).getD 0 0 = (Hilbert2.pointAux o e dir i).1 ∧
      (Hilbertn.pointAux 2 o e dir i).getD 1 0 = (Hilbert2.pointAux o e dir i).2 := by
  intro o
  induction o with
  | zero =>
    intro _ e dir i _ _
    rw [Hilbertn.pointAux_zero]
    exact ⟨Hilbertn.replicate_getD 2 0, Hilbertn.replicate_getD 2 1⟩
  | succ o ih =>
    intro ho e dir i he hdir
    have ho' : o < 32 := by omega
    have hwlt : (i >>> (2 * o)) &&& 3 < 4 := word_two_lt o i
    have hlab := bisim_label he hdir hwlt
    have hent := bisim_entry he hdir hwlt
    have hdirn := bisim_direction hdir hwlt
    have hih := ih ho' (Hilbertn.nextEntry e dir 2 ((i >>> (2 * o)) &&& 3))
      (Hilbertn.nextDirection dir 2 ((i >>> (2 * o)) &&& 3)) i hent.2 hdirn.2
    rw [Hilbertn.pointAux_succ, digit_two_eq]
    have hX0 := Hilbertn.pointAux_getD_lt (d := 2) (by omega) ho'
      (Hilbertn.nextEntry e dir 2 ((i >>> (2 * o)) &&& 3))
      (Hilbertn.nextDirection dir 2 ((i >>> (2 * o)) &&& 3)) i 0
    have hX1 := Hilbertn.pointAux_getD_lt (d := 2) (by omega) ho'
      (Hilbertn.nextEntry e dir 2 ((i >>> (2 * o)) &&& 3))
      (Hilbertn.nextDirection dir 2 ((i >>> (2 * o)) &&& 3)) i 1
    constructor
    · rw [getD_map_range _ (by omega : (0 : Nat) < 2),
        bitrange_label_bit (by omega : (0 : Nat) < 2),
        setbit_top (by omega) hX0 (by cases h : (Hilbertn.itransform e dir 2
          (graycode ((i >>> (2 * o)) &&& 3))).testBit (2 - 0 - 1) <;> simp [h])]
      simp only [Hilbert2.pointAux]
      rw [hlab, hent.1, hdirn.1, ← hih.1]
      exact (or_bit_eq hX0 (Hilbertn.itransform e dir 2
        (graycode ((i >>> (2 * o)) &&& 3))) 1).symm
    · rw [getD_map_range _ (by omega : (1 : Nat) < 2),
        bitrange_label_bit (by omega : (1 : Nat) < 2),
        setbit_top (by omega) hX1 (by cases h : (Hilbertn.itransform e dir 2
          (graycode ((i >>> (2 * o)) &&& 3))).testBit (2 - 1 - 1) <;> simp [h])]
      simp only [Hilbert2.pointAux]
      rw [hlab, hent.1, hdirn.1, ← hih.2]
      exact (or_bit_eq hX1 (Hilbertn.itransform e dir 2
        (graycode ((i >>> (2 * o)) &&& 3))) 0).symm

theorem and_one_eq_toNat (x o : Nat) : (x >>> o) &&& 1 = (x.testBit o).toNat := by
  rw [Nat.and_one_is_mod, Nat.shiftRight_eq_div_pow, ← Nat.toNat_testBit]

theorem labelBits_two (o : Nat) (p : List Nat) :
    Hilbertn.labelBits 2 o p =
      (((p.getD 1 0) >>> o) &&& 1) ||| ((((p.getD 0 0) >>> o) &&& 1) <<< 1) := by
  unfold Hilbertn.labelBits
  rw [show List.range 2 = [0, 1] from rfl]
  simp only [List.foldl_cons, List.foldl_nil]
  rw [bitrange_coord_bit, bitrange_coord_bit, and_one_eq_toNat, and_one_eq_toNat]
  norm_num

theorem raw_label_lt (a b : Nat) (ha : a ≤ 1) (hb : b ≤ 1) : a ||| (b <<< 1) < 4 := by
  have h1 : a < 2 ^ 2 := by omega
  have h2 : b <<< 1 < 2 ^ 2 := by
    rw [Nat.shiftLeft_eq]
    omega
  exact Nat.or_lt_two_pow h1 h2

theorem and_one_le (x o : Nat) : (x >>> o) &&& 1 ≤ 1 := Nat.and_le_right

theorem gray2_lt (w : Nat) : gray2 w < 4 := by
  have h : graycode w &&& 3 ≤ 3 := Nat.and_le_right
  unfold gray2
  omega

theorem indexAux_equiv : ∀ (o e dir : Nat) (p : List Nat),
    (e = 0 ∨ e = 3) → dir < 2 →
    Hilbert2.indexAux o e dir (p.getD 0 0) (p.getD 1 0) = Hilbertn.indexAux 2 o e dir p := by
  intro o
  induction o with
  | zero => intro e dir p _ _; rfl
  | succ o ih =>
    intro e dir p he hdir
    have hraw : Hilbertn.labelBits 2 o p =
        (((p.getD 1 0) >>> o) &&& 1) ||| ((((p.getD 0 0) >>> o) &&& 1) <<< 1) :=
      labelBits_two o p
    have hrawlt : (((p.getD 1 0) >>> o) &&& 1) ||| ((((p.getD 0 0) >>> o) &&& 1) <<< 1) < 4 :=
      raw_label_lt _ _ (and_one_le _ _) (and_one_le _ _)
    have hword := bisim_word (l := (((p.getD 1 0) >>> o) &&& 1) |||
      ((((p.getD 0 0) >>> o) &&& 1) <<< 1)) he hdir hrawlt
    have hwordval : igraycode (Hilbertn.transform e dir 2 (Hilbertn.labelBits 2 o p)) =
        (if dir = 0 then
          gray2 (rot2 (((((p.getD 1 0) >>> o) &&& 1) |||
            ((((p.getD 0 0) >>> o) &&& 1) <<< 1)) ^^^ e))
        else
          gray2 (((((p.getD 1 0) >>> o) &&& 1) |||
            ((((p.getD 0 0) >>> o) &&& 1) <<< 1)) ^^^ e)) := by
      rw [hraw, ← hword, igraycode_graycode]
    set w2 := (if dir = 0 then
        gray2 (rot2 (((((p.getD 1 0) >>> o) &&& 1) |||
          ((((p.getD 0 0) >>> o) &&& 1) <<< 1)) ^^^ e))
      else
        gray2 (((((p.getD 1 0) >>> o) &&& 1) |||
          ((((p.getD 0 0) >>> o) &&& 1) <<< 1)) ^^^ e)) with hw2def
    have hw2lt : w2 < 4 := by
      rw [hw2def]
      split <;> exact gray2_lt _
    have hent := bisim_entry (w := w2) he hdir hw2lt
    have hdirn := bisim_direction (w := w2) hdir hw2lt
    simp only [Hilbertn.indexAux_succ, Hilbert2.indexAux]
    rw [hwordval, hent.1, hdirn.1, ih _ _ p hent.2 hdirn.2, Nat.mul_comm 2 o]

theorem list_eq_pair (l : List Nat) (h : l.length = 2) : l = [l.getD 0 0, l.getD 1 0] := by
  match l, h with
  | [a, b], _ => rfl

theorem getD_eq_getElem {l : List Nat} {c : Nat} (hc : c < l.length) :
    l.getD c 0 = l[c] := by
  rw [List.getD_eq_getElem?_getD, List.getElem?_eq_getElem hc]
  rfl

theorem list_eq_of_getD {l1 l2 : List Nat} (hlen : l1.length = l2.length)
    (h : ∀ c, c < l1.length → l1.getD c 0 = l2.getD c 0) : l1 = l2 := by
  apply List.ext_getElem hlen
  intro c h1 h2
  rw [← getD_eq_getElem h1, ← getD_eq_getElem h2]
  exact h c h1

theorem hilbert_point_equiv {order : Nat} (ho : order < 32) (i : Nat) :
    Hilbert2.hilbert_point order i = Hilbertn.hilbert_point 2 order i := by
  have hlen := Hilbertn.pointAux_length 2 order 0 0 i
  have heq := pointAux_equiv order ho 0 0 i (Or.inl rfl) (by omega)
  unfold Hilbert2.hilbert_point Hilbertn.hilbert_point
  rw [list_eq_pair _ hlen, heq.1, heq.2]

theorem hilbert_index_equiv (order : Nat) (p : List Nat) :
    Hilbert2.hilbert_index order p = Hilbertn.hilbert_index 2 order p :=
  indexAux_equiv order 0 0 p (Or.inl rfl) (by omega)

/-! ### Hilbert round-trip at the `hilbert_point`/`hilbert_index` level -/

theorem hilbertn_point_index {d order : Nat} (h1 : 1 ≤ d) (h2 : d < 32)
    (ho : order < 32) (p : List Nat) (hlen : p.length = d)
    (hcoord : ∀ c, c < d → p.getD c 0 < 2 ^ order) :
    Hilbertn.hilbert_point d order (Hilbertn.hilbert_index d order p) = p := by
  unfold Hilbertn.hilbert_point Hilbertn.hilbert_index
  apply list_eq_of_getD
  · rw [Hilbertn.pointAux_length, hlen]
  · intro c hc
    rw [Hilbertn.pointAux_length] at hc
    rw [Hilbertn.pointAux_indexAux h1 h2 order ho 0 0 (Nat.two_pow_pos d) p c hc,
      Nat.mod_eq_of_lt (hcoord c hc)]

theorem hilbertn_index_point {d order : Nat} (h1 : 1 ≤ d) (h2 : d < 32)
    (ho : order < 32) (i : Nat) (hi : i < 2 ^ (order * d)) :
    Hilbertn.hilbert_index d order (Hilbertn.hilbert_point d order i) = i := by
  unfold Hilbertn.hilbert_point Hilbertn.hilbert_index
  apply Hilbertn.indexAux_pointAux h1 h2 order ho 0 0 (Nat.two_pow_pos d) i hi
  intro c hc
  rw [Nat.mod_eq_of_lt (Hilbertn.pointAux_getD_lt h1 ho 0 0 i c)]

/-- Claim C1: for any valid `(dimension, order)` (dimension ≥ 2, order ≥ 1,
order · dimension < 32), `hilbert_point` and `hilbert_index` are mutually
inverse — `point(index(p)) = p` for every point with `dimension` coordinates
each below `2^order`, and `index(point(i)) = i` for every
`i < 2^(order · dimension)` — on the generic N-D path, and likewise on the
2D specialised path when the dimension is 2. -/
theorem claim_C1 (dimension order : Nat) (hd : 2 ≤ dimension) (ho1 : 1 ≤ order)
    (hv : order * dimension < 32) :
    (∀ p : List Nat, p.length = dimension →
        (∀ c, c < dimension → p.getD c 0 < 2 ^ order) →
        Hilbertn.hilbert_point dimension order
          (Hilbertn.hilbert_index dimension order p) = p) ∧
      (∀ i, i < 2 ^ (order * dimension) →
        Hilbertn.hilbert_index dimension order
          (Hilbertn.hilbert_point dimension order i) = i) ∧
      (dimension = 2 →
        (∀ p : List Nat, p.length = 2 → (∀ c, c < 2 → p.getD c 0 < 2 ^ order) →
          Hilbert2.hilbert_point order (Hilbert2.hilbert_index order p) = p) ∧
        (∀ i, i < 2 ^ (order * 2) →
          Hilbert2.hilbert_index order (Hilbert2.hilbert_point order i) = i)) := by
  have hd1 : 1 ≤ dimension := by omega
  have hd32 : dimension < 32 := by nlinarith
  have ho32 : order < 32 := by nlinarith
  refine ⟨fun p hlen hcoord => hilbertn_point_index hd1 hd32 ho32 p hlen hcoord,
    fun i hi => hilbertn_index_point hd1 hd32 ho32 i hi, fun h2 => ⟨?_, ?_⟩⟩
  · intro p hlen hcoord
    rw [hilbert_index_equiv, hilbert_point_equiv ho32]
    subst h2
    exact hilbertn_point_index (by omega) (by omega) ho32 p hlen hcoord
  · intro i hi
    rw [hilbert_point_equiv ho32, hilbert_index_equiv]
    subst h2
    exact hilbertn_index_point (by omega) (by omega) ho32 i hi

theorem claim_C1_witness :
    2 ≤ 3 ∧ 1 ≤ 2 ∧ 2 * 3 < 32 ∧
      (Hilbertn.hilbert_index 3 2 (Hilbertn.hilbert_point 3 2 10) = 10) :=
  ⟨by decide, by decide, by decide,
    (claim_C1 3 2 (by decide) (by decide) (by decide)).2.1 10 (by decide)⟩

/-- Claim C6 (as stated): at dimension 2 the specialised automaton and the
generic N-D path compute the same mapping for every order with
`2 · order < 32`: equal points for every index below `4^order` and equal
indices for every in-range 2D point. -/
theorem claim_C6 (order : Nat) (hv : 2 * order < 32) :
    (∀ i, i < 2 ^ (2 * order) →
        Hilbert2.hilbert_point order i = Hilbertn.hilbert_point 2 order i) ∧
      (∀ p : List Nat, p.length = 2 → (∀ c, c < 2 → p.getD c 0 < 2 ^ order) →
        Hilbert2.hilbert_index order p = Hilbertn.hilbert_index 2 order p) :=
  ⟨fun i _ => hilbert_point_equiv (by omega) i,
    fun p _ _ => hilbert_index_equiv order p⟩

theorem claim_C6_witness :
    2 * 3 < 32 ∧ Hilbert2.hilbert_point 3 10 = Hilbertn.hilbert_point 2 3 10 :=
  ⟨by decide, (claim_C6 3 (by decide)).1 10 (by decide)⟩

/-- Claim C5 counterexample: the spec's literal example asserts
`point(10) == [5, 6]` for the 2D Hilbert curve of order 3, but the code
computes `point(10) = [3, 3]` (it is `point(45)` that equals `[5, 6]`,
matching the code's own unit test). -/
theorem claim_C5_counterexample :
    ¬ (Hilbert2.hilbert_point 3 10 = [5, 6] ∧ Hilbert2.hilbert_index 3 [5, 6] = 45) := by
  intro h
  have h1 : Hilbert2.hilbert_point 3 10 = [3, 3] := by decide
  rw [h1] at h
  exact absurd h.1 (by decide)

/-- Claim C5 (amended): 2D Hilbert at order 3 satisfies `point(45) == [5, 6]`
and `index([5, 6]) == 45` (the code's own test values); `point(10)` is
`[3, 3]`. -/
theorem claim_C5 :
    Hilbert2.hilbert_point 3 45 = [5, 6] ∧ Hilbert2.hilbert_index 3 [5, 6] = 45 ∧
      Hilbert2.hilbert_point 3 10 = [3, 3] := by
  refine ⟨by decide, by decide, by decide⟩

/-- Claim C9: `graycode(x) = x ^ (x >> 1)` and `igraycode` is its two-sided
inverse on every value (in particular on every `u32` value). -/
theorem claim_C9 (x : Nat) :
    graycode x = x ^^^ (x >>> 1) ∧ igraycode (graycode x) = x ∧
      graycode (igraycode x) = x :=
  ⟨rfl, igraycode_graycode x, graycode_igraycode x⟩

/-! ### hilbert.rs public surface, GridSpec validation (modelled) -/

/-- Modelled from the spec: `error::Error` (`src/crates/spacecurve/src/error.rs`
is not part of the corpus). Section 7 of the spec names exactly two error
kinds, a `Shape` error and a `Size` error, both returned values carrying a
message. -/
inductive Error where
  | Shape : String → Error
  | Size : String → Error
deriving DecidableEq

/-- Modelled from the spec: `spec::GridSpec`
(`src/crates/spacecurve/src/spec.rs` is not part of the corpus). Section 2/4.2:
a validated grid request carrying the `dimension`, the derived `order` (absent
for non-power-of-two validation paths, hence optional — `hilbert.rs` calls
`spec.order().unwrap()`), and the cached `length = 2^(order·dimension)`. -/
structure GridSpec where
  dimension : Nat
  order : Option Nat
  length : Nat
deriving DecidableEq

/-- Modelled from the spec: the derived `order` with `size = 2^order` held
exactly; a `u32` size can only be one of the 32 powers `2^0 .. 2^31`. -/
def derivedOrder (size : Nat) : Option Nat :=
  (List.range 32).find? (fun o => 2 ^ o == size)

/-- Modelled from the spec: `GridSpec::power_of_two(dimension, size)`
(section 4.2) "fails with a `Shape` error if dimension is below the curve's
minimum (commonly 2), and fails with a `Size` error if `size` is not an exact
power of two, or if `order * dimension ≥ 32` (would make `length` exceed `u32`
range). Returns the derived `order` alongside the validated dimension and
cached `length`." Validation is a pure pre-check: an error is returned before
any curve value exists. -/
def GridSpec.power_of_two (dimension size : Nat) : Except Error GridSpec :=
  if dimension < 2 then .error (.Shape "dimension below minimum")
  else
    match derivedOrder size with
    | none => .error (.Size "size is not a power of two")
    | some order =>
      if 32 ≤ order * dimension then .error (.Size "index bits exceed u32 range")
      else .ok ⟨dimension, some order, 2 ^ (order * dimension)⟩

/-- Modelled from the spec: `GridSpec::require_index_bits_lt(bits)` as called
by `Hilbert::from_dimensions` — a pure check that the derived index bit-width
`order * dimension` stays strictly below `bits`, returning a `Size` error
otherwise. -/
def GridSpec.require_index_bits_lt (g : GridSpec) (bits : Nat) : Except Error Unit :=
  if g.order.getD 0 * g.dimension < bits then .ok ()
  else .error (.Size "index bits exceed u32 range")

/-- `hilbert::HilbertImpl`: dispatcher between the 2D and N-D cores. -/
inductive HilbertImpl where
  | TwoD : HilbertImpl
  | Nd : HilbertImpl
deriving DecidableEq

/-- `HilbertImpl::index`. -/
def HilbertImpl.index : HilbertImpl → Nat → Nat → List Nat → Nat
  | .TwoD, _, order, p => Hilbert2.hilbert_index order p
  | .Nd, dimension, order, p => Hilbertn.hilbert_index dimension order p

/-- `HilbertImpl::point`. -/
def HilbertImpl.point : HilbertImpl → Nat → Nat → Nat → List Nat
  | .TwoD, _, order, index => Hilbert2.hilbert_point order index
  | .Nd, dimension, order, index => Hilbertn.hilbert_point dimension order index

/-- `hilbert::Hilbert`: order, dimension, cached length and the mapper chosen
at construction time. -/
structure Hilbert where
  order : Nat
  dimension : Nat
  length : Nat
  mapper : HilbertImpl
deriving DecidableEq

/-- `Hilbert::from_dimensions`: validate via `GridSpec::power_of_two` and
`require_index_bits_lt(32)`, then build the curve value (2D mapper iff the
dimension is 2). -/
def Hilbert.from_dimensions (dimension size : Nat) : Except Error Hilbert := do
  let spec ← GridSpec.power_of_two dimension size
  let _ ← spec.require_index_bits_lt 32
  pure
    { dimension := spec.dimension
      order := spec.order.getD 0
      length := spec.length
      mapper := if spec.dimension = 2 then .TwoD else .Nd }

/-- `<Hilbert as SpaceCurve>::point`: the public method applies the mapper to
`index % len` (the `debug_assert!(index < len)` is debug-only; release builds
compute with the wrapped index). -/
def Hilbert.point (h : Hilbert) (index : Nat) : List Nat :=
  HilbertImpl.point h.mapper h.dimension h.order (index % h.length)

/-- Claim C7: `Hilbert::from_dimensions(dimension, size)` returns an error —
not a curve, with no partial construction (the `Except` value is the entire
outcome) — whenever `size` (a `u32`, hence below `2^32`) is not an exact power
of two or `order * dimension ≥ 32`; in particular `from_dimensions(2, 3)` and
`from_dimensions(2, 1 << 16)` fail while `from_dimensions(2, 1 << 15)`
succeeds with length `2^30`. -/
theorem claim_C7 :
    (∀ dimension size : Nat, size < 2 ^ 32 →
        ((∀ o, size ≠ 2 ^ o) ∨ (∀ o, size = 2 ^ o → 32 ≤ o * dimension)) →
        ∃ e, Hilbert.from_dimensions dimension size = .error e) ∧
      (∃ e, Hilbert.from_dimensions 2 3 = .error e) ∧
      (∃ e, Hilbert.from_dimensions 2 (1 <<< 16) = .error e) ∧
      (∃ h, Hilbert.from_dimensions 2 (1 <<< 15) = .ok h ∧ h.length = 2 ^ 30) := by
  refine ⟨?_, ⟨Error.Size "size is not a power of two", rfl⟩,
    ⟨Error.Size "index bits exceed u32 range", rfl⟩,
    ⟨⟨15, 2, 2 ^ 30, .TwoD⟩, rfl, rfl⟩⟩
  intro dimension size hsize hbad
  have key : ∃ e, GridSpec.power_of_two dimension size = .error e := by
    unfold GridSpec.power_of_two
    by_cases hdim : dimension < 2
    · exact ⟨Error.Shape "dimension below minimum", by rw [if_pos hdim]⟩
    · rcases hbad with hnp | hbits
      · have hnone : derivedOrder size = none := by
          unfold derivedOrder
          rw [List.find?_eq_none]
          intro o _
          simp only [beq_iff_eq]
          exact fun hcon => hnp o hcon.symm
        exact ⟨Error.Size "size is not a power of two", by rw [if_neg hdim, hnone]⟩
      · cases hfind : derivedOrder size with
        | none =>
          exact ⟨Error.Size "size is not a power of two", by rw [if_neg hdim]⟩
        | some o =>
          have hmem := List.find?_some hfind
          have hso : size = 2 ^ o := by
            simp only [beq_iff_eq] at hmem
            exact hmem.symm
          have hge : 32 ≤ o * dimension := hbits o hso
          refine ⟨Error.Size "index bits exceed u32 range", ?_⟩
          rw [if_neg hdim]
          show (if 32 ≤ o * dimension then
              Except.error (Error.Size "index bits exceed u32 range")
            else Except.ok ⟨dimension, some o, 2 ^ (o * dimension)⟩ :
              Except Error GridSpec) = _
          rw [if_pos hge]
  obtain ⟨e, hpe⟩ := key
  refine ⟨e, ?_⟩
  unfold Hilbert.from_dimensions
  rw [hpe]
  rfl

theorem claim_C7_witness :
    (3 : Nat) < 2 ^ 32 ∧ (∃ e, Hilbert.from_dimensions 2 3 = .error e) := by
  refine ⟨by norm_num, claim_C7.1 2 3 (by norm_num) (Or.inl ?_)⟩
  intro o hcon
  by_cases ho : o < 2
  · interval_cases o <;> norm_num at hcon
  · have h4 : 4 ≤ 2 ^ o := by
      calc (4 : Nat) = 2 ^ 2 := rfl
        _ ≤ 2 ^ o := Nat.pow_le_pow_right (by omega) (by omega)
    omega

/-- Claim C10: the public `Hilbert::point` is total in the model and modular:
for every curve value and every index, `point(index)` equals
`point(index % length)` — an out-of-range index yields the point of the
wrapped-around in-range index. -/
theorem claim_C10 (h : Hilbert) (index : Nat) :
    Hilbert.point h index = Hilbert.point h (index % h.length) := by
  unfold Hilbert.point
  rw [Nat.mod_mod_of_dvd index (dvd_refl h.length)]

/-! ### Gray-code adjacency facts for the Hilbert continuity proof

Every `w ≥ 1` decomposes as `w = 2^(z+1) * a + 2^z` with `z` the number of
trailing zero bits. At a digit boundary the Hilbert point loop processes the
digits `w` and `w - 1`; the three facts below pin down (1) the single bit in
which the Gray codes of `w` and `w - 1` differ, (2) the relationship between
`entry` values across the boundary, and (3) the orientation of the change. -/

theorem exists_ctz_decomp : ∀ {w : Nat}, 1 ≤ w → ∃ a z, w = 2 ^ (z + 1) * a + 2 ^ z := by
  intro w
  induction w using Nat.strong_induction_on with
  | _ w ih =>
    intro hw
    rcases Nat.even_or_odd w with he | ho
    · have h2 : w / 2 < w := Nat.div_lt_self (by omega) (by omega)
      have h1 : 1 ≤ w / 2 := by
        rcases he with ⟨k, hk⟩
        omega
      obtain ⟨a, z, hz⟩ := ih (w / 2) h2 h1
      refine ⟨a, z + 1, ?_⟩
      have : w = 2 * (w / 2) := by
        rcases he with ⟨k, hk⟩
        omega
      rw [this, hz]
      ring
    · refine ⟨w / 2, 0, ?_⟩
      rcases ho with ⟨k, hk⟩
      subst hk
      simp
      omega

theorem ctz_lt_of_lt {a z d : Nat} (hw : 2 ^ (z + 1) * a + 2 ^ z < 2 ^ d) : z < d := by
  have h1 : 2 ^ z < 2 ^ d := by
    have : 2 ^ z ≤ 2 ^ (z + 1) * a + 2 ^ z := by omega
    omega
  exact (Nat.pow_lt_pow_iff_right (by omega)).mp h1

theorem graycode_xor (x y : Nat) : graycode (x ^^^ y) = graycode x ^^^ graycode y := by
  unfold graycode
  rw [xor_shiftRight_distrib]
  apply Nat.eq_of_testBit_eq
  intro j
  simp only [Nat.testBit_xor]
  cases x.testBit j <;> cases y.testBit j <;>
    cases (x >>> 1).testBit j <;> cases (y >>> 1).testBit j <;> rfl

theorem testBit_two_pow_sub_one_pred {k j : Nat} :
    (2 ^ k - 1).testBit j = decide (j < k) := Nat.testBit_two_pow_sub_one k j

theorem xor_pred_decomp (a z : Nat) :
    (2 ^ (z + 1) * a + 2 ^ z) ^^^ (2 ^ (z + 1) * a + 2 ^ z - 1) = 2 ^ (z + 1) - 1 := by
  have hsub : 2 ^ (z + 1) * a + 2 ^ z - 1 = 2 ^ (z + 1) * a + (2 ^ z - 1) := by
    have := Nat.two_pow_pos z
    omega
  rw [hsub]
  apply Nat.eq_of_testBit_eq
  intro j
  rw [Nat.testBit_xor,
    Nat.testBit_mul_pow_two_add a (by
      have := Nat.pow_lt_pow_right (a := 2) (by omega) (Nat.lt_succ_self z)
      omega : (2 : Nat) ^ z < 2 ^ (z + 1)) j,
    Nat.testBit_mul_pow_two_add a (by
      have h1 := Nat.two_pow_pos z
      have := Nat.pow_lt_pow_right (a := 2) (by omega) (Nat.lt_succ_self z)
      omega : (2 : Nat) ^ z - 1 < 2 ^ (z + 1)) j]
  by_cases hj : j < z + 1
  · rw [if_pos hj, if_pos hj, Nat.testBit_two_pow, testBit_two_pow_sub_one_pred,
      testBit_two_pow_sub_one_pred]
    by_cases hjz : j < z
    · have hne : ¬ (z = j) := by omega
      simp [hjz, hj, hne]
    · have hje : z = j := by omega
      have hnlt : ¬ (j < z) := by omega
      simp [hje, hj, hnlt]
  · rw [if_neg hj, if_neg hj, testBit_two_pow_sub_one_pred]
    simp [hj]

theorem graycode_two_pow_sub_one {k : Nat} (hk : 1 ≤ k) :
    graycode (2 ^ k - 1) = 2 ^ (k - 1) := by
  unfold graycode
  have hshift : (2 ^ k - 1) >>> 1 = 2 ^ (k - 1) - 1 := by
    apply Nat.eq_of_testBit_eq
    intro j
    rw [Nat.testBit_shiftRight, testBit_two_pow_sub_one_pred, testBit_two_pow_sub_one_pred]
    by_cases hj : j < k - 1
    · have hj2 : 1 + j < k := by omega
      simp [hj, hj2]
    · have hj2 : ¬ (1 + j < k) := by omega
      simp [hj, hj2]
  rw [hshift]
  apply Nat.eq_of_testBit_eq
  intro j
  rw [Nat.testBit_xor, testBit_two_pow_sub_one_pred, testBit_two_pow_sub_one_pred,
    Nat.testBit_two_pow]
  by_cases h1 : j < k - 1
  · have h1' : j < k := by omega
    have hne : ¬ (k - 1 = j) := by omega
    simp [h1, h1', hne]
  · by_cases h2 : j = k - 1
    · subst h2
      have h1' : k - 1 < k := by omega
      simp [h1, h1']
    · have h1' : ¬ (j < k) := by omega
      have hne : ¬ (k - 1 = j) := by omega
      simp [h1, h1', hne]

theorem graycode_adjacent (a z : Nat) :
    graycode (2 ^ (z + 1) * a + 2 ^ z) ^^^ graycode (2 ^ (z + 1) * a + 2 ^ z - 1) =
      2 ^ z := by
  rw [← graycode_xor, xor_pred_decomp, graycode_two_pow_sub_one (by omega)]
  simp

theorem testBit_two_mul_sub {k j : Nat} :
    (2 * (2 ^ k - 1)).testBit j = (decide (1 ≤ j) && decide (j < k + 1)) := by
  rw [show 2 * (2 ^ k - 1) = 2 ^ 1 * (2 ^ k - 1) from by ring, Nat.testBit_mul_pow_two,
    testBit_two_pow_sub_one_pred]
  by_cases h1 : 1 ≤ j
  · by_cases h2 : j < k + 1
    · have h3 : j - 1 < k := by omega
      simp [h1, h2, h3]
    · have h3 : ¬ (j - 1 < k) := by omega
      simp [h1, h2, h3]
  · simp [h1]

theorem xor_sub_two_decomp (a z : Nat) :
    (2 ^ (z + 2) * a + 2 ^ (z + 1)) ^^^ (2 ^ (z + 2) * a + 2 ^ (z + 1) - 2) =
      2 * (2 ^ (z + 1) - 1) := by
  have hz1 : (2 : Nat) ≤ 2 ^ (z + 1) := by
    calc (2 : Nat) = 2 ^ 1 := rfl
      _ ≤ 2 ^ (z + 1) := Nat.pow_le_pow_right (by omega) (by omega)
  have hsub : 2 ^ (z + 2) * a + 2 ^ (z + 1) - 2 = 2 ^ (z + 2) * a + (2 ^ (z + 1) - 2) := by
    omega
  rw [hsub]
  apply Nat.eq_of_testBit_eq
  intro j
  have hlt1 : (2 : Nat) ^ (z + 1) < 2 ^ (z + 2) :=
    Nat.pow_lt_pow_right (by omega) (by omega)
  rw [Nat.testBit_xor,
    Nat.testBit_mul_pow_two_add a (by omega : (2 : Nat) ^ (z + 1) < 2 ^ (z + 2)) j,
    Nat.testBit_mul_pow_two_add a (by omega : (2 : Nat) ^ (z + 1) - 2 < 2 ^ (z + 2)) j,
    show (2 : Nat) ^ (z + 1) - 2 = 2 * (2 ^ z - 1) from by
      have : (2 : Nat) ^ (z + 1) = 2 * 2 ^ z := by ring
      omega]
  by_cases hj : j < z + 2
  · rw [if_pos hj, if_pos hj, Nat.testBit_two_pow, testBit_two_mul_sub,
      testBit_two_mul_sub]
    by_cases hj0 : j = 0
    · subst hj0
      simp
    · by_cases hjz : j < z + 1
      · have hne : ¬ (z + 1 = j) := by omega
        have h1 : 1 ≤ j := by omega
        have h2 : j < z + 2 := by omega
        simp [hne, h1, hjz, h2]
      · have hje : z + 1 = j := by omega
        have h1 : 1 ≤ j := by omega
        have h2 : j < z + 2 := by omega
        have h3 : ¬ (j < z + 1) := by omega
        simp [hje, h1, h2, h3]
  · rw [if_neg hj, if_neg hj, testBit_two_mul_sub]
    have h2 : ¬ (j < z + 2) := hj
    simp [h2]

theorem two_mul_shiftRight_one (m : Nat) : (2 * m) >>> 1 = m := by
  rw [Nat.shiftRight_one]
  omega

theorem graycode_two_mul_sub {k : Nat} (hk : 1 ≤ k) :
    graycode (2 * (2 ^ k - 1)) = 2 ^ k ^^^ 1 := by
  unfold graycode
  rw [two_mul_shiftRight_one]
  apply Nat.eq_of_testBit_eq
  intro j
  rw [Nat.testBit_xor, Nat.testBit_xor, testBit_two_mul_sub, testBit_two_pow_sub_one_pred,
    Nat.testBit_two_pow, show (1 : Nat) = 2 ^ 0 from rfl, Nat.testBit_two_pow]
  by_cases hj0 : j = 0
  · subst hj0
    have h1 : ¬ (1 ≤ (0 : Nat)) := by omega
    have h2 : (0 : Nat) < k := by omega
    have hne : ¬ (k = 0) := by omega
    simp [h1, h2, hne]
  · by_cases hjk : j < k
    · have h1 : 1 ≤ j := by omega
      have h2 : j < k + 1 := by omega
      have hne : ¬ (k = j) := by omega
      simp [h1, h2, hjk, hne, hj0]
      omega
    · by_cases hje : j = k
      · subst hje
        have h1 : 1 ≤ j := by omega
        have h2 : j < j + 1 := by omega
        simp [h1, h2, hjk, hj0]
        omega
      · have h2 : ¬ (j < k + 1) := by omega
        have hne : ¬ (k = j) := by omega
        simp [h2, hjk, hne, hj0]
        omega

namespace Hilbertn

theorem entry_pos {x : Nat} (h : x ≠ 0) : entry x = graycode (2 * ((x - 1) / 2)) := by
  cases x with
  | zero => contradiction
  | succ n => rfl

theorem entry_odd (a : Nat) : entry (2 * a + 1) = graycode (2 * a) := by
  rw [entry_pos (by omega)]
  congr 1
  omega

theorem entry_even {w : Nat} (hw : 2 ≤ w) (he : w % 2 = 0) :
    entry w = graycode (w - 2) := by
  rw [entry_pos (by omega)]
  congr 1
  omega

/-- Orientation fact: the Gray code of a digit `w = 2^(z+1)·a + 2^z` and its
`entry` value differ at bit `z`. -/
theorem graycode_entry_bit (a z : Nat) :
    (graycode (2 ^ (z + 1) * a + 2 ^ z) ^^^
      entry (2 ^ (z + 1) * a + 2 ^ z)).testBit z = true := by
  cases z with
  | zero =>
    have hw : 2 ^ (0 + 1) * a + 2 ^ 0 = 2 * a + 1 := by ring
    rw [hw, entry_odd]
    have hadj := graycode_adjacent a 0
    rw [hw, Nat.add_sub_cancel] at hadj
    rw [hadj]
    rfl
  | succ z =>
    have hmod : (2 ^ (z + 1 + 1) * a + 2 ^ (z + 1)) % 2 = 0 := by
      have h1 : (2 : Nat) ^ (z + 2) = 2 * 2 ^ (z + 1) := by ring
      have h2 : (2 : Nat) ^ (z + 1) = 2 * 2 ^ z := by ring
      have h3 : 2 ^ (z + 1 + 1) * a = 2 * (2 ^ (z + 1) * a) := by ring
      omega
    have hge : 2 ≤ 2 ^ (z + 1 + 1) * a + 2 ^ (z + 1) := by
      have : (2 : Nat) ≤ 2 ^ (z + 1) := by
        calc (2 : Nat) = 2 ^ 1 := rfl
          _ ≤ 2 ^ (z + 1) := Nat.pow_le_pow_right (by omega) (by omega)
      omega
    rw [entry_even hge hmod, ← graycode_xor, xor_sub_two_decomp a z,
      graycode_two_mul_sub (by omega)]
    rw [Nat.testBit_xor, Nat.testBit_two_pow, show (1 : Nat) = 2 ^ 0 from rfl,
      Nat.testBit_two_pow]
    simp

end Hilbertn

theorem trailingOnesAux_spec :
    ∀ (t fuel a : Nat), t < fuel →
      trailingOnesAux fuel (2 ^ (t + 1) * a + 2 ^ t - 1) = t := by
  intro t
  induction t with
  | zero =>
    intro fuel a h
    match fuel, h with
    | f + 1, _ =>
      have hv : 2 ^ (0 + 1) * a + 2 ^ 0 - 1 = 2 * a := by norm_num
      rw [hv]
      show (if 2 * a % 2 = 1 then trailingOnesAux f (2 * a / 2) + 1 else 0) = 0
      rw [if_neg (by omega)]
  | succ t ih =>
    intro fuel a h
    match fuel, h with
    | f + 1, _ =>
      have hpos := Nat.two_pow_pos t
      have h2 : (2 : Nat) ^ (t + 1 + 1) * a = 2 * (2 ^ (t + 1) * a) := by ring
      have h3 : (2 : Nat) ^ (t + 1) = 2 * 2 ^ t := by ring
      have hm : 2 ^ (t + 1 + 1) * a + 2 ^ (t + 1) - 1 =
          2 * (2 ^ (t + 1) * a + 2 ^ t - 1) + 1 := by omega
      rw [hm]
      show (if (2 * (2 ^ (t + 1) * a + 2 ^ t - 1) + 1) % 2 = 1 then
          trailingOnesAux f ((2 * (2 ^ (t + 1) * a + 2 ^ t - 1) + 1) / 2) + 1 else 0) = t + 1
      rw [if_pos (by omega), show (2 * (2 ^ (t + 1) * a + 2 ^ t - 1) + 1) / 2 =
        2 ^ (t + 1) * a + 2 ^ t - 1 from by omega, ih f a (by omega)]

theorem trailingOnes_decomp (t a : Nat) (ht : t < 32) :
    trailingOnes (2 ^ (t + 1) * a + 2 ^ t - 1) = t :=
  trailingOnesAux_spec t 32 a ht

theorem tsb_small {d m : Nat} (h1 : 1 ≤ d) (h2 : d < 32) (hm : m < 2 ^ d) :
    tsb m d = trailingOnes m := by
  unfold tsb
  rw [and_bitmask h1 h2, Nat.mod_eq_of_lt hm]

namespace Hilbertn

theorem direction_zero (d : Nat) : direction 0 d = 0 := by
  unfold direction
  simp

theorem direction_odd {d : Nat} (h1 : 1 ≤ d) (h2 : d < 32) {x : Nat} (hx : x < 2 ^ d)
    (hodd : x % 2 = 1) : direction x d = tsb x d % d := by
  unfold direction
  rw [and_bitmask h1 h2, Nat.mod_eq_of_lt hx, if_neg (by omega), if_neg (by omega)]

theorem direction_even {d : Nat} (h1 : 1 ≤ d) (h2 : d < 32) {x : Nat} (hx : x < 2 ^ d)
    (hx0 : x ≠ 0) (he : x % 2 = 0) : direction x d = tsb (x - 1) d % d := by
  unfold direction
  rw [and_bitmask h1 h2, Nat.mod_eq_of_lt hx, if_neg hx0, if_pos he]

theorem direction_lt {d : Nat} (h1 : 1 ≤ d) (x : Nat) : direction x d < d := by
  simp only [direction]
  split
  · omega
  · split <;> exact Nat.mod_lt _ (by omega)

theorem nextDirection_lt {d : Nat} (h1 : 1 ≤ d) (dir w : Nat) :
    nextDirection dir d w < d := by
  unfold nextDirection
  exact Nat.mod_lt _ (by omega)

/-- Fact (C): across a digit boundary `w / w - 1` the `entry` values differ
exactly by `2^z ^^^ 2^(direction (w - 1))`, with `z` the trailing-zero count
of `w`. -/
theorem entry_boundary {d : Nat} (h1 : 1 ≤ d) (h2 : d < 32) (a z : Nat)
    (hw : 2 ^ (z + 1) * a + 2 ^ z < 2 ^ d) :
    entry (2 ^ (z + 1) * a + 2 ^ z) ^^^ entry (2 ^ (z + 1) * a + 2 ^ z - 1) =
      2 ^ z ^^^ 2 ^ (direction (2 ^ (z + 1) * a + 2 ^ z - 1) d) := by
  cases z with
  | zero =>
    have hwv : 2 ^ (0 + 1) * a + 2 ^ 0 = 2 * a + 1 := by ring
    rw [hwv] at hw ⊢
    rw [Nat.add_sub_cancel]
    rcases Nat.eq_zero_or_pos a with ha | ha
    · subst ha
      rw [show (2 : Nat) * 0 = 0 from rfl, direction_zero]
      decide
    · obtain ⟨aa, za, hdec⟩ := exists_ctz_decomp ha
      have h2a : 2 * a = 2 ^ (za + 2) * aa + 2 ^ (za + 1) := by
        rw [hdec]
        ring
      have h2a' : 2 * a = 2 ^ (za + 1 + 1) * aa + 2 ^ (za + 1) := by
        rw [hdec]
        ring
      have h2alt : 2 * a < 2 ^ d := by omega
      have hzad : za + 1 < d := ctz_lt_of_lt (h2a' ▸ h2alt)
      have hsub1 : 2 * a - 1 = 2 ^ (za + 1 + 1) * aa + 2 ^ (za + 1) - 1 := by omega
      rw [entry_odd, entry_even (by omega) (by omega), ← graycode_xor,
        direction_even h1 h2 h2alt (by omega) (by omega), hsub1,
        tsb_small h1 h2 (by omega), trailingOnes_decomp (za + 1) aa (by omega),
        Nat.mod_eq_of_lt hzad, h2a, xor_sub_two_decomp aa za,
        graycode_two_mul_sub (by omega), Nat.xor_comm]
      rfl
  | succ z =>
    have hpos := Nat.two_pow_pos z
    have hz2 : (2 : Nat) ^ (z + 1) = 2 * 2 ^ z := by ring
    have hz3 : (2 : Nat) ^ (z + 1 + 1) * a = 2 * (2 ^ (z + 1) * a) := by ring
    have hge : 2 ≤ 2 ^ (z + 1 + 1) * a + 2 ^ (z + 1) := by omega
    have hmod : (2 ^ (z + 1 + 1) * a + 2 ^ (z + 1)) % 2 = 0 := by omega
    have hwodd : (2 ^ (z + 1 + 1) * a + 2 ^ (z + 1) - 1) % 2 = 1 := by omega
    have hwm1 : 2 ^ (z + 1 + 1) * a + 2 ^ (z + 1) - 1 - 1 =
        2 ^ (z + 1 + 1) * a + 2 ^ (z + 1) - 2 := by omega
    have hentry2 : entry (2 ^ (z + 1 + 1) * a + 2 ^ (z + 1) - 1) =
        graycode (2 ^ (z + 1 + 1) * a + 2 ^ (z + 1) - 2) := by
      rw [entry_pos (by omega)]
      congr 1
      omega
    rw [entry_even hge hmod, hentry2, Nat.xor_self,
      direction_odd h1 h2 (by omega) hwodd, tsb_small h1 h2 (by omega),
      trailingOnes_decomp (z + 1) a (by
        have := ctz_lt_of_lt hw
        omega),
      Nat.mod_eq_of_lt (ctz_lt_of_lt hw), Nat.xor_self]

end Hilbertn

theorem lrot_zero (s w : Nat) : lrot 0 s w = 0 := by
  simp [lrot]

theorem two_pow_sub_one_decomp {N k : Nat} (h : k ≤ N) :
    2 ^ N - 1 = 2 ^ k * (2 ^ N / 2 ^ k - 1) + (2 ^ k - 1) := by
  have hp : (2 : Nat) ^ N = 2 ^ k * 2 ^ (N - k) := by
    rw [← pow_add]
    congr 1
    omega
  have h1 := Nat.two_pow_pos k
  have h2 := Nat.two_pow_pos (N - k)
  have hdiv : 2 ^ N / 2 ^ k = 2 ^ (N - k) := by
    rw [hp, Nat.mul_div_cancel_left _ h1]
  rw [hdiv]
  have hm : 2 ^ k * (2 ^ (N - k) - 1) + 2 ^ k * 1 = 2 ^ k * 2 ^ (N - k) := by
    rw [← Nat.mul_add]
    congr 1
    omega
  omega

theorem two_pow_sub_one_mod {N k : Nat} (h : k ≤ N) :
    (2 ^ N - 1) % 2 ^ k = 2 ^ k - 1 := by
  rw [two_pow_sub_one_decomp h, Nat.mul_add_mod,
    Nat.mod_eq_of_lt (by have := Nat.two_pow_pos k; omega)]

theorem two_pow_sub_one_div {N k : Nat} (h : k ≤ N) :
    (2 ^ N - 1) / 2 ^ k = 2 ^ (N - k) - 1 := by
  have hp : (2 : Nat) ^ N = 2 ^ k * 2 ^ (N - k) := by
    rw [← pow_add]
    congr 1
    omega
  have h1 := Nat.two_pow_pos k
  have hdiv : 2 ^ N / 2 ^ k = 2 ^ (N - k) := by
    rw [hp, Nat.mul_div_cancel_left _ h1]
  rw [two_pow_sub_one_decomp h, hdiv, Nat.mul_add_div h1,
    Nat.div_eq_of_lt (by omega)]
  omega

theorem xor_two_pow_testBit_ne {X Y t b : Nat} (h : X ^^^ Y = 2 ^ t) (hb : b ≠ t) :
    X.testBit b = Y.testBit b := by
  have h2 : (X ^^^ Y).testBit b = (2 ^ t).testBit b := by rw [h]
  rw [Nat.testBit_xor, Nat.testBit_two_pow] at h2
  have h3 : decide (t = b) = false := by
    simp
    omega
  cases hX : X.testBit b <;> cases hY : Y.testBit b <;> simp_all

theorem xor_two_pow_testBit_eq {X Y t : Nat} (h : X ^^^ Y = 2 ^ t) :
    X.testBit t = !Y.testBit t := by
  have h2 : (X ^^^ Y).testBit t = (2 ^ t).testBit t := by rw [h]
  rw [Nat.testBit_xor, Nat.testBit_two_pow] at h2
  cases hX : X.testBit t <;> cases hY : Y.testBit t <;> simp_all

namespace Hilbertn

/-- Suffix lemma: an all-zero index suffix of `o` digits keeps the label equal
to the entry state `e`, so coordinate `c` is `0` or `2^o - 1` according to bit
`d - c - 1` of `e`. -/
theorem pointAux_index_zero {d : Nat} (h1 : 1 ≤ d) (h2 : d < 32) :
    ∀ o, o < 32 → ∀ e dir c, c < d →
      (pointAux d o e dir 0).getD c 0 = (e.testBit (d - c - 1)).toNat * (2 ^ o - 1) := by
  intro o
  induction o with
  | zero =>
    intro _ e dir c _
    rw [pointAux_zero, replicate_getD]
    simp
  | succ o ih =>
    intro ho e dir c hc
    rw [pointAux_succ]
    have hdig : bitrange 0 ((o + 1) * d) 0 d = 0 := by
      rw [digit_eq h1 h2]
      simp
    rw [hdig, getD_map_range _ hc]
    have hlab : itransform e dir d (graycode 0) = e := by
      unfold itransform
      rw [show graycode 0 = 0 from rfl, Nat.zero_and, lrot_zero, Nat.zero_xor]
    have hent : nextEntry e dir d 0 = e := by
      unfold nextEntry
      rw [show entry 0 = 0 from rfl, lrot_zero, Nat.xor_zero]
    rw [hent, hlab, bitrange_label_bit hc, ih (by omega) e (nextDirection dir d 0) c hc]
    have hb : (e.testBit (d - c - 1)).toNat ≤ 1 := Bool.toNat_le _
    have hpos := Nat.two_pow_pos o
    have h2p : (2 : Nat) ^ (o + 1) = 2 * 2 ^ o := by ring
    have hx : (e.testBit (d - c - 1)).toNat * (2 ^ o - 1) < 2 ^ o := by
      have := Nat.mul_le_mul_right (2 ^ o - 1) hb
      omega
    rw [setbit_top (by omega) hx hb, ← Nat.mul_add]
    congr 1
    omega

/-- Suffix lemma: an all-ones index suffix of `o` digits keeps the label equal
to `e ^^^ 2^dir`, so coordinate `c` is `0` or `2^o - 1` according to bit
`d - c - 1` of `e ^^^ 2^dir`. -/
theorem pointAux_index_max {d : Nat} (hd : 2 ≤ d) (h2 : d < 32) :
    ∀ o, o < 32 → ∀ e dir c, dir < d → c < d →
      (pointAux d o e dir (2 ^ (o * d) - 1)).getD c 0 =
        ((e ^^^ 2 ^ dir).testBit (d - c - 1)).toNat * (2 ^ o - 1) := by
  have h1 : 1 ≤ d := by omega
  intro o
  induction o with
  | zero =>
    intro _ e dir c _ _
    rw [pointAux_zero, replicate_getD]
    simp
  | succ o ih =>
    intro ho e dir c hdir hc
    rw [pointAux_succ]
    have hsucc : (o + 1) * d = o * d + d := by ring
    have hdig : bitrange (2 ^ ((o + 1) * d) - 1) ((o + 1) * d) 0 d = 2 ^ d - 1 := by
      rw [digit_eq h1 h2, Nat.shiftRight_eq_div_pow, two_pow_sub_one_div (by omega),
        show (o + 1) * d - o * d = d from by omega,
        Nat.mod_eq_of_lt (by have := Nat.two_pow_pos d; omega)]
    rw [hdig, getD_map_range _ hc]
    have hexp : (d - 1 + (dir + 1)) % d = dir := by
      rw [show d - 1 + (dir + 1) = d + dir from by omega, Nat.add_mod_left,
        Nat.mod_eq_of_lt hdir]
    have hd1lt : (2 : Nat) ^ (d - 1) < 2 ^ d := Nat.pow_lt_pow_right (by omega) (by omega)
    have hlab : itransform e dir d (graycode (2 ^ d - 1)) = 2 ^ dir ^^^ e := by
      unfold itransform
      rw [graycode_two_pow_sub_one h1, and_bitmask h1 h2, Nat.mod_eq_of_lt hd1lt,
        lrot_two_pow h1 h2 (by omega), hexp]
    have hE : entry (2 ^ d - 1) = 2 ^ (d - 1) ^^^ 2 ^ 0 := by
      have hp : (2 : Nat) ^ d = 2 ^ (d - 1) * 2 := by
        rw [← pow_succ]
        congr 1
        omega
      have hpos1 := Nat.two_pow_pos (d - 1)
      rw [show 2 ^ d - 1 = 2 * (2 ^ (d - 1) - 1) + 1 from by omega, entry_odd,
        graycode_two_mul_sub (by omega)]
      norm_num
    have hent : nextEntry e dir d (2 ^ d - 1) =
        e ^^^ (2 ^ dir ^^^ 2 ^ ((dir + 1) % d)) := by
      unfold nextEntry
      rw [hE, lrot_xor h1 h2, lrot_two_pow h1 h2 (by omega),
        lrot_two_pow h1 h2 (by omega), hexp, Nat.zero_add]
    have hodd : (2 ^ d - 1) % 2 = 1 := by
      have hp : (2 : Nat) ^ d = 2 ^ (d - 1) * 2 := by
        rw [← pow_succ]
        congr 1
        omega
      have hpos1 := Nat.two_pow_pos (d - 1)
      omega
    have hdirE : direction (2 ^ d - 1) d = 0 := by
      rw [direction_odd h1 h2 (by have := Nat.two_pow_pos d; omega) hodd,
        tsb_small h1 h2 (by have := Nat.two_pow_pos d; omega),
        show (2 : Nat) ^ d - 1 = 2 ^ (d + 1) * 0 + 2 ^ d - 1 from by
          rw [Nat.mul_zero, Nat.zero_add],
        trailingOnes_decomp d 0 h2, Nat.mod_self]
    have hdir2 : nextDirection dir d (2 ^ d - 1) = (dir + 1) % d := by
      unfold nextDirection
      rw [hdirE]
    have hmod : (2 ^ ((o + 1) * d) - 1) % 2 ^ (o * d) = 2 ^ (o * d) - 1 :=
      two_pow_sub_one_mod (by omega)
    rw [hent, hdir2, pointAux_mod h1 h2 o _ _ _, hmod,
      ih (by omega) (e ^^^ (2 ^ dir ^^^ 2 ^ ((dir + 1) % d))) ((dir + 1) % d) c
        (Nat.mod_lt _ (by omega)) hc,
      hlab, bitrange_label_bit hc]
    have hxor : (e ^^^ (2 ^ dir ^^^ 2 ^ ((dir + 1) % d))) ^^^ 2 ^ ((dir + 1) % d) =
        e ^^^ 2 ^ dir := by
      rw [Nat.xor_assoc, Nat.xor_assoc, Nat.xor_self, Nat.xor_zero]
    rw [hxor, Nat.xor_comm (2 ^ dir) e]
    have hb : ((e ^^^ 2 ^ dir).testBit (d - c - 1)).toNat ≤ 1 := Bool.toNat_le _
    have hpos := Nat.two_pow_pos o
    have h2p : (2 : Nat) ^ (o + 1) = 2 * 2 ^ o := by ring
    have hx : ((e ^^^ 2 ^ dir).testBit (d - c - 1)).toNat * (2 ^ o - 1) < 2 ^ o := by
      have := Nat.mul_le_mul_right (2 ^ o - 1) hb
      omega
    rw [setbit_top (by omega) hx hb, ← Nat.mul_add]
    congr 1
    omega

end Hilbertn

theorem xor_mid_cancel (X Y E : Nat) : (X ^^^ E) ^^^ (E ^^^ Y) = X ^^^ Y := by
  rw [Nat.xor_assoc X E (E ^^^ Y), ← Nat.xor_assoc E E Y, Nat.xor_self, Nat.zero_xor]

theorem xor_outer_cancel (X Y E : Nat) : (X ^^^ E) ^^^ (Y ^^^ E) = X ^^^ Y := by
  rw [Nat.xor_comm Y E]
  exact xor_mid_cancel X Y E

theorem xor_left_cancel2 (A B C E : Nat) :
    (E ^^^ A) ^^^ ((E ^^^ B) ^^^ C) = (A ^^^ B) ^^^ C := by
  rw [← Nat.xor_assoc (E ^^^ A) (E ^^^ B) C, Nat.xor_comm E A, Nat.xor_comm E B,
    xor_outer_cancel]

theorem oneDiff_step (o : Nat) (l1 s1 l2 s2 : Bool) (hl : l1 = !l2) (hs : s1 = !s2)
    (hx : (l1 ^^ s1) = true) :
    s1.toNat * (2 ^ o - 1) + l1.toNat * 2 ^ o =
        s2.toNat * (2 ^ o - 1) + l2.toNat * 2 ^ o + 1 ∨
      s2.toNat * (2 ^ o - 1) + l2.toNat * 2 ^ o =
        s1.toNat * (2 ^ o - 1) + l1.toNat * 2 ^ o + 1 := by
  subst hl hs
  cases l2 <;> cases s2 <;> simp_all <;>
    (have hpos := Nat.two_pow_pos o; omega)

namespace Hilbertn

/-- Adjacent indices produce points that agree in every coordinate except one,
where they differ by exactly `1` (the inner continuity invariant of
`hilbertn::hilbert_point`). -/
theorem pointAux_cont {d : Nat} (hd : 2 ≤ d) (h2 : d < 32) :
    ∀ o, o < 32 → ∀ e dir, e < 2 ^ d → dir < d → ∀ i, 1 ≤ i → i < 2 ^ (o * d) →
      ∃ j, j < d ∧
        (∀ c, c < d → c ≠ j →
          (pointAux d o e dir i).getD c 0 = (pointAux d o e dir (i - 1)).getD c 0) ∧
        ((pointAux d o e dir i).getD j 0 = (pointAux d o e dir (i - 1)).getD j 0 + 1 ∨
          (pointAux d o e dir (i - 1)).getD j 0 = (pointAux d o e dir i).getD j 0 + 1) := by
  have h1 : 1 ≤ d := by omega
  intro o
  induction o with
  | zero =>
    intro _ e dir _ _ i hi1 hi2
    rw [Nat.zero_mul, Nat.pow_zero] at hi2
    omega
  | succ o ih =>
    intro ho e dir he hdir i hi1 hi2
    have hK := Nat.two_pow_pos (o * d)
    have hdm := Nat.div_add_mod i (2 ^ (o * d))
    rcases Nat.eq_zero_or_pos (i % 2 ^ (o * d)) with hmod | hmod
    · -- digit boundary: the low `o` digits of `i` are all zero
      have hw1 : 1 ≤ i / 2 ^ (o * d) :=
        Nat.div_pos (Nat.le_of_dvd (by omega) (Nat.dvd_of_mod_eq_zero hmod)) hK
      have hwlt : i / 2 ^ (o * d) < 2 ^ d := by
        rw [Nat.div_lt_iff_lt_mul hK]
        have hp : (2 : Nat) ^ ((o + 1) * d) = 2 ^ d * 2 ^ (o * d) := by
          rw [← pow_add]
          congr 1
          ring
        omega
      obtain ⟨a, z, hdec⟩ := exists_ctz_decomp hw1
      have hwlt' : 2 ^ (z + 1) * a + 2 ^ z < 2 ^ d := hdec ▸ hwlt
      have hzd : z < d := ctz_lt_of_lt hwlt'
      have hblt : (z + (dir + 1)) % d < d := Nat.mod_lt _ (by omega)
      have hdig1 : bitrange i ((o + 1) * d) 0 d = i / 2 ^ (o * d) := by
        rw [digit_eq h1 h2, Nat.shiftRight_eq_div_pow, Nat.mod_eq_of_lt hwlt]
      have hmK : 2 ^ (o * d) * (i / 2 ^ (o * d) - 1) + 2 ^ (o * d) * 1 =
          2 ^ (o * d) * (i / 2 ^ (o * d)) := by
        rw [← Nat.mul_add]
        congr 1
        omega
      have hsub : i - 1 = 2 ^ (o * d) * (i / 2 ^ (o * d) - 1) + (2 ^ (o * d) - 1) := by
        omega
      have hdig2 : bitrange (i - 1) ((o + 1) * d) 0 d = i / 2 ^ (o * d) - 1 := by
        rw [digit_eq h1 h2, Nat.shiftRight_eq_div_pow, hsub, Nat.mul_add_div hK,
          Nat.div_eq_of_lt (show 2 ^ (o * d) - 1 < 2 ^ (o * d) from by omega),
          Nat.add_zero, Nat.mod_eq_of_lt (by omega)]
      have hmod2 : (i - 1) % 2 ^ (o * d) = 2 ^ (o * d) - 1 := by
        rw [hsub, Nat.mul_add_mod, Nat.mod_eq_of_lt (by omega)]
      -- Fact (1): the two labels differ exactly at bit `(z + dir + 1) % d`.
      have hlabxor : itransform e dir d (graycode (i / 2 ^ (o * d))) ^^^
          itransform e dir d (graycode (i / 2 ^ (o * d) - 1)) =
          2 ^ ((z + (dir + 1)) % d) := by
        unfold itransform
        rw [and_bitmask h1 h2 (graycode (i / 2 ^ (o * d))),
          and_bitmask h1 h2 (graycode (i / 2 ^ (o * d) - 1)),
          Nat.mod_eq_of_lt (graycode_lt_two_pow hwlt),
          Nat.mod_eq_of_lt (graycode_lt_two_pow (show i / 2 ^ (o * d) - 1 < 2 ^ d by omega)),
          xor_outer_cancel, ← lrot_xor h1 h2, hdec, graycode_adjacent a z,
          lrot_two_pow h1 h2 hzd]
      -- Fact (2): the two suffix labels differ exactly at the same bit.
      have hsigma : nextEntry e dir d (i / 2 ^ (o * d)) ^^^
          (nextEntry e dir d (i / 2 ^ (o * d) - 1) ^^^
            2 ^ (nextDirection dir d (i / 2 ^ (o * d) - 1))) =
          2 ^ ((z + (dir + 1)) % d) := by
        unfold nextEntry nextDirection
        rw [xor_left_cancel2, ← lrot_xor h1 h2, hdec, entry_boundary h1 h2 a z hwlt',
          lrot_xor h1 h2, lrot_two_pow h1 h2 hzd,
          lrot_two_pow h1 h2 (direction_lt h1 _)]
        have hcomm : (direction (2 ^ (z + 1) * a + 2 ^ z - 1) d + (dir + 1)) % d =
            (dir + direction (2 ^ (z + 1) * a + 2 ^ z - 1) d + 1) % d := by
          congr 1
          omega
        rw [hcomm, Nat.xor_assoc, Nat.xor_self, Nat.xor_zero]
      -- Fact (3): label and suffix label of `i` disagree at that bit.
      have hbit : (itransform e dir d (graycode (i / 2 ^ (o * d))) ^^^
          nextEntry e dir d (i / 2 ^ (o * d))).testBit ((z + (dir + 1)) % d) = true := by
        unfold itransform nextEntry
        rw [and_bitmask h1 h2 (graycode (i / 2 ^ (o * d))),
          Nat.mod_eq_of_lt (graycode_lt_two_pow hwlt), xor_mid_cancel,
          ← lrot_xor h1 h2, testBit_lrot h1 h2, mod_cycle_right h1 hzd (dir + 1),
          hdec, graycode_entry_bit a z, Bool.and_true]
        exact decide_eq_true hblt
      -- Coordinate formulas through the all-zero / all-one suffixes.
      have hcoordB : ∀ c, c < d →
          (pointAux d (o + 1) e dir i).getD c 0 =
            ((nextEntry e dir d (i / 2 ^ (o * d))).testBit (d - c - 1)).toNat *
                (2 ^ o - 1) +
              ((itransform e dir d (graycode (i / 2 ^ (o * d)))).testBit
                (d - c - 1)).toNat * 2 ^ o := by
        intro c hc
        rw [pointAux_succ, getD_map_range _ hc, hdig1, bitrange_label_bit hc,
          pointAux_mod h1 h2 o, hmod,
          pointAux_index_zero h1 h2 o (by omega) (nextEntry e dir d (i / 2 ^ (o * d)))
            (nextDirection dir d (i / 2 ^ (o * d))) c hc]
        have hpos := Nat.two_pow_pos o
        have hx : ((nextEntry e dir d (i / 2 ^ (o * d))).testBit (d - c - 1)).toNat *
            (2 ^ o - 1) < 2 ^ o := by
          have := Nat.mul_le_mul_right (2 ^ o - 1)
            (Bool.toNat_le ((nextEntry e dir d (i / 2 ^ (o * d))).testBit (d - c - 1)))
          omega
        rw [setbit_top (by omega) hx (Bool.toNat_le _)]
      have hcoordB' : ∀ c, c < d →
          (pointAux d (o + 1) e dir (i - 1)).getD c 0 =
            ((nextEntry e dir d (i / 2 ^ (o * d) - 1) ^^^
                2 ^ (nextDirection dir d (i / 2 ^ (o * d) - 1))).testBit
                (d - c - 1)).toNat * (2 ^ o - 1) +
              ((itransform e dir d (graycode (i / 2 ^ (o * d) - 1))).testBit
                (d - c - 1)).toNat * 2 ^ o := by
        intro c hc
        rw [pointAux_succ, getD_map_range _ hc, hdig2, bitrange_label_bit hc,
          pointAux_mod h1 h2 o, hmod2,
          pointAux_index_max hd h2 o (by omega) (nextEntry e dir d (i / 2 ^ (o * d) - 1))
            (nextDirection dir d (i / 2 ^ (o * d) - 1)) c (nextDirection_lt h1 _ _) hc]
        have hpos := Nat.two_pow_pos o
        have hx : ((nextEntry e dir d (i / 2 ^ (o * d) - 1) ^^^
            2 ^ (nextDirection dir d (i / 2 ^ (o * d) - 1))).testBit
            (d - c - 1)).toNat * (2 ^ o - 1) < 2 ^ o := by
          have := Nat.mul_le_mul_right (2 ^ o - 1)
            (Bool.toNat_le ((nextEntry e dir d (i / 2 ^ (o * d) - 1) ^^^
              2 ^ (nextDirection dir d (i / 2 ^ (o * d) - 1))).testBit (d - c - 1)))
          omega
        rw [setbit_top (by omega) hx (Bool.toNat_le _)]
      refine ⟨d - 1 - (z + (dir + 1)) % d, by omega, ?_, ?_⟩
      · intro c hc hcj
        have hbne : d - c - 1 ≠ (z + (dir + 1)) % d := by omega
        rw [hcoordB c hc, hcoordB' c hc, xor_two_pow_testBit_ne hlabxor hbne,
          xor_two_pow_testBit_ne hsigma hbne]
      · have hbj : d - (d - 1 - (z + (dir + 1)) % d) - 1 = (z + (dir + 1)) % d := by
          omega
        rw [hcoordB (d - 1 - (z + (dir + 1)) % d) (by omega),
          hcoordB' (d - 1 - (z + (dir + 1)) % d) (by omega), hbj]
        rw [Nat.testBit_xor] at hbit
        exact oneDiff_step o _ _ _ _ (xor_two_pow_testBit_eq hlabxor)
          (xor_two_pow_testBit_eq hsigma) hbit
    · -- interior: `i` and `i - 1` share the top digit; induction on the suffix
      have hdiv : (i - 1) / 2 ^ (o * d) = i / 2 ^ (o * d) := by
        have hmlt : i % 2 ^ (o * d) < 2 ^ (o * d) := Nat.mod_lt _ hK
        rw [show i - 1 = 2 ^ (o * d) * (i / 2 ^ (o * d)) + (i % 2 ^ (o * d) - 1) from
          by omega, Nat.mul_add_div hK,
          Nat.div_eq_of_lt (show i % 2 ^ (o * d) - 1 < 2 ^ (o * d) from by omega)]
        omega
      have hdm2 := Nat.div_add_mod (i - 1) (2 ^ (o * d))
      rw [hdiv] at hdm2
      have hmod' : (i - 1) % 2 ^ (o * d) = i % 2 ^ (o * d) - 1 := by omega
      have hdigeq : bitrange (i - 1) ((o + 1) * d) 0 d = bitrange i ((o + 1) * d) 0 d := by
        rw [digit_eq h1 h2, digit_eq h1 h2, Nat.shiftRight_eq_div_pow,
          Nat.shiftRight_eq_div_pow, hdiv]
      obtain ⟨j, hj, hother, hdiff⟩ :=
        ih (by omega) (nextEntry e dir d (bitrange i ((o + 1) * d) 0 d))
          (nextDirection dir d (bitrange i ((o + 1) * d) 0 d))
          (nextEntry_lt h1 h2 he _ _) (nextDirection_lt h1 _ _)
          (i % 2 ^ (o * d)) hmod (Nat.mod_lt _ hK)
      have hcoord : ∀ c, c < d →
          (pointAux d (o + 1) e dir i).getD c 0 =
            (pointAux d o (nextEntry e dir d (bitrange i ((o + 1) * d) 0 d))
                (nextDirection dir d (bitrange i ((o + 1) * d) 0 d))
                (i % 2 ^ (o * d))).getD c 0 +
              ((itransform e dir d (graycode (bitrange i ((o + 1) * d) 0 d))).testBit
                (d - c - 1)).toNat * 2 ^ o := by
        intro c hc
        rw [pointAux_succ, getD_map_range _ hc, bitrange_label_bit hc,
          pointAux_mod h1 h2 o]
        exact setbit_top (by omega) (pointAux_getD_lt h1 (by omega) _ _ _ _)
          (Bool.toNat_le _)
      have hcoord' : ∀ c, c < d →
          (pointAux d (o + 1) e dir (i - 1)).getD c 0 =
            (pointAux d o (nextEntry e dir d (bitrange i ((o + 1) * d) 0 d))
                (nextDirection dir d (bitrange i ((o + 1) * d) 0 d))
                (i % 2 ^ (o * d) - 1)).getD c 0 +
              ((itransform e dir d (graycode (bitrange i ((o + 1) * d) 0 d))).testBit
                (d - c - 1)).toNat * 2 ^ o := by
        intro c hc
        rw [pointAux_succ, getD_map_range _ hc, hdigeq, bitrange_label_bit hc,
          pointAux_mod h1 h2 o, hmod']
        exact setbit_top (by omega) (pointAux_getD_lt h1 (by omega) _ _ _ _)
          (Bool.toNat_le _)
      refine ⟨j, hj, ?_, ?_⟩
      · intro c hc hcj
        rw [hcoord c hc, hcoord' c hc, hother c hc hcj]
      · rcases hdiff with hcase | hcase
        · left
          rw [hcoord j hj, hcoord' j hj, hcase]
          omega
        · right
          rw [hcoord j hj, hcoord' j hj, hcase]
          omega

end Hilbertn

/-! ### Squared Euclidean distance of two point lists -/

theorem foldl_add_range_succ (g : Nat → Nat) (d : Nat) :
    (List.range (d + 1)).foldl (fun tot c => tot + g c) 0 =
      (List.range d).foldl (fun tot c => tot + g c) 0 + g d := by
  rw [List.range_succ, List.foldl_append]
  simp only [List.foldl_cons, List.foldl_nil]

theorem foldl_add_range_zero (g : Nat → Nat) :
    ∀ d, (∀ c, c < d → g c = 0) →
      (List.range d).foldl (fun tot c => tot + g c) 0 = 0 := by
  intro d
  induction d with
  | zero => intro _; rfl
  | succ d ih =>
    intro hg
    rw [foldl_add_range_succ, ih (fun c hc => hg c (by omega)), hg d (by omega)]

theorem foldl_add_range_single (g : Nat → Nat) :
    ∀ d j, j < d → (∀ c, c < d → g c = if c = j then 1 else 0) →
      (List.range d).foldl (fun tot c => tot + g c) 0 = 1 := by
  intro d
  induction d with
  | zero => intro j hj _; omega
  | succ d ih =>
    intro j hj hg
    rw [foldl_add_range_succ]
    rcases Nat.lt_or_ge j d with h | h
    · rw [ih j h (fun c hc => hg c (by omega)), hg d (by omega), if_neg (by omega)]
    · have hjd : j = d := by omega
      subst hjd
      rw [foldl_add_range_zero g j
          (fun c hc => by rw [hg c (by omega)]; exact if_neg (by omega)),
        hg j (by omega), if_pos rfl]

theorem distSq_map_range (p q : List Nat) (d : Nat) (hp : p.length = d)
    (hq : q.length = d) :
    distSq p q = (List.range d).foldl
      (fun tot c => tot + ((p.getD c 0 : Int) - (q.getD c 0 : Int)).natAbs ^ 2) 0 := by
  unfold distSq
  have hzip : List.zip p q = (List.range d).map (fun c => (p.getD c 0, q.getD c 0)) := by
    apply List.ext_getElem
    · simp [List.length_zip, hp, hq]
    · intro n h1 h2
      have hn : n < d := by simp at h2; omega
      rw [List.getElem_map, List.getElem_range, List.getElem_zip,
        getD_eq_getElem (by omega), getD_eq_getElem (by omega)]
  rw [hzip, List.foldl_map]

/-- Two equal-length lists agreeing everywhere except at one position, where
they differ by exactly `1`, have squared Euclidean distance `1`. -/
theorem distSq_single {d : Nat} {p q : List Nat} (hp : p.length = d)
    (hq : q.length = d) {j : Nat} (hj : j < d)
    (hother : ∀ c, c < d → c ≠ j → p.getD c 0 = q.getD c 0)
    (hdiff : p.getD j 0 = q.getD j 0 + 1 ∨ q.getD j 0 = p.getD j 0 + 1) :
    distSq p q = 1 := by
  rw [distSq_map_range p q d hp hq]
  apply foldl_add_range_single _ d j hj
  intro c hc
  by_cases hcj : c = j
  · subst hcj
    rw [if_pos rfl]
    rcases hdiff with h | h <;> rw [h]
    · have he : ((q.getD c 0 + 1 : Nat) : Int) - (q.getD c 0 : Nat) = 1 := by
        push_cast
        ring
      rw [he]
      rfl
    · have he : ((p.getD c 0 : Nat) : Int) - ((p.getD c 0 + 1 : Nat) : Int) = -1 := by
        push_cast
        ring
      rw [he]
      rfl
  · rw [if_neg hcj, hother c hc hcj]
    simp

/-- Claim C3: for the Hilbert curve with any valid `(dimension, order)`
(`dimension ≥ 2`, `order * dimension < 32`), the curve is continuous: for
every `i` with `1 ≤ i < 2^(order * dimension)`, `point(i)` and `point(i - 1)`
are at squared Euclidean distance exactly `1` (hence Euclidean distance
exactly `1.0`), on the generic N-D path and, at `dimension = 2`, also on the
specialised 2D automaton. -/
theorem claim_C3 (dimension order : Nat) (hd : 2 ≤ dimension)
    (hv : order * dimension < 32) :
    (∀ i, 1 ≤ i → i < 2 ^ (order * dimension) →
        distSq (Hilbertn.hilbert_point dimension order i)
          (Hilbertn.hilbert_point dimension order (i - 1)) = 1) ∧
      (dimension = 2 → ∀ i, 1 ≤ i → i < 2 ^ (order * 2) →
        distSq (Hilbert2.hilbert_point order i)
          (Hilbert2.hilbert_point order (i - 1)) = 1) := by
  have hND : ∀ i, 1 ≤ i → i < 2 ^ (order * dimension) →
      distSq (Hilbertn.hilbert_point dimension order i)
        (Hilbertn.hilbert_point dimension order (i - 1)) = 1 := by
    intro i hi1 hi2
    have ho1 : 1 ≤ order := by
      by_contra h
      have h0 : order = 0 := by omega
      subst h0
      rw [Nat.zero_mul, Nat.pow_zero] at hi2
      omega
    have hdlt : dimension < 32 := by
      have := Nat.le_mul_of_pos_left dimension (show 0 < order by omega)
      omega
    have holt : order < 32 := by
      have := Nat.le_mul_of_pos_right order (show 0 < dimension by omega)
      omega
    unfold Hilbertn.hilbert_point
    obtain ⟨j, hj, hother, hdiff⟩ :=
      Hilbertn.pointAux_cont hd hdlt order holt 0 0 (Nat.two_pow_pos _) (by omega)
        i hi1 hi2
    exact distSq_single (Hilbertn.pointAux_length _ _ _ _ _)
      (Hilbertn.pointAux_length _ _ _ _ _) hj hother hdiff
  refine ⟨hND, ?_⟩
  intro h2d i hi1 hi2
  subst h2d
  have ho32 : order < 32 := by
    have ho1 : 1 ≤ order := by
      by_contra h
      have h0 : order = 0 := by omega
      subst h0
      rw [Nat.zero_mul, Nat.pow_zero] at hi2
      omega
    omega
  rw [hilbert_point_equiv ho32 i, hilbert_point_equiv ho32 (i - 1)]
  exact hND i hi1 hi2

/-- Concrete instance of claim C3: the order-1 2D Hilbert curve takes a unit
step between indices 0 and 1. -/
theorem claim_C3_witness :
    2 ≤ 2 ∧ 1 * 2 < 32 ∧
      distSq (Hilbertn.hilbert_point 2 1 1) (Hilbertn.hilbert_point 2 1 0) = 1 :=
  ⟨by decide, by decide,
    (claim_C3 2 1 (by decide) (by decide)).1 1 (by decide) (by decide)⟩

/-! ### ops.rs: bit_transpose

`bit_transpose(d, v)` builds `ret = [0; d]` and, for every `(off, x)` in `v`
and every `bit < d` with `x & (1 << bit) != 0`, ORs `1 << (v.len() - off - 1)`
into `ret[d - bit - 1]`. -/

def bit_transpose (d : Nat) (v : List Nat) : List Nat :=
  (List.range v.length).foldl
    (fun ret off =>
      (List.range d).foldl
        (fun ret2 bit =>
          if v.getD off 0 &&& (1 <<< bit) ≠ 0 then
            ret2.set (d - bit - 1) (ret2.getD (d - bit - 1) 0 ||| 1 <<< (v.length - off - 1))
          else ret2)
        ret)
    (List.replicate d 0)

namespace HCurve

/-- `hcurve::grey`: BRGC of `val` masked to `d` bits (`val & ((1 << d) - 1)`
is `val % 2^d` for `d < 32`, which the HCurve constructor enforces). -/
def grey (d val : Nat) : Nat :=
  let val2 := val % 2 ^ d
  val2 ^^^ (val2 >>> 1)

/-- `u32::count_ones` modelled bit-by-bit over the 32 bits of a `u32`. -/
def count_onesAux : Nat → Nat → Nat
  | 0, _ => 0
  | fuel + 1, n => n % 2 + count_onesAux fuel (n / 2)

/-- `hcurve::parity`: sum of bits modulo 2. -/
def parity (val : Nat) : Nat := count_onesAux 32 val % 2

/-- `hcurve::cached_grey`: Gray code from the lower half of `corners[0]`. -/
def cached_grey (d val : Nat) (corners : List (List Nat)) : Nat :=
  (corners.getD 0 []).getD val 0

/-- `hcurve::cached_inv_grey`: inverse Gray code from the upper half of
`corners[0]`. -/
def cached_inv_grey (d val : Nat) (corners : List (List Nat)) : Nat :=
  (corners.getD 0 []).getD (val + 2 ^ d) 0

/-- Shared shift computation of `h_index_alphas` and `h_point` (identical in
both loops): table lookup at `alpha_inv + 2^d * (1 ^ parity(alpha_inv))` in
`corners[k]`, with the reversal transform `(x ^ (2^d - 1)).wrapping_add(1)`
applied when `d` is odd and `n == 1`. The table entries are `u32`, so the
looked-up value is below `2^32 < 2^64`. -/
def r_shift_of (d n k alpha : Nat) (corners : List (List Nat)) : Nat :=
  let alpha_inv := alpha ^^^ (2 ^ d - 1)
  let need_to_change_last := 1 ^^^ parity alpha_inv
  let index := alpha_inv + 2 ^ d * need_to_change_last
  let t := (corners.getD k []).getD index 0
  if d % 2 = 1 ∧ n = 1 then ((t ^^^ (2 ^ d - 1)) + 1) % 2 ^ 64 else t

/-- Loop of `hcurve::h_index_alphas`: source iteration `i` (from `n - 1` down
to `0`) has depth `k = n - 1 - i`; the recursion peels depths `k = steps - 1,
…, 0` with `r : u64` threaded bottom-up. `r.wrapping_sub(s)` is
`(r + (2^64 - s)) % 2^64` (the shift `s` is below `2^64`), `r %= S` with
`S = 2^(d*k)`, and `r += r0 * S` wraps in `u64`. -/
def hIndexLoop (d n : Nat) (alphas : List Nat) (corners : List (List Nat)) : Nat → Nat
  | 0 => 0
  | k + 1 =>
    let r := hIndexLoop d n alphas corners k
    let alpha := alphas.getD (n - 1 - k) 0 % 2 ^ d
    let s := r_shift_of d n k alpha corners
    let r2 := ((r + (2 ^ 64 - s)) % 2 ^ 64) % 2 ^ (d * k)
    (r2 + cached_inv_grey d alpha corners * 2 ^ (d * k)) % 2 ^ 64

/-- `hcurve::h_index_alphas`: guard `alphas.len() == n`, run the loop, return
`r as u32`. -/
def h_index_alphas (d n : Nat) (alphas : List Nat) (corners : List (List Nat)) : Nat :=
  if alphas.length = n then hIndexLoop d n alphas corners n % 2 ^ 32 else 0

/-- Loop of `hcurve::h_point`: source iteration `i` (from `0` to `n - 1`)
has depth `k = n - 1 - i`; the recursion processes `k = steps - 1, …, 0`,
consing each `alpha` in source order. `r.wrapping_add` is `% 2^64`. -/
def hPointLoop (d n : Nat) (corners : List (List Nat)) : Nat → Nat → List Nat × Nat
  | 0, r => ([], r)
  | s + 1, r =>
    let r0 := (r >>> (s * d)) % 2 ^ d
    let alpha := cached_grey d r0 corners
    let sh := r_shift_of d n s alpha corners
    let res := hPointLoop d n corners s ((r + sh) % 2 ^ 64)
    (alpha :: res.1, res.2)

/-- `hcurve::h_point`: run the loop on `idx` and transpose the `n` alphas
(`d` bits each) into `d` coordinates (`n` bits each). -/
def h_point (d n idx : Nat) (corners : List (List Nat)) : List Nat :=
  bit_transpose d (hPointLoop d n corners n idx).1

/-- `hcurve::h_index`: guard `p.len() == d`, transpose the `d` coordinates
into `n` alphas and encode them. -/
def h_index (d n : Nat) (p : List Nat) (corners : List (List Nat)) : Nat :=
  if p.length = d then h_index_alphas d n (bit_transpose n p) corners else 0

/-- Row 0 of `hcurve::corner_indexes`: for each `i < 2^d` the loop stores
`grey(d, i)` at position `i` and `i` at position `grey(d, i) + 2^d`. Since
`grey(d, ·)` permutes `[0, 2^d)`, position `g + 2^d` ends up holding the
unique `i` with `grey(d, i) = g`, found here by searching `[0, 2^d)`. -/
def corner_row0 (d : Nat) : List Nat :=
  (List.range (2 ^ d)).map (fun i => grey d i) ++
    (List.range (2 ^ d)).map (fun g =>
      ((List.range (2 ^ d)).find? (fun i => grey d i == g)).getD 0)

/-- Rows `0..=n` of `hcurve::corner_indexes`: row `n1 ≥ 1` stores, for each
`r < 2^d`, the index of the entry corner (`alphas = [r; n1]`) at position `r`
and of the exit corner (last alpha flipped) at position `r + 2^d`, computed
with the previously built rows (rows `≥ n1` are still zero and are never
read, which matches `getD`'s default `0` here). -/
def corner_rows (d : Nat) : Nat → List (List Nat)
  | 0 => [corner_row0 d]
  | n1 + 1 =>
    let v := corner_rows d n1
    v ++ [(List.range (2 ^ d)).map
        (fun r => h_index_alphas d (n1 + 1) (List.replicate (n1 + 1) r) v) ++
      (List.range (2 ^ d)).map
        (fun r => h_index_alphas d (n1 + 1) (List.replicate n1 r ++ [r ^^^ 1]) v)]

/-- `hcurve::corner_indexes`. -/
def corner_indexes (d n : Nat) : List (List Nat) := corner_rows d n

end HCurve

/-! ### Bit-level characterisation of `bit_transpose` -/

theorem getD_set (l : List Nat) (i j v : Nat) :
    (l.set i v).getD j 0 = if i = j ∧ i < l.length then v else l.getD j 0 := by
  rw [List.getD_eq_getElem?_getD, List.getD_eq_getElem?_getD, List.getElem?_set]
  by_cases h1 : i = j
  · subst h1
    by_cases h2 : i < l.length
    · simp [h2]
    · simp [h2, List.getElem?_eq_none (Nat.le_of_not_lt h2)]
  · simp [h1]

theorem and_one_shift_ne (x t : Nat) : (x &&& (1 <<< t) ≠ 0) ↔ x.testBit t = true := by
  rw [Nat.one_shiftLeft, Nat.and_two_pow]
  have hpos := Nat.two_pow_pos t
  cases h : x.testBit t <;> simp_all

theorem inner_fold_length (d x m : Nat) :
    ∀ (L : List Nat) (ret : List Nat),
      (L.foldl (fun r2 bit =>
        if x &&& (1 <<< bit) ≠ 0 then
          r2.set (d - bit - 1) (r2.getD (d - bit - 1) 0 ||| m) else r2) ret).length =
        ret.length := by
  intro L
  induction L with
  | nil => intro ret; rfl
  | cons b L ih =>
    intro ret
    rw [List.foldl_cons, ih]
    split
    · rw [List.length_set]
    · rfl

theorem inner_fold_getD (d x m : Nat) :
    ∀ (L : List Nat), L.Nodup → (∀ b, b ∈ L → b < d) →
      ∀ (ret : List Nat), ret.length = d → ∀ j, j < d →
      ((L.foldl (fun r2 bit =>
          if x &&& (1 <<< bit) ≠ 0 then
            r2.set (d - bit - 1) (r2.getD (d - bit - 1) 0 ||| m) else r2) ret).getD j 0) =
        if (d - j - 1) ∈ L ∧ x &&& (1 <<< (d - j - 1)) ≠ 0
        then ret.getD j 0 ||| m else ret.getD j 0 := by
  intro L
  induction L with
  | nil =>
    intro _ _ ret _ j _
    simp
  | cons b L ih =>
    intro hnd hb ret hlen j hj
    have hnd' := List.nodup_cons.mp hnd
    have hlen2 : (if x &&& (1 <<< b) ≠ 0 then
        ret.set (d - b - 1) (ret.getD (d - b - 1) 0 ||| m) else ret).length = d := by
      split
      · rw [List.length_set]
        exact hlen
      · exact hlen
    rw [List.foldl_cons,
      ih hnd'.2 (fun b2 hb2 => hb b2 (List.mem_cons_of_mem _ hb2)) _ hlen2 j hj]
    have hbd : b < d := hb b (List.mem_cons_self b L)
    by_cases hjb : d - j - 1 = b
    · have hjval : j = d - b - 1 := by omega
      rw [hjb, if_neg (fun hc => hnd'.1 hc.1)]
      by_cases hx : x &&& (1 <<< b) ≠ 0
      · rw [if_pos hx, getD_set, if_pos ⟨by omega, by omega⟩,
          if_pos ⟨List.mem_cons_self b L, hx⟩, hjval]
      · rw [if_neg hx, if_neg (fun hc => hx hc.2)]
    · have hne : d - b - 1 ≠ j := by omega
      have hsame : (if x &&& (1 <<< b) ≠ 0 then
          ret.set (d - b - 1) (ret.getD (d - b - 1) 0 ||| m) else ret).getD j 0 =
          ret.getD j 0 := by
        split
        · rw [getD_set, if_neg (fun hc => hne hc.1)]
        · rfl
      rw [hsame]
      by_cases hin : (d - j - 1) ∈ L ∧ x &&& (1 <<< (d - j - 1)) ≠ 0
      · rw [if_pos hin, if_pos ⟨List.mem_cons_of_mem _ hin.1, hin.2⟩]
      · rw [if_neg hin,
          if_neg (fun hc => hin ⟨(List.mem_cons.mp hc.1).resolve_left hjb, hc.2⟩)]

theorem outer_fold_length (d : Nat) (v : List Nat) :
    ∀ (offs : List Nat) (ret : List Nat),
      ((offs.foldl (fun ret off =>
        (List.range d).foldl
          (fun ret2 bit =>
            if v.getD off 0 &&& (1 <<< bit) ≠ 0 then
              ret2.set (d - bit - 1) (ret2.getD (d - bit - 1) 0 ||| 1 <<< (v.length - off - 1))
            else ret2)
          ret) ret).length) = ret.length := by
  intro offs
  induction offs with
  | nil => intro ret; rfl
  | cons o offs ih =>
    intro ret
    rw [List.foldl_cons, ih, inner_fold_length]

theorem outer_fold_getD (d : Nat) (v : List Nat) :
    ∀ (offs : List Nat) (ret : List Nat), ret.length = d → ∀ j, j < d →
      ((offs.foldl (fun ret off =>
        (List.range d).foldl
          (fun ret2 bit =>
            if v.getD off 0 &&& (1 <<< bit) ≠ 0 then
              ret2.set (d - bit - 1) (ret2.getD (d - bit - 1) 0 ||| 1 <<< (v.length - off - 1))
            else ret2)
          ret) ret).getD j 0) =
      offs.foldl (fun acc off =>
        acc ||| (if v.getD off 0 &&& (1 <<< (d - j - 1)) ≠ 0 then 1 else 0) <<<
          (v.length - off - 1)) (ret.getD j 0) := by
  intro offs
  induction offs with
  | nil => intro ret _ j _; rfl
  | cons o offs ih =>
    intro ret hlen j hj
    rw [List.foldl_cons, List.foldl_cons,
      ih _ (by rw [inner_fold_length]; exact hlen) j hj,
      inner_fold_getD d (v.getD o 0) (1 <<< (v.length - o - 1)) (List.range d)
        (List.nodup_range d) (fun b hb => List.mem_range.mp hb) ret hlen j hj]
    have hmem : (d - j - 1) ∈ List.range d := List.mem_range.mpr (by omega)
    by_cases hx : v.getD o 0 &&& (1 <<< (d - j - 1)) ≠ 0
    · rw [if_pos ⟨hmem, hx⟩, if_pos hx]
    · rw [if_neg (by intro hc; exact hx hc.2), if_neg hx, Nat.zero_shiftLeft, Nat.or_zero]

theorem foldl_or_shifts (σg : Nat → Nat × Nat) (hg : ∀ c, (σg c).2 ≤ 1) :
    ∀ (L : List Nat) (acc : Nat) (j : Nat),
      (L.foldl (fun a c => a ||| ((σg c).2) <<< ((σg c).1)) acc).testBit j =
        (acc.testBit j || L.any (fun c => decide ((σg c).1 = j) && decide ((σg c).2 = 1))) := by
  intro L
  induction L with
  | nil => intro acc j; simp
  | cons c L ih =>
    intro acc j
    have hbit : (((σg c).2) <<< ((σg c).1)).testBit j =
        (decide ((σg c).1 = j) && decide ((σg c).2 = 1)) := by
      rw [Nat.testBit_shiftLeft]
      by_cases hle : (σg c).1 ≤ j
      · by_cases heq : (σg c).1 = j
        · have h0 : j - (σg c).1 = 0 := by omega
          rw [h0]
          rcases Nat.le_one_iff_eq_zero_or_eq_one.mp (hg c) with h | h <;>
            simp [h, hle, heq]
        · have h1 : 1 ≤ j - (σg c).1 := by omega
          have hfalse : ((σg c).2).testBit (j - (σg c).1) = false := by
            apply Nat.testBit_eq_false_of_lt
            calc (σg c).2 ≤ 1 := hg c
              _ < 2 ^ (j - (σg c).1) := by
                have := Nat.one_lt_two_pow_iff.mpr (by omega : j - (σg c).1 ≠ 0)
                omega
          simp [hfalse, heq]
      · have heq : ¬ ((σg c).1 = j) := by omega
        simp [hle, heq]
    rw [List.foldl_cons, ih, Nat.testBit_or, hbit, List.any_cons, Bool.or_assoc]

theorem bit_transpose_length (d : Nat) (v : List Nat) :
    (bit_transpose d v).length = d := by
  unfold bit_transpose
  rw [outer_fold_length, List.length_replicate]

theorem bit_transpose_testBit (d : Nat) (v : List Nat) {j : Nat} (hj : j < d) (b : Nat) :
    ((bit_transpose d v).getD j 0).testBit b =
      (decide (b < v.length) && (v.getD (v.length - 1 - b) 0).testBit (d - j - 1)) := by
  unfold bit_transpose
  rw [outer_fold_getD d v (List.range v.length) _ (List.length_replicate _ _) j hj]
  have hrep : (List.replicate d (0 : Nat)).getD j 0 = 0 := by
    rw [List.getD_eq_getElem?_getD, List.getElem?_replicate]
    by_cases h : j < d <;> simp [h]
  rw [hrep]
  have hshifts := foldl_or_shifts
    (fun off => (v.length - off - 1,
      if v.getD off 0 &&& (1 <<< (d - j - 1)) ≠ 0 then 1 else 0))
    (fun c => by dsimp only; split <;> omega) (List.range v.length) 0 b
  dsimp only at hshifts
  rw [hshifts, Nat.zero_testBit, Bool.false_or]
  by_cases hb : b < v.length
  · by_cases hbit : (v.getD (v.length - 1 - b) 0).testBit (d - j - 1) = true
    · have hcond : v.getD (v.length - 1 - b) 0 &&& (1 <<< (d - j - 1)) ≠ 0 :=
        (and_one_shift_ne _ _).mpr hbit
      have harith : v.length - (v.length - 1 - b) - 1 = b := by omega
      have hanyT : (List.range v.length).any (fun off =>
          decide (v.length - off - 1 = b) &&
            decide ((if v.getD off 0 &&& (1 <<< (d - j - 1)) ≠ 0 then 1 else 0) = 1)) =
          true :=
        List.any_eq_true.mpr ⟨v.length - 1 - b, List.mem_range.mpr (by omega),
          by rw [if_pos hcond, harith]; simp⟩
      rw [hanyT, hbit]
      simp [hb]
    · have hbit' : (v.getD (v.length - 1 - b) 0).testBit (d - j - 1) = false :=
        Bool.eq_false_iff.mpr hbit
      have hany : (List.range v.length).any (fun off =>
          decide (v.length - off - 1 = b) &&
            decide ((if v.getD off 0 &&& (1 <<< (d - j - 1)) ≠ 0 then 1 else 0) = 1)) =
          false := by
        rw [List.any_eq_false]
        intro off hoff
        have hofflt := List.mem_range.mp hoff
        by_cases hs : v.length - off - 1 = b
        · have hoffv : off = v.length - 1 - b := by omega
          subst hoffv
          have hC : ¬ (v.getD (v.length - 1 - b) 0 &&& (1 <<< (d - j - 1)) ≠ 0) := by
            intro hc
            have ht := (and_one_shift_ne _ _).mp hc
            rw [ht] at hbit'
            exact Bool.noConfusion hbit'
          rw [if_neg hC]
          simp
        · simp [hs]
      rw [hany, hbit']
      simp
  · have hany : (List.range v.length).any (fun off =>
        decide (v.length - off - 1 = b) &&
          decide ((if v.getD off 0 &&& (1 <<< (d - j - 1)) ≠ 0 then 1 else 0) = 1)) =
        false := by
      rw [List.any_eq_false]
      intro off hoff
      have hofflt := List.mem_range.mp hoff
      have hs : ¬ (v.length - off - 1 = b) := by omega
      simp [hs]
    rw [hany]
    simp [hb]

theorem bit_transpose_getD_ge (d : Nat) (v : List Nat) {j : Nat} (hj : d ≤ j) :
    (bit_transpose d v).getD j 0 = 0 :=
  List.getD_eq_default _ _ (by rw [bit_transpose_length]; exact hj)

theorem bit_transpose_lt (d : Nat) (v : List Nat) (j : Nat) :
    (bit_transpose d v).getD j 0 < 2 ^ v.length := by
  by_cases hj : j < d
  · apply Nat.lt_pow_two_of_testBit
    intro b hb
    rw [bit_transpose_testBit d v hj b]
    simp [Nat.not_lt.mpr hb]
  · rw [bit_transpose_getD_ge d v (by omega)]
    exact Nat.two_pow_pos _

theorem bit_transpose_involution {n d : Nat} (v : List Nat) (hlen : v.length = n)
    (hbound : ∀ c, c < n → v.getD c 0 < 2 ^ d) :
    bit_transpose n (bit_transpose d v) = v := by
  have hwlen : (bit_transpose d v).length = d := bit_transpose_length d v
  apply list_eq_of_getD
  · rw [bit_transpose_length, hlen]
  · intro i hi
    rw [bit_transpose_length] at hi
    apply Nat.eq_of_testBit_eq
    intro c
    rw [bit_transpose_testBit n _ hi c, hwlen]
    by_cases hc : c < d
    · rw [bit_transpose_testBit d v (show d - 1 - c < d from by omega) (n - i - 1), hlen,
        show n - 1 - (n - i - 1) = i from by omega,
        show d - (d - 1 - c) - 1 = c from by omega]
      simp [hc, show n - i - 1 < n from by omega]
    · have hfalse : (v.getD i 0).testBit c = false := by
        apply Nat.testBit_eq_false_of_lt
        calc v.getD i 0 < 2 ^ d := hbound i hi
          _ ≤ 2 ^ c := Nat.pow_le_pow_right (by omega) (by omega)
      rw [show decide (c < d) = false from by simp [hc], Bool.false_and]
      exact hfalse.symm

/-! ### H-curve encode/decode inversion

The decode loop (`hPointLoop`) extracts digit `r0` at depth `k`, maps it
through the plain Gray table and adds the level shift; the encode loop
(`hIndexLoop`) subtracts the same shift (the shift depends only on the alpha,
which both sides agree on), truncates to the sub-cell and puts back the
inverse-Gray digit. The inversion holds for arbitrary corner-table contents:
only the two halves of `corners[0]` being the Gray / inverse-Gray tables and
the `u32` bound on all entries are used. -/

namespace HCurve

theorem hPointLoop_fst_succ (d n : Nat) (corners : List (List Nat)) (s r : Nat) :
    (hPointLoop d n corners (s + 1) r).1 =
      cached_grey d ((r >>> (s * d)) % 2 ^ d) corners ::
        (hPointLoop d n corners s
          ((r + r_shift_of d n s (cached_grey d ((r >>> (s * d)) % 2 ^ d) corners)
            corners) % 2 ^ 64)).1 := rfl

theorem hIndexLoop_succ (d n : Nat) (alphas : List Nat) (corners : List (List Nat))
    (k : Nat) :
    hIndexLoop d n alphas corners (k + 1) =
      (((hIndexLoop d n alphas corners k +
          (2 ^ 64 - r_shift_of d n k (alphas.getD (n - 1 - k) 0 % 2 ^ d) corners)) %
            2 ^ 64) % 2 ^ (d * k) +
        cached_inv_grey d (alphas.getD (n - 1 - k) 0 % 2 ^ d) corners * 2 ^ (d * k)) %
        2 ^ 64 := rfl

theorem hPointLoop_length (d n : Nat) (corners : List (List Nat)) :
    ∀ s r, ((hPointLoop d n corners s r).1).length = s := by
  intro s
  induction s with
  | zero => intro r; rfl
  | succ s ih =>
    intro r
    rw [hPointLoop_fst_succ, List.length_cons, ih]

theorem r_shift_of_lt {d n k alpha : Nat} {corners : List (List Nat)}
    (Hb : ∀ k i, (corners.getD k []).getD i 0 < 2 ^ 32) :
    r_shift_of d n k alpha corners < 2 ^ 64 := by
  unfold r_shift_of
  split
  · exact Nat.mod_lt _ (Nat.two_pow_pos 64)
  · calc (corners.getD k []).getD _ 0 < 2 ^ 32 := Hb k _
      _ < 2 ^ 64 := by norm_num

theorem mod_pow_decomp (r m t : Nat) :
    r % 2 ^ (m + t) = r % 2 ^ m + ((r >>> m) % 2 ^ t) * 2 ^ m := by
  rw [pow_add, Nat.mod_mul, Nat.shiftRight_eq_div_pow]
  ring

theorem wrap_step (M : Nat) (hM : M ∣ 2 ^ 64) (r sh r0d : Nat) (hsh : sh ≤ 2 ^ 64)
    (hbound : r % M + r0d * M < 2 ^ 64) :
    ((((r + sh) % 2 ^ 64 % M + (2 ^ 64 - sh)) % 2 ^ 64) % M + r0d * M) % 2 ^ 64 =
      r % M + r0d * M := by
  rw [Nat.mod_mod_of_dvd _ hM, Nat.mod_mod_of_dvd _ hM]
  have h2 : ((r + sh) % M + (2 ^ 64 - sh)) % M = r % M := by
    rw [Nat.mod_add_mod, show r + sh + (2 ^ 64 - sh) = r + 2 ^ 64 from by omega,
      Nat.add_mod, (Nat.mod_eq_zero_of_dvd hM : 2 ^ 64 % M = 0), Nat.add_zero,
      Nat.mod_mod_of_dvd _ (dvd_refl M)]
  rw [h2, Nat.mod_eq_of_lt hbound]

theorem hLoop_inv {d n : Nat} (h1 : 1 ≤ d) (hv : n * d < 32)
    (corners : List (List Nat))
    (Hg : ∀ x, x < 2 ^ d → cached_grey d x corners = graycode x)
    (Hig : ∀ x, x < 2 ^ d → cached_inv_grey d (graycode x) corners = x)
    (Hb : ∀ k i, (corners.getD k []).getD i 0 < 2 ^ 32) :
    ∀ s, s ≤ n → ∀ r : Nat,
      (∀ a ∈ (hPointLoop d n corners s r).1, a < 2 ^ d) ∧
      ∀ (A : List Nat),
        (∀ k, k < s → A.getD (n - 1 - k) 0 % 2 ^ d =
          (hPointLoop d n corners s r).1.getD (s - 1 - k) 0) →
        hIndexLoop d n A corners s = r % 2 ^ (d * s) := by
  intro s
  induction s with
  | zero =>
    intro _ r
    refine ⟨by intro a ha; exact absurd ha (List.not_mem_nil a), ?_⟩
    intro A _
    rw [show hIndexLoop d n A corners 0 = 0 from rfl, Nat.mul_zero, Nat.pow_zero,
      Nat.mod_one]
  | succ s ih =>
    intro hs r
    have hd0 := Nat.two_pow_pos d
    have hr0lt : (r >>> (s * d)) % 2 ^ d < 2 ^ d := Nat.mod_lt _ hd0
    have halpha : cached_grey d ((r >>> (s * d)) % 2 ^ d) corners =
        graycode ((r >>> (s * d)) % 2 ^ d) := Hg _ hr0lt
    obtain ⟨ihmem, ihenc⟩ := ih (by omega)
      ((r + r_shift_of d n s (cached_grey d ((r >>> (s * d)) % 2 ^ d) corners)
        corners) % 2 ^ 64)
    constructor
    · rw [hPointLoop_fst_succ]
      intro a ha
      rcases List.mem_cons.mp ha with h | h
      · rw [h, halpha]
        exact graycode_lt_two_pow hr0lt
      · exact ihmem a h
    · intro A hA
      rw [hIndexLoop_succ]
      have hAs : A.getD (n - 1 - s) 0 % 2 ^ d =
          cached_grey d ((r >>> (s * d)) % 2 ^ d) corners := by
        have h := hA s (by omega)
        rw [show s + 1 - 1 - s = 0 from by omega, hPointLoop_fst_succ,
          List.getD_cons_zero] at h
        exact h
      have hA' : ∀ k, k < s → A.getD (n - 1 - k) 0 % 2 ^ d =
          (hPointLoop d n corners s
            ((r + r_shift_of d n s (cached_grey d ((r >>> (s * d)) % 2 ^ d) corners)
              corners) % 2 ^ 64)).1.getD (s - 1 - k) 0 := by
        intro k hk
        have h := hA k (by omega)
        rw [show s + 1 - 1 - k = (s - 1 - k) + 1 from by omega, hPointLoop_fst_succ,
          List.getD_cons_succ] at h
        exact h
      rw [hAs, ihenc A hA', halpha, Hig _ hr0lt]
      have hds : d * s + d ≤ d * n := by
        have h := Nat.mul_le_mul_left d hs
        have hexp : d * (s + 1) = d * s + d := by ring
        omega
      have hdn32 : d * n < 32 := by
        rw [Nat.mul_comm] at hv
        exact hv
      have hbound : r % 2 ^ (d * s) + ((r >>> (s * d)) % 2 ^ d) * 2 ^ (d * s) <
          2 ^ 64 := by
        have hm := Nat.mod_lt r (Nat.two_pow_pos (d * s))
        have hmul : ((r >>> (s * d)) % 2 ^ d) * 2 ^ (d * s) ≤
            (2 ^ d - 1) * 2 ^ (d * s) :=
          Nat.mul_le_mul_right _ (by omega)
        have hpow : 2 ^ d * 2 ^ (d * s) = 2 ^ (d * s + d) := by
          rw [← pow_add]
          congr 1
          omega
        have hle : 2 ^ (d * s + d) ≤ 2 ^ 32 := Nat.pow_le_pow_right (by omega)
          (by omega)
        have : (2 ^ d - 1) * 2 ^ (d * s) + 2 ^ (d * s) = 2 ^ d * 2 ^ (d * s) := by
          rw [← Nat.add_one_mul]
          congr 1
          omega
        have h64 : (2 : Nat) ^ 32 < 2 ^ 64 := by norm_num
        omega
      rw [wrap_step (2 ^ (d * s)) (Nat.pow_dvd_pow 2 (by omega)) r _ _
        (Nat.le_of_lt (r_shift_of_lt Hb)) hbound]
      rw [show d * (s + 1) = d * s + d from by ring, mod_pow_decomp,
        Nat.mul_comm s d]

theorem grey_eq {d x : Nat} (hx : x < 2 ^ d) : grey d x = graycode x := by
  rw [show grey d x = (x % 2 ^ d) ^^^ ((x % 2 ^ d) >>> 1) from rfl,
    Nat.mod_eq_of_lt hx]
  rfl

theorem grey_lt (d x : Nat) : grey d x < 2 ^ d :=
  graycode_lt_two_pow (Nat.mod_lt _ (Nat.two_pow_pos d))

theorem find_grey {d g : Nat} (hg : g < 2 ^ d) :
    (List.range (2 ^ d)).find? (fun i => grey d i == g) = some (igraycode g) := by
  cases hfind : (List.range (2 ^ d)).find? (fun i => grey d i == g) with
  | none =>
    exfalso
    apply List.find?_eq_none.mp hfind (igraycode g)
      (List.mem_range.mpr (igraycode_lt_two_pow hg))
    rw [grey_eq (igraycode_lt_two_pow hg), graycode_igraycode]
    exact beq_self_eq_true g
  | some x =>
    have hmem := List.mem_range.mp (List.mem_of_find?_eq_some hfind)
    have hp := List.find?_some hfind
    rw [grey_eq hmem] at hp
    have hx : graycode x = g := eq_of_beq hp
    rw [← hx, igraycode_graycode]

theorem corner_rows_length (d : Nat) : ∀ n, (corner_rows d n).length = n + 1 := by
  intro n
  induction n with
  | zero => rfl
  | succ n ih =>
    show (corner_rows d n ++ [_]).length = n + 2
    rw [List.length_append, ih]
    rfl

theorem corner_rows_getD_zero (d : Nat) :
    ∀ n, (corner_rows d n).getD 0 [] = corner_row0 d := by
  intro n
  induction n with
  | zero => rfl
  | succ n ih =>
    show (corner_rows d n ++ [_]).getD 0 [] = corner_row0 d
    rw [List.getD_append _ _ _ _ (by rw [corner_rows_length]; omega)]
    exact ih

theorem cached_grey_corner {d : Nat} (n : Nat) {x : Nat} (hx : x < 2 ^ d) :
    cached_grey d x (corner_indexes d n) = graycode x := by
  unfold cached_grey corner_indexes
  rw [corner_rows_getD_zero]
  unfold corner_row0
  rw [List.getD_append _ _ _ _ (by simp [hx]), getD_map_range _ hx, grey_eq hx]

theorem cached_inv_grey_corner {d : Nat} (n : Nat) {x : Nat} (hx : x < 2 ^ d) :
    cached_inv_grey d (graycode x) (corner_indexes d n) = x := by
  have hglt : graycode x < 2 ^ d := graycode_lt_two_pow hx
  unfold cached_inv_grey corner_indexes
  rw [corner_rows_getD_zero]
  unfold corner_row0
  rw [List.getD_append_right _ _ _ _ (by simp),
    show graycode x + 2 ^ d -
      ((List.range (2 ^ d)).map (fun i => grey d i)).length = graycode x from by
        simp, getD_map_range _ hglt, find_grey hglt]
  exact igraycode_graycode x

theorem h_index_alphas_lt (d n : Nat) (alphas : List Nat)
    (corners : List (List Nat)) : h_index_alphas d n alphas corners < 2 ^ 32 := by
  unfold h_index_alphas
  split
  · exact Nat.mod_lt _ (Nat.two_pow_pos 32)
  · exact Nat.two_pow_pos 32

theorem corner_row0_bound {d : Nat} (hd : d < 32) (i : Nat) :
    (corner_row0 d).getD i 0 < 2 ^ 32 := by
  have h232 : (2 : Nat) ^ d < 2 ^ 32 := Nat.pow_lt_pow_right (by omega) hd
  unfold corner_row0
  by_cases h1 : i < 2 ^ d
  · rw [List.getD_append _ _ _ _ (by simp [h1]), getD_map_range _ h1]
    exact lt_trans (grey_lt d i) h232
  · by_cases h2 : i < 2 ^ d + 2 ^ d
    · rw [List.getD_append_right _ _ _ _ (by simp; omega),
        getD_map_range _ (by simp; omega)]
      cases hf : (List.range (2 ^ d)).find?
          (fun j => grey d j == i - ((List.range (2 ^ d)).map
            (fun i => grey d i)).length) with
      | none => exact Nat.two_pow_pos 32
      | some x =>
        have := List.mem_range.mp (List.mem_of_find?_eq_some hf)
        calc (some x).getD 0 = x := rfl
          _ < 2 ^ d := this
          _ < 2 ^ 32 := h232
    · rw [List.getD_eq_default _ _ (by simp; omega)]
      exact Nat.two_pow_pos 32

theorem corner_rows_bound {d : Nat} (hd : d < 32) :
    ∀ n k i, ((corner_rows d n).getD k []).getD i 0 < 2 ^ 32 := by
  intro n
  induction n with
  | zero =>
    intro k i
    cases k with
    | zero => exact corner_row0_bound hd i
    | succ k =>
      show (([corner_row0 d]).getD (k + 1) []).getD i 0 < 2 ^ 32
      rw [List.getD_eq_default _ _ (by simp)]
      exact Nat.two_pow_pos 32
  | succ n ih =>
    intro k i
    by_cases hk : k < n + 1
    · show ((corner_rows d n ++ [_]).getD k []).getD i 0 < 2 ^ 32
      rw [List.getD_append _ _ _ _ (by rw [corner_rows_length]; omega)]
      exact ih k i
    · by_cases hk2 : k = n + 1
      · subst hk2
        show ((corner_rows d n ++ [_]).getD (n + 1) []).getD i 0 < 2 ^ 32
        rw [List.getD_append_right _ _ _ _ (corner_rows_length d n).le,
          corner_rows_length, Nat.sub_self]
        show ((List.range (2 ^ d)).map _ ++ (List.range (2 ^ d)).map _).getD i 0 <
          2 ^ 32
        by_cases h1 : i < 2 ^ d
        · rw [List.getD_append _ _ _ _ (by simp [h1]), getD_map_range _ h1]
          exact h_index_alphas_lt _ _ _ _
        · by_cases h2 : i < 2 ^ d + 2 ^ d
          · rw [List.getD_append_right _ _ _ _ (by simp; omega),
              getD_map_range _ (by simp; omega)]
            exact h_index_alphas_lt _ _ _ _
          · rw [List.getD_eq_default _ _ (by simp; omega)]
            exact Nat.two_pow_pos 32
      · have hrow : (corner_rows d (n + 1)).getD k [] = [] :=
          List.getD_eq_default _ _ (by rw [corner_rows_length]; omega)
        rw [hrow]
        exact Nat.two_pow_pos 32

/-- H-curve round trip: `h_index` is a left inverse of `h_point` on the
precomputed corner tables, for every valid `(d, n)`. -/
theorem h_index_h_point {d n : Nat} (h1 : 1 ≤ d) (hd32 : d < 32) (hv : n * d < 32)
    (i : Nat) (hi : i < 2 ^ (n * d)) :
    h_index d n (h_point d n i (corner_indexes d n)) (corner_indexes d n) = i := by
  obtain ⟨hmem, henc⟩ := hLoop_inv h1 hv (corner_indexes d n)
    (fun x hx => cached_grey_corner n hx)
    (fun x hx => cached_inv_grey_corner n hx)
    (fun k j => corner_rows_bound hd32 n k j)
    n (le_refl n) i
  have hlen : ((hPointLoop d n (corner_indexes d n) n i).1).length = n :=
    hPointLoop_length d n _ n i
  have hboundP : ∀ c, c < n →
      ((hPointLoop d n (corner_indexes d n) n i).1).getD c 0 < 2 ^ d := by
    intro c hc
    apply hmem
    rw [getD_eq_getElem (by rw [hlen]; exact hc)]
    exact List.getElem_mem _
  have hA : ∀ k, k < n →
      (hPointLoop d n (corner_indexes d n) n i).1.getD (n - 1 - k) 0 % 2 ^ d =
        (hPointLoop d n (corner_indexes d n) n i).1.getD (n - 1 - k) 0 :=
    fun k hk => Nat.mod_eq_of_lt (hboundP _ (by omega))
  unfold h_point h_index
  rw [if_pos (bit_transpose_length d _), bit_transpose_involution _ hlen hboundP]
  unfold h_index_alphas
  rw [if_pos hlen, henc _ hA,
    Nat.mod_eq_of_lt (show i < 2 ^ (d * n) from by rw [Nat.mul_comm]; exact hi),
    Nat.mod_eq_of_lt (show i < 2 ^ 32 from
      lt_of_lt_of_le hi (Nat.pow_le_pow_right (by omega) (le_of_lt hv)))]

theorem h_point_length (d n i : Nat) (corners : List (List Nat)) :
    (h_point d n i corners).length = d :=
  bit_transpose_length d _

theorem h_point_coord_lt (d n i c : Nat) (corners : List (List Nat)) :
    (h_point d n i corners).getD c 0 < 2 ^ n := by
  unfold h_point
  have h := bit_transpose_lt d ((hPointLoop d n corners n i).1) c
  rwa [hPointLoop_length] at h

/-- H-curve surjectivity onto the grid, by counting: the left inverse makes
`h_point` injective on `[0, 2^(n*d))`, and the grid has the same cardinality. -/
theorem h_point_surj {d n : Nat} (h1 : 1 ≤ d) (hd32 : d < 32) (hv : n * d < 32) :
    ∀ p : List Nat, p.length = d → (∀ c, c < d → p.getD c 0 < 2 ^ n) →
      ∃ i, i < 2 ^ (n * d) ∧ h_point d n i (corner_indexes d n) = p := by
  let F : Fin (2 ^ (n * d)) → Fin d → Fin (2 ^ n) := fun i c =>
    ⟨(h_point d n i.val (corner_indexes d n)).getD c.val 0,
      h_point_coord_lt d n i.val c.val _⟩
  have hinj : Function.Injective F := by
    intro i1 i2 heq
    have hlists : h_point d n i1.val (corner_indexes d n) =
        h_point d n i2.val (corner_indexes d n) := by
      apply list_eq_of_getD
      · rw [h_point_length, h_point_length]
      · intro c hc
        rw [h_point_length] at hc
        exact congrArg Fin.val (congrFun heq ⟨c, hc⟩)
    have h := congrArg (fun p => h_index d n p (corner_indexes d n)) hlists
    dsimp only at h
    rw [h_index_h_point h1 hd32 hv i1.val i1.isLt,
      h_index_h_point h1 hd32 hv i2.val i2.isLt] at h
    exact Fin.ext h
  have hcard : Fintype.card (Fin (2 ^ (n * d))) =
      Fintype.card (Fin d → Fin (2 ^ n)) := by
    rw [Fintype.card_fin, Fintype.card_fun, Fintype.card_fin, Fintype.card_fin,
      ← pow_mul, Nat.mul_comm]
  have hbij : Function.Bijective F :=
    (Fintype.bijective_iff_injective_and_card F).mpr ⟨hinj, hcard⟩
  intro p hplen hpbound
  obtain ⟨i, hi⟩ := hbij.2 (fun c => ⟨p.getD c.val 0, hpbound c.val c.isLt⟩)
  refine ⟨i.val, i.isLt, ?_⟩
  apply list_eq_of_getD
  · rw [h_point_length, hplen]
  · intro c hc
    rw [h_point_length] at hc
    exact congrArg Fin.val (congrFun hi ⟨c, hc⟩)

end HCurve

/-- Claim C4: for the H-curve with any valid `(dimension, order)`
(`2 ≤ dimension < 32`, `order * dimension < 32`) and its precomputed corner
tables, `index` is a left inverse of `point` on `[0, 2^(order*dimension))`;
every point lies in the grid `[0, 2^order)^dimension`, and `point` maps
`[0, 2^(order*dimension))` onto that grid (hence bijectively, by the left
inverse). -/
theorem claim_C4 (d n : Nat) (hd : 2 ≤ d) (h32 : d < 32) (hv : n * d < 32) :
    (∀ i, i < 2 ^ (n * d) →
        HCurve.h_index d n (HCurve.h_point d n i (HCurve.corner_indexes d n))
          (HCurve.corner_indexes d n) = i) ∧
      (∀ i, (HCurve.h_point d n i (HCurve.corner_indexes d n)).length = d ∧
        ∀ c, c < d →
          (HCurve.h_point d n i (HCurve.corner_indexes d n)).getD c 0 < 2 ^ n) ∧
      (∀ p : List Nat, p.length = d → (∀ c, c < d → p.getD c 0 < 2 ^ n) →
        ∃ i, i < 2 ^ (n * d) ∧
          HCurve.h_point d n i (HCurve.corner_indexes d n) = p) :=
  ⟨fun i hi => HCurve.h_index_h_point (by omega) h32 hv i hi,
    fun i => ⟨HCurve.h_point_length d n i _,
      fun c _ => HCurve.h_point_coord_lt d n i c _⟩,
    HCurve.h_point_surj (by omega) h32 hv⟩

/-- Concrete instance of claim C4: the 2D order-1 H-curve round trip at
index 2. -/
theorem claim_C4_witness :
    2 ≤ 2 ∧ 2 < 32 ∧ 1 * 2 < 32 ∧
      HCurve.h_index 2 1 (HCurve.h_point 2 1 2 (HCurve.corner_indexes 2 1))
        (HCurve.corner_indexes 2 1) = 2 :=
  ⟨by decide, by decide, by decide,
    (claim_C4 2 1 (by decide) (by decide) (by decide)).1 2 (by decide)⟩

/-- Claim C2 (refuted): the H-curve is not continuous in dimension 3. At the
valid parameters `dimension = 3`, `order = 2` the adjacent indices 7 and 8
map to `[1, 1, 0]` and `[1, 1, 3]`, at squared Euclidean distance 9 (distance
3.0, not 1.0). -/
theorem claim_C2 :
    HCurve.h_point 3 2 7 (HCurve.corner_indexes 3 2) = [1, 1, 0] ∧
      HCurve.h_point 3 2 8 (HCurve.corner_indexes 3 2) = [1, 1, 3] ∧
      distSq (HCurve.h_point 3 2 8 (HCurve.corner_indexes 3 2))
        (HCurve.h_point 3 2 7 (HCurve.corner_indexes 3 2)) = 9 :=
  ⟨by decide, by decide, by decide⟩

/-! ### ops.rs: Morton interleave/deinterleave -/

namespace Ops

/-- `ops::bitmask` (private helper of the Morton functions). -/
def bitmask (bits : Nat) : Nat :=
  if bits ≥ 32 then 2 ^ 32 - 1
  else
    match bits with
    | 0 => 0
    | b => (1 <<< b) - 1

/-- `ops::part1by1`: spread the 16 low bits with one zero between each. All
intermediate values stay below `2^32`, so the `u32` operations are exact. -/
def part1by1 (n : Nat) : Nat :=
  let n1 := n &&& 0x0000ffff
  let n2 := (n1 ^^^ (n1 <<< 8)) &&& 0x00ff00ff
  let n3 := (n2 ^^^ (n2 <<< 4)) &&& 0x0f0f0f0f
  let n4 := (n3 ^^^ (n3 <<< 2)) &&& 0x33333333
  (n4 ^^^ (n4 <<< 1)) &&& 0x55555555

/-- `ops::compact1by1`: select every other bit; inverse of `part1by1`. -/
def compact1by1 (n : Nat) : Nat :=
  let n1 := n &&& 0x55555555
  let n2 := (n1 ^^^ (n1 >>> 1)) &&& 0x33333333
  let n3 := (n2 ^^^ (n2 >>> 2)) &&& 0x0f0f0f0f
  let n4 := (n3 ^^^ (n3 >>> 4)) &&& 0x00ff00ff
  (n4 ^^^ (n4 >>> 8)) &&& 0x0000ffff

/-- `ops::part1by2`: spread the 10 low bits with two zeroes between each. -/
def part1by2 (n : Nat) : Nat :=
  let n1 := n &&& 0x000003ff
  let n2 := (n1 ^^^ (n1 <<< 16)) &&& 0xff0000ff
  let n3 := (n2 ^^^ (n2 <<< 8)) &&& 0x0300f00f
  let n4 := (n3 ^^^ (n3 <<< 4)) &&& 0x030c30c3
  (n4 ^^^ (n4 <<< 2)) &&& 0x09249249

/-- `ops::compact1by2`: select every third bit; inverse of `part1by2`. -/
def compact1by2 (n : Nat) : Nat :=
  let n1 := n &&& 0x09249249
  let n2 := (n1 ^^^ (n1 >>> 2)) &&& 0x030c30c3
  let n3 := (n2 ^^^ (n2 >>> 4)) &&& 0x0300f00f
  let n4 := (n3 ^^^ (n3 >>> 8)) &&& 0xff0000ff
  (n4 ^^^ (n4 >>> 16)) &&& 0x000003ff

/-- `ops::interleave_generic` (also the inline fallthrough loop of
`interleave_lsb_const`, written there verbatim): OR bit `bit` of coordinate
`dim` into position `bit * dimension + dim`. -/
def interleave_generic (coords : List Nat) (bits_per_axis : Nat) : Nat :=
  (List.range bits_per_axis).foldl
    (fun value bit =>
      (List.range coords.length).foldl
        (fun value dim =>
          value ||| (((coords.getD dim 0) >>> bit) &&& 1) <<<
            (bit * coords.length + dim))
        value)
    0

/-- `ops::interleave_lsb_const::<D>` with `D = coords.length`. -/
def interleave_lsb_const (coords : List Nat) (bits_per_axis : Nat) : Nat :=
  if coords.length = 0 ∨ bits_per_axis = 0 then 0
  else if coords.length = 2 ∧ bits_per_axis ≤ 16 then
    part1by1 (coords.getD 0 0 &&& bitmask bits_per_axis) |||
      (part1by1 (coords.getD 1 0 &&& bitmask bits_per_axis) <<< 1)
  else if coords.length = 3 ∧ bits_per_axis ≤ 10 then
    part1by2 (coords.getD 0 0 &&& bitmask bits_per_axis) |||
      (part1by2 (coords.getD 1 0 &&& bitmask bits_per_axis) <<< 1) |||
      (part1by2 (coords.getD 2 0 &&& bitmask bits_per_axis) <<< 2)
  else interleave_generic coords bits_per_axis

/-- `ops::interleave_lsb`: dispatch `D ∈ 1..=4` to the const implementation,
larger dimensions to the generic loop. -/
def interleave_lsb (coords : List Nat) (bits_per_axis : Nat) : Nat :=
  if coords.length = 0 ∨ bits_per_axis = 0 then 0
  else if coords.length ≤ 4 then interleave_lsb_const coords bits_per_axis
  else interleave_generic coords bits_per_axis

/-- `ops::deinterleave_generic`: OR bit `bit * dimension + dim` of `value`
into bit `bit` of coordinate `dim`. -/
def deinterleave_generic (dimension bits_per_axis value : Nat) : List Nat :=
  (List.range bits_per_axis).foldl
    (fun coords bit =>
      (List.range dimension).foldl
        (fun coords dim =>
          coords.set dim
            (coords.getD dim 0 ||| ((value >>> (bit * dimension + dim)) &&& 1) <<< bit))
        coords)
    (List.replicate dimension 0)

/-- `ops::deinterleave_lsb_const::<D>`. -/
def deinterleave_lsb_const (D bits_per_axis value : Nat) : List Nat :=
  if D = 0 ∨ bits_per_axis = 0 then List.replicate D 0
  else if D = 2 ∧ bits_per_axis ≤ 16 then
    [compact1by1 value &&& bitmask bits_per_axis,
     compact1by1 (value >>> 1) &&& bitmask bits_per_axis]
  else if D = 3 ∧ bits_per_axis ≤ 10 then
    [compact1by2 value &&& bitmask bits_per_axis,
     compact1by2 (value >>> 1) &&& bitmask bits_per_axis,
     compact1by2 (value >>> 2) &&& bitmask bits_per_axis]
  else deinterleave_generic D bits_per_axis value

/-- `ops::deinterleave_lsb`: dispatch on the dimension as the source does. -/
def deinterleave_lsb (dimension bits_per_axis value : Nat) : List Nat :=
  if dimension = 0 then []
  else if bits_per_axis = 0 then List.replicate dimension 0
  else if dimension ≤ 4 then deinterleave_lsb_const dimension bits_per_axis value
  else deinterleave_generic dimension bits_per_axis value

/-! #### XOR-linearity of the magic-constant bit spreaders

Every stage `n ↦ (n ^ (n << s)) & m` (and its `>>` counterpart) is linear
over XOR, so the spread/compact functions are determined by their values on
the powers of two, which are checked by computation. -/

theorem xor_shiftLeft_distrib (x y k : Nat) :
    (x ^^^ y) <<< k = (x <<< k) ^^^ (y <<< k) := by
  apply Nat.eq_of_testBit_eq
  intro j
  rw [Nat.testBit_xor, Nat.testBit_shiftLeft, Nat.testBit_shiftLeft,
    Nat.testBit_shiftLeft, Nat.testBit_xor]
  cases decide (k ≤ j) <;> simp

theorem xor_exchange (a b c d : Nat) :
    (a ^^^ b) ^^^ (c ^^^ d) = (a ^^^ c) ^^^ (b ^^^ d) := by
  apply Nat.eq_of_testBit_eq
  intro j
  simp only [Nat.testBit_xor]
  cases a.testBit j <;> cases b.testBit j <;> cases c.testBit j <;>
    cases d.testBit j <;> rfl

theorem stageL_linear (s m x y : Nat) :
    ((x ^^^ y) ^^^ ((x ^^^ y) <<< s)) &&& m =
      ((x ^^^ (x <<< s)) &&& m) ^^^ ((y ^^^ (y <<< s)) &&& m) := by
  rw [xor_shiftLeft_distrib, xor_exchange, Nat.and_xor_distrib_right]

theorem stageR_linear (s m x y : Nat) :
    ((x ^^^ y) ^^^ ((x ^^^ y) >>> s)) &&& m =
      ((x ^^^ (x >>> s)) &&& m) ^^^ ((y ^^^ (y >>> s)) &&& m) := by
  rw [xor_shiftRight_distrib, xor_exchange, Nat.and_xor_distrib_right]

theorem part1by1_xor (x y : Nat) :
    part1by1 (x ^^^ y) = part1by1 x ^^^ part1by1 y := by
  simp only [part1by1]
  rw [@Nat.and_xor_distrib_right x y 0x0000ffff,
    stageL_linear 8 0x00ff00ff (x &&& 0x0000ffff) (y &&& 0x0000ffff),
    stageL_linear 4 0x0f0f0f0f _ _, stageL_linear 2 0x33333333 _ _,
    stageL_linear 1 0x55555555 _ _]

theorem compact1by1_xor (x y : Nat) :
    compact1by1 (x ^^^ y) = compact1by1 x ^^^ compact1by1 y := by
  simp only [compact1by1]
  rw [@Nat.and_xor_distrib_right x y 0x55555555,
    stageR_linear 1 0x33333333 (x &&& 0x55555555) (y &&& 0x55555555),
    stageR_linear 2 0x0f0f0f0f _ _, stageR_linear 4 0x00ff00ff _ _,
    stageR_linear 8 0x0000ffff _ _]

theorem part1by2_xor (x y : Nat) :
    part1by2 (x ^^^ y) = part1by2 x ^^^ part1by2 y := by
  simp only [part1by2]
  rw [@Nat.and_xor_distrib_right x y 0x000003ff,
    stageL_linear 16 0xff0000ff (x &&& 0x000003ff) (y &&& 0x000003ff),
    stageL_linear 8 0x0300f00f _ _, stageL_linear 4 0x030c30c3 _ _,
    stageL_linear 2 0x09249249 _ _]

theorem compact1by2_xor (x y : Nat) :
    compact1by2 (x ^^^ y) = compact1by2 x ^^^ compact1by2 y := by
  simp only [compact1by2]
  rw [@Nat.and_xor_distrib_right x y 0x09249249,
    stageR_linear 2 0x030c30c3 (x &&& 0x09249249) (y &&& 0x09249249),
    stageR_linear 4 0x0300f00f _ _, stageR_linear 8 0xff0000ff _ _,
    stageR_linear 16 0x000003ff _ _]

theorem two_mul_xor_one (a : Nat) : (2 * a) ^^^ 1 = 2 * a + 1 := by
  apply Nat.eq_of_testBit_eq
  intro j
  cases j with
  | zero =>
    have h0 : (2 * a) % 2 = 0 := Nat.mul_mod_right 2 a
    have h1 : (2 * a + 1) % 2 = 1 := by omega
    simp [Nat.testBit_zero, Nat.testBit_xor, h0, h1]
  | succ j =>
    rw [Nat.testBit_xor,
      show Nat.testBit 1 (j + 1) = false from by
        rw [show (1 : Nat) = 2 ^ 0 from rfl, Nat.testBit_two_pow]
        simp,
      Nat.testBit_succ, Nat.testBit_succ,
      show (2 * a) / 2 = a from by omega, show (2 * a + 1) / 2 = a from by omega]
    simp

theorem xor_low_bit (a z : Nat) :
    (2 ^ (z + 1) * a) ^^^ 2 ^ z = 2 ^ (z + 1) * a + 2 ^ z := by
  have h1 : 2 ^ (z + 1) * a = (2 * a) <<< z := by
    rw [Nat.shiftLeft_eq]
    ring
  have h2 : (2 : Nat) ^ z = 1 <<< z := by
    rw [Nat.shiftLeft_eq]
    ring
  conv_lhs => rw [h1, h2, ← xor_shiftLeft_distrib, two_mul_xor_one, Nat.shiftLeft_eq]
  ring

theorem linear_eq_on (f g : Nat → Nat)
    (hf : ∀ x y, f (x ^^^ y) = f x ^^^ f y) (hg : ∀ x y, g (x ^^^ y) = g x ^^^ g y)
    (hf0 : f 0 = 0) (hg0 : g 0 = 0) (k : Nat)
    (hbasis : ∀ i, i < k → f (2 ^ i) = g (2 ^ i)) :
    ∀ x, x < 2 ^ k → f x = g x := by
  intro x
  induction x using Nat.strong_induction_on with
  | _ x ih =>
    intro hx
    rcases Nat.eq_zero_or_pos x with h0 | h1
    · subst h0
      rw [hf0, hg0]
    · obtain ⟨a, z, hdec⟩ := exists_ctz_decomp h1
      have hz : z < k := ctz_lt_of_lt (hdec ▸ hx)
      have hzpos := Nat.two_pow_pos z
      have hA : 2 ^ (z + 1) * a < x := by omega
      have hAk : 2 ^ (z + 1) * a < 2 ^ k := by omega
      rw [hdec, ← xor_low_bit, hf, hg, ih _ hA hAk, hbasis z hz]

theorem and_mask_idem (X m : Nat) : (X &&& m) &&& m = X &&& m := by
  rw [Nat.and_assoc, Nat.and_self]

theorem part1by1_mask (x : Nat) : part1by1 (x &&& 0x0000ffff) = part1by1 x := by
  simp only [part1by1]
  rw [and_mask_idem]

theorem part1by2_mask (x : Nat) : part1by2 (x &&& 0x000003ff) = part1by2 x := by
  simp only [part1by2]
  rw [and_mask_idem]

theorem compact_part1by1 (x : Nat) :
    compact1by1 (part1by1 x) = x &&& 0x0000ffff := by
  have hmain : ∀ u, u < 2 ^ 16 → compact1by1 (part1by1 u) = u &&& 0x0000ffff :=
    linear_eq_on (fun u => compact1by1 (part1by1 u)) (fun u => u &&& 0x0000ffff)
      (fun u v => by
        show compact1by1 (part1by1 (u ^^^ v)) =
          compact1by1 (part1by1 u) ^^^ compact1by1 (part1by1 v)
        rw [part1by1_xor, compact1by1_xor])
      (fun u v => Nat.and_xor_distrib_right)
      (by decide) (by decide) 16 (by decide)
  have hx16 : x &&& 0x0000ffff < 2 ^ 16 := by
    rw [show (0x0000ffff : Nat) = 2 ^ 16 - 1 from by norm_num,
      Nat.and_pow_two_sub_one_eq_mod]
    exact Nat.mod_lt _ (by norm_num)
  calc compact1by1 (part1by1 x) = compact1by1 (part1by1 (x &&& 0x0000ffff)) := by
        rw [part1by1_mask]
    _ = (x &&& 0x0000ffff) &&& 0x0000ffff := hmain _ hx16
    _ = x &&& 0x0000ffff := and_mask_idem x _

theorem compact_part1by2 (x : Nat) :
    compact1by2 (part1by2 x) = x &&& 0x000003ff := by
  have hmain : ∀ u, u < 2 ^ 10 → compact1by2 (part1by2 u) = u &&& 0x000003ff :=
    linear_eq_on (fun u => compact1by2 (part1by2 u)) (fun u => u &&& 0x000003ff)
      (fun u v => by
        show compact1by2 (part1by2 (u ^^^ v)) =
          compact1by2 (part1by2 u) ^^^ compact1by2 (part1by2 v)
        rw [part1by2_xor, compact1by2_xor])
      (fun u v => Nat.and_xor_distrib_right)
      (by decide) (by decide) 10 (by decide)
  have hx10 : x &&& 0x000003ff < 2 ^ 10 := by
    rw [show (0x000003ff : Nat) = 2 ^ 10 - 1 from by norm_num,
      Nat.and_pow_two_sub_one_eq_mod]
    exact Nat.mod_lt _ (by norm_num)
  calc compact1by2 (part1by2 x) = compact1by2 (part1by2 (x &&& 0x000003ff)) := by
        rw [part1by2_mask]
    _ = (x &&& 0x000003ff) &&& 0x000003ff := hmain _ hx10
    _ = x &&& 0x000003ff := and_mask_idem x _

theorem part1by1_and_mask (w : Nat) :
    part1by1 w &&& 0x55555555 = part1by1 w :=
  and_mask_idem _ _

theorem part1by2_and_mask (w : Nat) :
    part1by2 w &&& 0x09249249 = part1by2 w :=
  and_mask_idem _ _

theorem mask5_bits {t : Nat} (h : (0x55555555 : Nat).testBit t = true) :
    t % 2 = 0 := by
  by_cases ht : t < 32
  · have hall : ∀ t', t' < 32 → ((0x55555555 : Nat).testBit t' = true → t' % 2 = 0) := by
      decide
    exact hall t ht h
  · exfalso
    have hlt : (0x55555555 : Nat) < 2 ^ t :=
      lt_of_lt_of_le (by norm_num : (0x55555555 : Nat) < 2 ^ 32)
        (Nat.pow_le_pow_right (by omega) (by omega))
    rw [Nat.testBit_eq_false_of_lt hlt] at h
    exact Bool.noConfusion h

theorem mask9_bits {t : Nat} (h : (0x09249249 : Nat).testBit t = true) :
    t % 3 = 0 := by
  by_cases ht : t < 32
  · have hall : ∀ t', t' < 32 → ((0x09249249 : Nat).testBit t' = true → t' % 3 = 0) := by
      decide
    exact hall t ht h
  · exfalso
    have hlt : (0x09249249 : Nat) < 2 ^ t :=
      lt_of_lt_of_le (by norm_num : (0x09249249 : Nat) < 2 ^ 32)
        (Nat.pow_le_pow_right (by omega) (by omega))
    rw [Nat.testBit_eq_false_of_lt hlt] at h
    exact Bool.noConfusion h

theorem mask_shift_disjoint_L (m s : Nat)
    (h : ∀ t, s ≤ t → m.testBit t = true → m.testBit (t - s) = true → False)
    (w : Nat) : ((w &&& m) <<< s) &&& m = 0 := by
  apply Nat.eq_of_testBit_eq
  intro t
  rw [Nat.testBit_and, Nat.testBit_shiftLeft, Nat.testBit_and, Nat.zero_testBit]
  by_cases hs : s ≤ t
  · by_cases hmt : m.testBit t = true
    · by_cases hmts : m.testBit (t - s) = true
      · exact (h t hs hmt hmts).elim
      · simp [Bool.eq_false_iff.mpr hmts]
    · simp [Bool.eq_false_iff.mpr hmt]
  · simp [hs]

theorem mask_shift_disjoint_R (m s : Nat)
    (h : ∀ t, m.testBit t = true → m.testBit (t + s) = true → False)
    (w : Nat) : ((w &&& m) >>> s) &&& m = 0 := by
  apply Nat.eq_of_testBit_eq
  intro t
  rw [Nat.testBit_and, Nat.testBit_shiftRight, Nat.testBit_and, Nat.zero_testBit]
  by_cases hmt : m.testBit t = true
  · by_cases hmst : m.testBit (s + t) = true
    · exact (h t hmt (by rw [Nat.add_comm]; exact hmst)).elim
    · simp [Bool.eq_false_iff.mpr hmst]
  · simp [Bool.eq_false_iff.mpr hmt]

theorem or_shiftRight_distrib (x y k : Nat) :
    (x ||| y) >>> k = (x >>> k) ||| (y >>> k) := by
  apply Nat.eq_of_testBit_eq
  intro j
  simp [Nat.testBit_shiftRight, Nat.testBit_or]

theorem and_or_distrib_right (a b c : Nat) :
    (a ||| b) &&& c = (a &&& c) ||| (b &&& c) := by
  apply Nat.eq_of_testBit_eq
  intro t
  simp [Nat.testBit_and, Nat.testBit_or, Bool.and_or_distrib_right]

theorem shl_shr_ge {a b : Nat} (h : b ≤ a) (x : Nat) :
    (x <<< a) >>> b = x <<< (a - b) := by
  rw [Nat.shiftLeft_eq, Nat.shiftLeft_eq, Nat.shiftRight_eq_div_pow,
    show (2 : Nat) ^ a = 2 ^ (a - b) * 2 ^ b from by rw [← pow_add]; congr 1; omega,
    ← Nat.mul_assoc, Nat.mul_div_cancel _ (Nat.two_pow_pos b)]

theorem shl_shr_le {a b : Nat} (h : a ≤ b) (x : Nat) :
    (x <<< a) >>> b = x >>> (b - a) := by
  rw [Nat.shiftLeft_eq, Nat.shiftRight_eq_div_pow, Nat.shiftRight_eq_div_pow,
    show (2 : Nat) ^ b = 2 ^ a * 2 ^ (b - a) from by rw [← pow_add]; congr 1; omega,
    Nat.mul_comm x (2 ^ a), Nat.mul_div_mul_left _ _ (Nat.two_pow_pos a)]

theorem compact1by1_congr {x y : Nat} (h : x &&& 0x55555555 = y &&& 0x55555555) :
    compact1by1 x = compact1by1 y := by
  simp only [compact1by1]
  rw [h]

theorem compact1by2_congr {x y : Nat} (h : x &&& 0x09249249 = y &&& 0x09249249) :
    compact1by2 x = compact1by2 y := by
  simp only [compact1by2]
  rw [h]

theorem mask5_step_L (t : Nat) (hs : 1 ≤ t) (h1 : (0x55555555 : Nat).testBit t = true)
    (h2 : (0x55555555 : Nat).testBit (t - 1) = true) : False := by
  have := mask5_bits h1
  have := mask5_bits h2
  omega

theorem mask5_step_R (t : Nat) (h1 : (0x55555555 : Nat).testBit t = true)
    (h2 : (0x55555555 : Nat).testBit (t + 1) = true) : False := by
  have := mask5_bits h1
  have := mask5_bits h2
  omega

theorem mask9_step_L (s : Nat) (hs1 : 1 ≤ s) (hs2 : s ≤ 2) (t : Nat) (hs : s ≤ t)
    (h1 : (0x09249249 : Nat).testBit t = true)
    (h2 : (0x09249249 : Nat).testBit (t - s) = true) : False := by
  have := mask9_bits h1
  have := mask9_bits h2
  omega

theorem mask9_step_R (s : Nat) (hs1 : 1 ≤ s) (hs2 : s ≤ 2) (t : Nat)
    (h1 : (0x09249249 : Nat).testBit t = true)
    (h2 : (0x09249249 : Nat).testBit (t + s) = true) : False := by
  have := mask9_bits h1
  have := mask9_bits h2
  omega

theorem compact1by1_or_even (A B : Nat) :
    compact1by1 (part1by1 A ||| (part1by1 B <<< 1)) = A &&& 0x0000ffff := by
  have hcong : (part1by1 A ||| (part1by1 B <<< 1)) &&& 0x55555555 =
      part1by1 A &&& 0x55555555 := by
    rw [and_or_distrib_right,
      show (part1by1 B <<< 1) &&& 0x55555555 = 0 from by
        rw [← part1by1_and_mask B]
        exact mask_shift_disjoint_L 0x55555555 1 mask5_step_L _,
      Nat.or_zero]
  rw [compact1by1_congr hcong, compact_part1by1]

theorem compact1by1_or_odd (A B : Nat) :
    compact1by1 ((part1by1 A ||| (part1by1 B <<< 1)) >>> 1) = B &&& 0x0000ffff := by
  have hcong : ((part1by1 A ||| (part1by1 B <<< 1)) >>> 1) &&& 0x55555555 =
      part1by1 B &&& 0x55555555 := by
    rw [or_shiftRight_distrib, shl_shr_ge (le_refl 1) _, Nat.shiftLeft_zero,
      and_or_distrib_right,
      show (part1by1 A >>> 1) &&& 0x55555555 = 0 from by
        rw [← part1by1_and_mask A]
        exact mask_shift_disjoint_R 0x55555555 1 mask5_step_R _,
      Nat.zero_or]
  rw [compact1by1_congr hcong, compact_part1by1]

theorem compact1by2_or0 (A B C : Nat) :
    compact1by2 (part1by2 A ||| (part1by2 B <<< 1) ||| (part1by2 C <<< 2)) =
      A &&& 0x000003ff := by
  have hcong : (part1by2 A ||| (part1by2 B <<< 1) ||| (part1by2 C <<< 2)) &&&
      0x09249249 = part1by2 A &&& 0x09249249 := by
    rw [and_or_distrib_right, and_or_distrib_right,
      show (part1by2 B <<< 1) &&& 0x09249249 = 0 from by
        rw [← part1by2_and_mask B]
        exact mask_shift_disjoint_L 0x09249249 1
          (mask9_step_L 1 (by omega) (by omega)) _,
      show (part1by2 C <<< 2) &&& 0x09249249 = 0 from by
        rw [← part1by2_and_mask C]
        exact mask_shift_disjoint_L 0x09249249 2
          (mask9_step_L 2 (by omega) (by omega)) _,
      Nat.or_zero, Nat.or_zero]
  rw [compact1by2_congr hcong, compact_part1by2]

theorem compact1by2_or1 (A B C : Nat) :
    compact1by2 ((part1by2 A ||| (part1by2 B <<< 1) ||| (part1by2 C <<< 2)) >>> 1) =
      B &&& 0x000003ff := by
  have hcong : ((part1by2 A ||| (part1by2 B <<< 1) ||| (part1by2 C <<< 2)) >>> 1) &&&
      0x09249249 = part1by2 B &&& 0x09249249 := by
    rw [or_shiftRight_distrib, or_shiftRight_distrib, shl_shr_ge (le_refl 1) _,
      Nat.shiftLeft_zero, shl_shr_ge (show (1 : Nat) ≤ 2 from by omega) _,
      and_or_distrib_right, and_or_distrib_right,
      show (part1by2 A >>> 1) &&& 0x09249249 = 0 from by
        rw [← part1by2_and_mask A]
        exact mask_shift_disjoint_R 0x09249249 1
          (mask9_step_R 1 (by omega) (by omega)) _,
      show (part1by2 C <<< (2 - 1)) &&& 0x09249249 = 0 from by
        rw [← part1by2_and_mask C]
        exact mask_shift_disjoint_L 0x09249249 (2 - 1)
          (mask9_step_L (2 - 1) (by omega) (by omega)) _,
      Nat.zero_or, Nat.or_zero]
  rw [compact1by2_congr hcong, compact_part1by2]

theorem compact1by2_or2 (A B C : Nat) :
    compact1by2 ((part1by2 A ||| (part1by2 B <<< 1) ||| (part1by2 C <<< 2)) >>> 2) =
      C &&& 0x000003ff := by
  have hcong : ((part1by2 A ||| (part1by2 B <<< 1) ||| (part1by2 C <<< 2)) >>> 2) &&&
      0x09249249 = part1by2 C &&& 0x09249249 := by
    rw [or_shiftRight_distrib, or_shiftRight_distrib,
      shl_shr_le (show (1 : Nat) ≤ 2 from by omega) _,
      shl_shr_ge (le_refl 2) _, Nat.shiftLeft_zero,
      and_or_distrib_right, and_or_distrib_right,
      show (part1by2 A >>> 2) &&& 0x09249249 = 0 from by
        rw [← part1by2_and_mask A]
        exact mask_shift_disjoint_R 0x09249249 2
          (mask9_step_R 2 (by omega) (by omega)) _,
      show (part1by2 B >>> (2 - 1)) &&& 0x09249249 = 0 from by
        rw [← part1by2_and_mask B]
        exact mask_shift_disjoint_R 0x09249249 (2 - 1)
          (mask9_step_R (2 - 1) (by omega) (by omega)) _,
      Nat.zero_or, Nat.zero_or]
  rw [compact1by2_congr hcong, compact_part1by2]

theorem setor_fold_length (g : Nat → Nat) :
    ∀ (L : List Nat) (coords : List Nat),
      (L.foldl (fun cs dim => cs.set dim (cs.getD dim 0 ||| g dim)) coords).length =
        coords.length := by
  intro L
  induction L with
  | nil => intro coords; rfl
  | cons b L ih =>
    intro coords
    rw [List.foldl_cons, ih, List.length_set]

theorem setor_fold_getD (g : Nat → Nat) :
    ∀ (L : List Nat), L.Nodup →
      ∀ (coords : List Nat) (j : Nat), j < coords.length →
      ((L.foldl (fun cs dim => cs.set dim (cs.getD dim 0 ||| g dim)) coords).getD j 0) =
        if j ∈ L then coords.getD j 0 ||| g j else coords.getD j 0 := by
  intro L
  induction L with
  | nil =>
    intro _ coords j _
    simp
  | cons b L ih =>
    intro hnd coords j hj
    have hnd' := List.nodup_cons.mp hnd
    rw [List.foldl_cons, ih hnd'.2 _ j (by rw [List.length_set]; exact hj)]
    by_cases hjb : j = b
    · subst hjb
      rw [if_neg (fun hc => hnd'.1 hc), if_pos (List.mem_cons_self j L),
        getD_set, if_pos ⟨rfl, hj⟩]
    · have hset : (coords.set b (coords.getD b 0 ||| g b)).getD j 0 =
          coords.getD j 0 := by
        rw [getD_set, if_neg (fun hc => hjb hc.1.symm)]
      rw [hset]
      by_cases hin : j ∈ L
      · rw [if_pos hin, if_pos (List.mem_cons_of_mem _ hin)]
      · rw [if_neg hin,
          if_neg (fun hc => hin ((List.mem_cons.mp hc).resolve_left hjb))]

theorem deinterleave_fold_getD (dimension value : Nat) :
    ∀ (bitsL : List Nat) (coords : List Nat) (j : Nat), j < dimension →
      coords.length = dimension →
      ((bitsL.foldl (fun cs bit =>
          (List.range dimension).foldl (fun cs dim =>
            cs.set dim
              (cs.getD dim 0 ||| ((value >>> (bit * dimension + dim)) &&& 1) <<< bit))
            cs)
          coords).getD j 0) =
        bitsL.foldl (fun acc bit =>
          acc ||| ((value >>> (bit * dimension + j)) &&& 1) <<< bit)
          (coords.getD j 0) := by
  intro bitsL
  induction bitsL with
  | nil => intro coords j _ _; rfl
  | cons bit L ih =>
    intro coords j hj hlen
    rw [List.foldl_cons, List.foldl_cons,
      ih _ j hj (by rw [setor_fold_length]; exact hlen),
      setor_fold_getD _ (List.range dimension) (List.nodup_range dimension) coords j
        (by rw [hlen]; exact hj),
      if_pos (List.mem_range.mpr hj)]

theorem deinterleave_generic_length (dimension b value : Nat) :
    (deinterleave_generic dimension b value).length = dimension := by
  unfold deinterleave_generic
  have hgen : ∀ (L : List Nat) (coords : List Nat),
      ((L.foldl (fun cs bit =>
        (List.range dimension).foldl (fun cs dim =>
          cs.set dim
            (cs.getD dim 0 ||| ((value >>> (bit * dimension + dim)) &&& 1) <<< bit))
          cs)
        coords).length) = coords.length := by
    intro L
    induction L with
    | nil => intro coords; rfl
    | cons bit L ih =>
      intro coords
      rw [List.foldl_cons, ih, setor_fold_length]
  rw [hgen, List.length_replicate]

theorem replicate_getD_zero (d c : Nat) : (List.replicate d (0 : Nat)).getD c 0 = 0 := by
  rw [List.getD_eq_getElem?_getD, List.getElem?_replicate]
  by_cases h : c < d <;> simp [h]

theorem deinterleave_generic_testBit {dimension : Nat} (b value j t : Nat)
    (hj : j < dimension) :
    ((deinterleave_generic dimension b value).getD j 0).testBit t =
      (decide (t < b) && value.testBit (t * dimension + j)) := by
  unfold deinterleave_generic
  rw [deinterleave_fold_getD dimension value (List.range b) _ j hj
    (List.length_replicate _ _), replicate_getD_zero]
  have hshifts := foldl_or_shifts
    (fun bit => (bit, (value >>> (bit * dimension + j)) &&& 1))
    (fun c => by dsimp only; exact Nat.and_le_right) (List.range b) 0 t
  dsimp only at hshifts
  rw [hshifts, Nat.zero_testBit, Bool.false_or]
  by_cases ht : t < b
  · by_cases hbit : value.testBit (t * dimension + j) = true
    · have hanyT : (List.range b).any (fun bit =>
          decide (bit = t) && decide ((value >>> (bit * dimension + j)) &&& 1 = 1)) =
          true :=
        List.any_eq_true.mpr ⟨t, List.mem_range.mpr ht,
          by rw [and_one_eq_toNat, hbit]; simp⟩
      rw [hanyT, hbit]
      simp [ht]
    · have hbit' : value.testBit (t * dimension + j) = false :=
        Bool.eq_false_iff.mpr hbit
      have hany : (List.range b).any (fun bit =>
          decide (bit = t) && decide ((value >>> (bit * dimension + j)) &&& 1 = 1)) =
          false := by
        rw [List.any_eq_false]
        intro bit hbitmem
        by_cases hs : bit = t
        · subst hs
          rw [and_one_eq_toNat, hbit']
          simp
        · simp [hs]
      rw [hany, hbit']
      simp
  · have hany : (List.range b).any (fun bit =>
        decide (bit = t) && decide ((value >>> (bit * dimension + j)) &&& 1 = 1)) =
        false := by
      rw [List.any_eq_false]
      intro bit hbitmem
      have hblt := List.mem_range.mp hbitmem
      simp [show ¬ (bit = t) from by omega]
    rw [hany]
    simp [ht]

theorem foldl_or_acc (f : Nat → Nat) :
    ∀ (L : List Nat) (acc : Nat),
      L.foldl (fun a c => a ||| f c) acc = acc ||| L.foldl (fun a c => a ||| f c) 0 := by
  intro L
  induction L with
  | nil => intro acc; exact (Nat.or_zero acc).symm
  | cons c L ih =>
    intro acc
    rw [List.foldl_cons, List.foldl_cons, ih (acc ||| f c), ih (0 ||| f c),
      Nat.zero_or, Nat.or_assoc]

theorem interleave_generic_testBit (coords : List Nat) (hd : 1 ≤ coords.length) :
    ∀ (b t : Nat),
      (interleave_generic coords b).testBit t =
        (decide (t / coords.length < b) &&
          (coords.getD (t % coords.length) 0).testBit (t / coords.length)) := by
  unfold interleave_generic
  intro b
  induction b with
  | zero =>
    intro t
    simp
  | succ b ih =>
    intro t
    rw [List.range_succ, List.foldl_append]
    simp only [List.foldl_cons, List.foldl_nil]
    rw [foldl_or_acc (fun dim => (((coords.getD dim 0) >>> b) &&& 1) <<<
        (b * coords.length + dim)) (List.range coords.length),
      Nat.testBit_or, ih t]
    have hC := foldl_or_shifts
      (fun dim => (b * coords.length + dim, ((coords.getD dim 0) >>> b) &&& 1))
      (fun c => by dsimp only; exact Nat.and_le_right) (List.range coords.length) 0 t
    dsimp only at hC
    rw [hC, Nat.zero_testBit, Bool.false_or]
    have hq := Nat.div_add_mod t coords.length
    have hmlt : t % coords.length < coords.length := Nat.mod_lt _ (by omega)
    have hcomm : b * coords.length = coords.length * b := Nat.mul_comm _ _
    have hany : (List.range coords.length).any (fun dim =>
        decide (b * coords.length + dim = t) &&
          decide ((coords.getD dim 0 >>> b) &&& 1 = 1)) =
        (decide (t / coords.length = b) &&
          (coords.getD (t % coords.length) 0).testBit b) := by
      by_cases hqb : t / coords.length = b
      · have hpos : b * coords.length + t % coords.length = t := by
          rw [hcomm, ← hqb]
          exact hq
        by_cases hbit : (coords.getD (t % coords.length) 0).testBit b = true
        · rw [List.any_eq_true.mpr ⟨t % coords.length, List.mem_range.mpr hmlt, by
            rw [and_one_eq_toNat, hbit, hpos]
            simp⟩, hbit]
          simp [hqb]
        · have hbit' : (coords.getD (t % coords.length) 0).testBit b = false :=
            Bool.eq_false_iff.mpr hbit
          rw [List.any_eq_false.mpr ?_, hbit']
          · simp
          · intro dim hdim
            have hdlt := List.mem_range.mp hdim
            by_cases hs : b * coords.length + dim = t
            · have hdim0 : dim = t % coords.length := by
                rw [hqb] at hq
                omega
              subst hdim0
              rw [and_one_eq_toNat, hbit']
              simp
            · simp [hs]
      · rw [List.any_eq_false.mpr ?_]
        · simp [hqb]
        · intro dim hdim
          have hdlt := List.mem_range.mp hdim
          by_cases hs : b * coords.length + dim = t
          · exfalso
            apply hqb
            rw [← hs, Nat.add_comm, hcomm,
              Nat.add_mul_div_left _ _ (show 0 < coords.length from by omega),
              Nat.div_eq_of_lt hdlt, Nat.zero_add]
          · simp [hs]
    rw [hany]
    by_cases hql : t / coords.length < b
    · simp [hql, show t / coords.length < b + 1 from by omega,
        show ¬ (t / coords.length = b) from by omega]
    · by_cases hqe : t / coords.length = b
      · rw [hqe]
        simp
      · simp [hql, hqe, show ¬ (t / coords.length < b + 1) from by omega]

theorem generic_roundtrip {dimension : Nat} (hd : 1 ≤ dimension) (b : Nat)
    (coords : List Nat) (hlen : coords.length = dimension) (k : Nat)
    (hk : k < dimension) :
    (deinterleave_generic dimension b (interleave_generic coords b)).getD k 0 =
      coords.getD k 0 % 2 ^ b := by
  apply Nat.eq_of_testBit_eq
  intro t
  rw [deinterleave_generic_testBit b _ k t hk, Nat.testBit_mod_two_pow]
  by_cases ht : t < b
  · rw [interleave_generic_testBit coords (by omega) b (t * dimension + k), hlen,
      show (t * dimension + k) / dimension = t from by
        rw [Nat.add_comm, Nat.mul_comm,
          Nat.add_mul_div_left _ _ (show 0 < dimension from by omega),
          Nat.div_eq_of_lt hk, Nat.zero_add],
      show (t * dimension + k) % dimension = k from by
        rw [Nat.add_comm, Nat.mul_comm, Nat.add_mul_mod_self_left,
          Nat.mod_eq_of_lt hk]]
    simp [ht]
  · simp [ht]

theorem bitmask_lt32 {b : Nat} (hb : b < 32) : bitmask b = 2 ^ b - 1 := by
  unfold bitmask
  rw [if_neg (by omega)]
  cases b with
  | zero => rfl
  | succ b =>
    show 1 <<< (b + 1) - 1 = 2 ^ (b + 1) - 1
    rw [Nat.one_shiftLeft]

theorem and_masks_to_mod {b K : Nat} (hbK : b ≤ K) (x : Nat) :
    ((x &&& (2 ^ b - 1)) &&& (2 ^ K - 1)) &&& (2 ^ b - 1) = x % 2 ^ b := by
  rw [Nat.and_pow_two_sub_one_eq_mod, Nat.and_pow_two_sub_one_eq_mod,
    Nat.and_pow_two_sub_one_eq_mod,
    Nat.mod_eq_of_lt (lt_of_lt_of_le (Nat.mod_lt _ (Nat.two_pow_pos b))
      (Nat.pow_le_pow_right (by omega) hbK)),
    Nat.mod_mod_of_dvd _ (dvd_refl _)]

theorem morton2_c0 {b : Nat} (hb : b ≤ 16) (c0 c1 : Nat) :
    compact1by1 (part1by1 (c0 &&& bitmask b) |||
      (part1by1 (c1 &&& bitmask b) <<< 1)) &&& bitmask b = c0 % 2 ^ b := by
  rw [compact1by1_or_even, bitmask_lt32 (by omega),
    show (0x0000ffff : Nat) = 2 ^ 16 - 1 from by norm_num, and_masks_to_mod hb]

theorem morton2_c1 {b : Nat} (hb : b ≤ 16) (c0 c1 : Nat) :
    compact1by1 ((part1by1 (c0 &&& bitmask b) |||
      (part1by1 (c1 &&& bitmask b) <<< 1)) >>> 1) &&& bitmask b = c1 % 2 ^ b := by
  rw [compact1by1_or_odd, bitmask_lt32 (by omega),
    show (0x0000ffff : Nat) = 2 ^ 16 - 1 from by norm_num, and_masks_to_mod hb]

theorem morton3_c0 {b : Nat} (hb : b ≤ 10) (c0 c1 c2 : Nat) :
    compact1by2 (part1by2 (c0 &&& bitmask b) |||
      (part1by2 (c1 &&& bitmask b) <<< 1) |||
      (part1by2 (c2 &&& bitmask b) <<< 2)) &&& bitmask b = c0 % 2 ^ b := by
  rw [compact1by2_or0, bitmask_lt32 (by omega),
    show (0x000003ff : Nat) = 2 ^ 10 - 1 from by norm_num, and_masks_to_mod hb]

theorem morton3_c1 {b : Nat} (hb : b ≤ 10) (c0 c1 c2 : Nat) :
    compact1by2 ((part1by2 (c0 &&& bitmask b) |||
      (part1by2 (c1 &&& bitmask b) <<< 1) |||
      (part1by2 (c2 &&& bitmask b) <<< 2)) >>> 1) &&& bitmask b = c1 % 2 ^ b := by
  rw [compact1by2_or1, bitmask_lt32 (by omega),
    show (0x000003ff : Nat) = 2 ^ 10 - 1 from by norm_num, and_masks_to_mod hb]

theorem morton3_c2 {b : Nat} (hb : b ≤ 10) (c0 c1 c2 : Nat) :
    compact1by2 ((part1by2 (c0 &&& bitmask b) |||
      (part1by2 (c1 &&& bitmask b) <<< 1) |||
      (part1by2 (c2 &&& bitmask b) <<< 2)) >>> 2) &&& bitmask b = c2 % 2 ^ b := by
  rw [compact1by2_or2, bitmask_lt32 (by omega),
    show (0x000003ff : Nat) = 2 ^ 10 - 1 from by norm_num, and_masks_to_mod hb]

end Ops

/-- Claim C8: Morton interleave/deinterleave round-trip. For every dimension
`d ≥ 1` and `bits_per_axis` `b` with `d * b ≤ 32`, and every list of `d`
coordinates, deinterleaving the interleaved value returns `d` coordinates
whose `k`-th entry is coordinate `k` truncated to its low `b` bits — through
the dispatcher, covering the `d = 2` / `d = 3` magic-constant paths and the
generic bit-by-bit loop alike. -/
theorem claim_C8 (d b : Nat) (hd : 1 ≤ d) (hv : d * b ≤ 32) :
    ∀ coords : List Nat, coords.length = d →
      (Ops.deinterleave_lsb d b (Ops.interleave_lsb coords b)).length = d ∧
      ∀ k, k < d →
        (Ops.deinterleave_lsb d b (Ops.interleave_lsb coords b)).getD k 0 =
          coords.getD k 0 % 2 ^ b := by
  intro coords hlen
  by_cases hb0 : b = 0
  · subst hb0
    unfold Ops.deinterleave_lsb
    rw [if_neg (show ¬ (d = 0) from by omega), if_pos rfl]
    refine ⟨List.length_replicate _ _, ?_⟩
    intro k hk
    rw [Ops.replicate_getD_zero, Nat.pow_zero, Nat.mod_one]
  · have hb1 : 1 ≤ b := by omega
    unfold Ops.deinterleave_lsb Ops.interleave_lsb
    rw [if_neg (show ¬ (coords.length = 0 ∨ b = 0) from by rw [hlen]; omega),
      if_neg (show ¬ (d = 0) from by omega), if_neg hb0]
    by_cases hd4 : d ≤ 4
    · rw [if_pos (show coords.length ≤ 4 from by omega), if_pos hd4]
      unfold Ops.interleave_lsb_const Ops.deinterleave_lsb_const
      rw [if_neg (show ¬ (coords.length = 0 ∨ b = 0) from by rw [hlen]; omega),
        if_neg (show ¬ (d = 0 ∨ b = 0) from by omega)]
      by_cases hd2 : d = 2
      · subst hd2
        have hb16 : b ≤ 16 := by omega
        rw [if_pos (show coords.length = 2 ∧ b ≤ 16 from ⟨hlen, hb16⟩),
          if_pos (show (2 : Nat) = 2 ∧ b ≤ 16 from ⟨rfl, hb16⟩)]
        refine ⟨rfl, ?_⟩
        intro k hk
        interval_cases k
        · exact Ops.morton2_c0 hb16 _ _
        · exact Ops.morton2_c1 hb16 _ _
      · by_cases hd3 : d = 3
        · subst hd3
          have hb10 : b ≤ 10 := by omega
          rw [if_neg (show ¬ (coords.length = 2 ∧ b ≤ 16) from by rw [hlen]; omega),
            if_pos (show coords.length = 3 ∧ b ≤ 10 from ⟨hlen, hb10⟩),
            if_neg (show ¬ ((3 : Nat) = 2 ∧ b ≤ 16) from by omega),
            if_pos (show (3 : Nat) = 3 ∧ b ≤ 10 from ⟨rfl, hb10⟩)]
          refine ⟨rfl, ?_⟩
          intro k hk
          interval_cases k
          · exact Ops.morton3_c0 hb10 _ _ _
          · exact Ops.morton3_c1 hb10 _ _ _
          · exact Ops.morton3_c2 hb10 _ _ _
        · rw [if_neg (show ¬ (coords.length = 2 ∧ b ≤ 16) from by rw [hlen]; omega),
            if_neg (show ¬ (coords.length = 3 ∧ b ≤ 10) from by rw [hlen]; omega),
            if_neg (show ¬ (d = 2 ∧ b ≤ 16) from by omega),
            if_neg (show ¬ (d = 3 ∧ b ≤ 10) from by omega)]
          exact ⟨Ops.deinterleave_generic_length _ _ _,
            fun k hk => Ops.generic_roundtrip hd b coords hlen k hk⟩
    · rw [if_neg (show ¬ (coords.length ≤ 4) from by omega), if_neg hd4]
      exact ⟨Ops.deinterleave_generic_length _ _ _,
        fun k hk => Ops.generic_roundtrip hd b coords hlen k hk⟩

/-- Concrete instance of claim C8: a 2D round trip through the
magic-constant path. -/
theorem claim_C8_witness :
    1 ≤ 2 ∧ 2 * 8 ≤ 32 ∧ ([5, 6] : List Nat).length = 2 ∧
      (Ops.deinterleave_lsb 2 8 (Ops.interleave_lsb [5, 6] 8)).getD 0 0 = 5 % 2 ^ 8 :=
  ⟨by decide, by decide, by decide,
    (claim_C8 2 8 (by decide) (by decide) [5, 6] (by decide)).2 0 (by decide)⟩

end Spacecurve




